import Mathlib

/-! Proof-of-stake kernel and stake modifier (`src/pos.cpp`).

A shallow embedding of the stake-modifier selection, the kernel checks and the
stake validator of `pos.cpp`, followed by theorems about them.

Conventions of the embedding.

* Unsigned machine words (`unsigned int`, `uint64_t`, `uint256`) are natural
  numbers, signed 64-bit values are integers; a reduction `% 2 ^ w` is written
  wherever the source truncates.
* A `CBlockIndex*` is the list of index entries reached through `pprev`: the
  head is the entry pointed to, the tail its chain of predecessors, and `[]` is
  the null pointer.
* What `pos.cpp` only calls (hashing, the transaction store, the block index,
  the script interpreter, the clock, floating point) is a field of `Env`.
* A result `none` of a function returning `Option` stands for an execution
  without a defined result (an out-of-range element access or a failed
  `assert`), unless the function documents it otherwise.
-/

namespace Pos

/-! ## Data model -/

/-- Consensus parameters, read in the source through `Params().GetConsensus()`.
Their declaration is outside `pos.cpp`; they are taken as signed 64-bit
quantities, the modifier interval as an unsigned one. -/
structure Params where
  nStakeMinAge : Int
  nStakeMaxAge : Int
  nModifierInterval : Nat
  nTargetSpacing : Int
  nStakeTimestampMask : Int
  nCoinbaseMaturity : Int
  IsProtocolV3 : Int → Bool

/-- One entry of the block index (the fields `pos.cpp` reads); `pprev` is kept
outside the record, see `BlockPtr`. -/
structure CBlockIndex where
  phashBlock : Nat
  nHeight : Int
  nTime : Nat
  nStakeModifier : Nat
  nStakeModifierV2 : Nat
  hashProof : Nat
  fGeneratedStakeModifier : Bool
  fProofOfStake : Bool
  nStakeEntropyBit : Nat
deriving DecidableEq

/-- A `const CBlockIndex*`: the entry pointed to followed by its `pprev` chain;
`[]` is the null pointer. -/
abbrev BlockPtr := List CBlockIndex

structure COutPoint where
  hash : Nat
  n : Nat
deriving DecidableEq

structure CTxIn where
  prevout : COutPoint
  scriptSig : List Nat
deriving DecidableEq

structure CTxOut where
  nValue : Int
  scriptPubKey : List Nat
deriving DecidableEq

/-- A transaction; `hash`, `fCoinBase` and `fCoinStake` are the results of
`GetHash()`, `IsCoinBase()` and `IsCoinStake()`. -/
structure CTransaction where
  hash : Nat
  nTime : Nat
  fCoinBase : Bool
  fCoinStake : Bool
  vin : List CTxIn
  vout : List CTxOut
deriving DecidableEq

/-- Everything `pos.cpp` reaches outside itself. -/
structure Env where
  params : Params
  /-- The map `mapBlockIndex`: block hash to the entry and its `pprev` chain. -/
  mapBlockIndex : Nat → Option (CBlockIndex × BlockPtr)
  /-- The lookup `GetTransaction`: the transaction and the hash of its block. -/
  GetTransaction : Nat → Option (CTransaction × Nat)
  /-- Double SHA-256 of a byte string, as a 256-bit little-endian integer
  (`Hash(begin, end)` and `CHashWriter::GetHash`). -/
  Hash : List Nat → Nat
  /-- The call `VerifyScript(scriptSig, scriptPubKey, flags, checker(txTo, nIn))`. -/
  VerifyScript : List Nat → List Nat → Nat → CTransaction → Nat → Bool
  /-- The clock `GetAdjustedTime()`. -/
  adjustedTime : Int
  fDebug : Bool
  /-- The double-precision part of `GetCoinAgeWeight`: from the seconds beyond
  the minimum age to `(int64_t)(weight * 24 * 60 * 60)`. -/
  coinAgeCurve : Int → Int

/-- Modelled from the spec: the validation-state object that records the
severity score of a rejection (`CValidationState`, declared outside
`pos.cpp`). -/
structure CValidationState where
  nDoS : Int
  fInvalid : Bool
deriving DecidableEq

/-- Modelled from the spec: `state.DoS(level, false)` records the score, marks
the state invalid and returns false. -/
def CValidationState.DoS (state : CValidationState) (level : Int) : Bool × CValidationState :=
  (false, { nDoS := state.nDoS + level, fInvalid := true })

def COIN : Nat := 100000000

def CENT : Nat := 1000000

def MODIFIER_INTERVAL_RATIO : Nat := 3

def SCRIPT_VERIFY_NONE : Nat := 0

/-! ## Serialization and 256-bit arithmetic -/

/-- Little-endian serialization of `v` on `k` bytes. -/
def serLE : Nat → Nat → List Nat
  | 0, _ => []
  | k + 1, v => (v % 256) :: serLE k (v / 256)

def ser32 (v : Nat) : List Nat := serLE 4 v

def ser64 (v : Nat) : List Nat := serLE 8 v

def ser256 (v : Nat) : List Nat := serLE 32 v

/-- The conversion `int64_t` to `uint64_t` made by `arith_uint256(nValueIn)`. -/
def toU64 (x : Int) : Nat := (x % 2 ^ 64).toNat

/-- The conversion `int64_t` to `uint32_t` made when an `arith_uint256` is
multiplied by a built-in integer (the 32-bit word overload of `operator*`). -/
def toU32 (x : Int) : Nat := (x % 2 ^ 32).toNat

/-- Modelled from the spec: `arith_uint256::SetCompact`, the compact target
encoding (exponent in the high byte, 23-bit mantissa, bit 23 the sign, which
the callers here ignore), as a 256-bit value. -/
def SetCompact (nCompact : Nat) : Nat :=
  let nSize := (nCompact % 2 ^ 32) >>> 24
  let nWord := nCompact &&& 0x007fffff
  if nSize ≤ 3 then nWord >>> (8 * (3 - nSize))
  else (nWord <<< (8 * (nSize - 3))) % 2 ^ 256

/-! ## Timestamps (`pos.cpp` 20-33) -/

def CheckCoinStakeTimestamp (params : Params) (nTimeBlock nTimeTx : Int) : Bool :=
  if params.IsProtocolV3 nTimeBlock then
    (nTimeBlock == nTimeTx) && (Int.land nTimeTx params.nStakeTimestampMask == 0)
  else
    nTimeBlock == nTimeTx

def CheckStakeBlockTimestamp (params : Params) (nTimeBlock : Int) : Bool :=
  CheckCoinStakeTimestamp params nTimeBlock nTimeBlock

/-! ## Coin age weight (`pos.cpp` 61-83) -/

def GetCoinAgeWeight (env : Env) (nIntervalBeginning nIntervalEnd : Int) : Int :=
  if nIntervalBeginning ≤ 0 then 0
  else
    let nSeconds := max 0 (nIntervalEnd - nIntervalBeginning - env.params.nStakeMinAge)
    min (env.coinAgeCurve nSeconds) env.params.nStakeMaxAge

/-! ## Stake modifier (`pos.cpp` 128-307) -/

/-- The result is `(nStakeModifier, nModifierTime)`; `none` is the
`error("null pindex")` return. -/
def GetLastStakeModifier : BlockPtr → Option (Nat × Nat)
  | [] => none
  | pindex :: pprev =>
    if !pprev.isEmpty && !pindex.fGeneratedStakeModifier then GetLastStakeModifier pprev
    else if !pindex.fGeneratedStakeModifier then some (1, pindex.nTime)
    else some (pindex.nStakeModifier, pindex.nTime)

/-- Callers pass `nSection` in `[0, 64)`, as the source asserts. -/
def GetStakeModifierSelectionIntervalSection (params : Params) (nSection : Nat) : Nat :=
  params.nModifierInterval * 63 / (63 + ((63 - nSection) * ( MODIFIER_INTERVAL_RATIO - 1)))

def GetStakeModifierSelectionInterval (params : Params) : Nat :=
  (List.range 64).foldl (fun nSelectionInterval nSection =>
    nSelectionInterval + GetStakeModifierSelectionIntervalSection params nSection) 0

/-- The comparison `memcmp(a, b, n) < 0` of two byte strings of equal length:
the first differing byte decides. -/
def memcmpLt : List Nat → List Nat → Bool
  | a :: as, b :: bs => if a < b then true else if b < a then false else memcmpLt as bs
  | _, _ => false

/-- Modelled from the spec: `operator<` of two `uint256` values, the order in
which the spec's smallest `h` and its ascending hashes are taken. The type is
declared in `uint256.h`, outside the sources; it is the 32-byte blob that
`pos.cpp` converts to `arith_uint256` wherever it computes, and its comparison
is `memcmp` over the 32 bytes from byte 0, the least significant byte of the
value. This is not the numeric order of the value. -/
def uint256Lt (a b : Nat) : Bool := memcmpLt (ser256 a) (ser256 b)

/-- The number whose base-256 digits, most significant first, are the bytes of
the blob from byte 0 on: `uint256Lt` is the order of these numbers. -/
def blobKey (a : Nat) : Nat := (ser256 a).foldl (fun acc byte => acc * 256 + byte) 0

/-- The selection hash of a candidate: the hash of its proof hash and the
previous modifier, shifted right by 32 bits for a proof-of-stake block. -/
def selectionHash (env : Env) (pindex : CBlockIndex) (nStakeModifierPrev : Nat) : Nat :=
  let hashSelection := env.Hash (ser256 pindex.hashProof ++ ser64 nStakeModifierPrev)
  if pindex.fProofOfStake then hashSelection >>> 32 else hashSelection

/-- The loop of `SelectBlockFromCandidates`. The accumulator is `none` while
`fSelected` is false and otherwise holds `hashBest` and `*pindexSelected`;
`mapSelectedBlocks` is the list of its keys. -/
def selectLoop (env : Env) (mapSelectedBlocks : List Nat) (nSelectionIntervalStop : Int)
    (nStakeModifierPrev : Nat) : List (Int × Nat) → Option (Nat × CBlockIndex) → Option CBlockIndex
  | [], best => best.map Prod.snd
  | item :: rest, best =>
    match env.mapBlockIndex item.2 with
    | none => none
    | some (pindex, _) =>
      if best.isSome && (pindex.nTime : Int) > nSelectionIntervalStop then best.map Prod.snd
      else if mapSelectedBlocks.contains pindex.phashBlock then
        selectLoop env mapSelectedBlocks nSelectionIntervalStop nStakeModifierPrev rest best
      else
        let hashSelection := selectionHash env pindex nStakeModifierPrev
        match best with
        | some (hashBest, _) =>
          if uint256Lt hashSelection hashBest then
            selectLoop env mapSelectedBlocks nSelectionIntervalStop nStakeModifierPrev rest
              (some (hashSelection, pindex))
          else
            selectLoop env mapSelectedBlocks nSelectionIntervalStop nStakeModifierPrev rest best
        | none =>
          selectLoop env mapSelectedBlocks nSelectionIntervalStop nStakeModifierPrev rest
            (some (hashSelection, pindex))

/-- The result is `some pindexSelected` when the source returns true and `none`
when it returns false (no block selected, or a candidate missing from the
index). -/
def SelectBlockFromCandidates (env : Env) (vSortedByTimestamp : List (Int × Nat))
    (mapSelectedBlocks : List Nat) (nSelectionIntervalStop : Int) (nStakeModifierPrev : Nat) :
    Option CBlockIndex :=
  selectLoop env mapSelectedBlocks nSelectionIntervalStop nStakeModifierPrev vSortedByTimestamp none

/-- The comparison `operator<` of `std::pair<int64_t, uint256>`: by time, then
by hash in the order of `uint256`. -/
def pairLt (a b : Int × Nat) : Prop := a.1 < b.1 ∨ (¬ b.1 < a.1 ∧ uint256Lt a.2 b.2 = true)

instance pairLtDecidable : DecidableRel pairLt := fun a b => by
  unfold pairLt
  exact inferInstance

/-- The relation between an earlier and a later element of a range sorted by
`std::sort`: the later one is not less than the earlier one. -/
def pairLe (a b : Int × Nat) : Prop := ¬ pairLt b a

instance pairLeDecidable : DecidableRel pairLe := fun a b => by
  unfold pairLe
  exact inferInstance

/-- The walk collecting the candidates: from `pindexPrev` back while the block
time is at least `nSelectionIntervalStart`. -/
def collectCandidates (nSelectionIntervalStart : Int) : BlockPtr → List (Int × Nat)
  | [] => []
  | pindex :: pprev =>
    if (pindex.nTime : Int) ≥ nSelectionIntervalStart then
      ((pindex.nTime : Int), pindex.phashBlock) :: collectCandidates nSelectionIntervalStart pprev
    else []

/-- The selection rounds `nRound, nRound + 1, ...`, `nRounds` of them. -/
def selectionRounds (env : Env) (vSortedByTimestamp : List (Int × Nat)) (nStakeModifier : Nat) :
    (nRounds : Nat) → (nRound : Nat) → (nSelectionIntervalStop : Int) →
    (mapSelectedBlocks : List Nat) → (nStakeModifierNew : Nat) → Option Nat
  | 0, _, _, _, nStakeModifierNew => some nStakeModifierNew
  | nRounds + 1, nRound, nSelectionIntervalStop, mapSelectedBlocks, nStakeModifierNew =>
    let nStop := nSelectionIntervalStop + GetStakeModifierSelectionIntervalSection env.params nRound
    match SelectBlockFromCandidates env vSortedByTimestamp mapSelectedBlocks nStop nStakeModifier with
    | none => none
    | some pindex =>
      selectionRounds env vSortedByTimestamp nStakeModifier nRounds (nRound + 1) nStop
        (pindex.phashBlock :: mapSelectedBlocks)
        (nStakeModifierNew ||| ((pindex.nStakeEntropyBit <<< nRound) % 2 ^ 64))

/-- The result is `(nStakeModifier, fGeneratedStakeModifier)`; `none` is a
return of false. The selection map printed under `fDebug` is not modelled. -/
def ComputeNextStakeModifier (env : Env) (pindexPrev : BlockPtr) : Option (Nat × Bool) :=
  match pindexPrev with
  | [] => some (0, true)
  | prev :: _ =>
    let nModifierInterval := env.params.nModifierInterval
    match GetLastStakeModifier pindexPrev with
    | none => none
    | some (nStakeModifier, nModifierTime) =>
      if nModifierTime / nModifierInterval ≥ prev.nTime / nModifierInterval then
        some (nStakeModifier, false)
      else
        let nSelectionInterval := GetStakeModifierSelectionInterval env.params
        let nSelectionIntervalStart : Int :=
          ((prev.nTime / nModifierInterval * nModifierInterval : Nat) : Int) - nSelectionInterval
        let vSortedByTimestamp :=
          List.insertionSort pairLe (collectCandidates nSelectionIntervalStart pindexPrev).reverse
        match selectionRounds env vSortedByTimestamp nStakeModifier
            (min 64 vSortedByTimestamp.length) 0 nSelectionIntervalStart [] 0 with
        | none => none
        | some nStakeModifierNew => some (nStakeModifierNew, true)

/-! ## Kernel stake modifier (`pos.cpp` 311-341) -/

/-- Outcome of `GetKernelStakeModifier`: success with the three output
parameters, or one of its three returns of false (two through `error`, which
logs, and one silent). -/
inductive ModifierLookup where
  | found (nStakeModifier : Nat) (nStakeModifierHeight : Int) (nStakeModifierTime : Nat)
  | notIndexed
  | reachedBest
  | behind
deriving DecidableEq

/-- The boolean returned by `GetKernelStakeModifier`. -/
def ModifierLookup.ok : ModifierLookup → Bool
  | .found _ _ _ => true
  | _ => false

/-- The loop of `GetKernelStakeModifier`: `pindex` with its `pprev` chain, and
the current `nStakeModifierHeight` and `nStakeModifierTime`; `nLimit` is
`pindexFrom->GetBlockTime() + nStakeModifierSelectionInterval`. -/
def kernelModifierWalk (env : Env) (fPrintProofOfStake : Bool) (nLimit : Int) :
    CBlockIndex → BlockPtr → Int → Nat → ModifierLookup
  | pindex, [], nStakeModifierHeight, nStakeModifierTime =>
    if (nStakeModifierTime : Int) < nLimit then
      if fPrintProofOfStake || decide ((pindex.nTime : Int) + env.params.nStakeMinAge
          - GetStakeModifierSelectionInterval env.params > env.adjustedTime) then
        .reachedBest
      else .behind
    else .found pindex.nStakeModifier nStakeModifierHeight nStakeModifierTime
  | pindex, pprev :: rest, nStakeModifierHeight, nStakeModifierTime =>
    if (nStakeModifierTime : Int) < nLimit then
      if pprev.fGeneratedStakeModifier then
        kernelModifierWalk env fPrintProofOfStake nLimit pprev rest pprev.nHeight pprev.nTime
      else
        kernelModifierWalk env fPrintProofOfStake nLimit pprev rest nStakeModifierHeight
          nStakeModifierTime
    else .found pindex.nStakeModifier nStakeModifierHeight nStakeModifierTime

def GetKernelStakeModifier (env : Env) (hashBlockFrom : Nat) (fPrintProofOfStake : Bool) :
    ModifierLookup :=
  match env.mapBlockIndex hashBlockFrom with
  | none => .notIndexed
  | some (pindexFrom, pprev) =>
    kernelModifierWalk env fPrintProofOfStake
      ((pindexFrom.nTime : Int) + GetStakeModifierSelectionInterval env.params)
      pindexFrom pprev pindexFrom.nHeight pindexFrom.nTime

/-! ## Stake modifier v2 (`pos.cpp` 348-356) -/

def ComputeStakeModifierV2 (env : Env) (pindexPrev : BlockPtr) (kernel : Nat) : Nat :=
  match pindexPrev with
  | [] => 0
  | prev :: _ => env.Hash (ser256 kernel ++ ser256 prev.nStakeModifierV2)

/-! ## Kernel checks (`pos.cpp` 379-516) -/

/-- The byte stream hashed by the v1 kernel. -/
def kernelStreamV1 (nStakeModifier nTimeBlockFrom nTxPrevOffset nTimeTxPrev n nTimeTx : Nat) :
    List Nat :=
  ser64 nStakeModifier ++ ser32 nTimeBlockFrom ++ ser32 nTxPrevOffset ++ ser32 nTimeTxPrev
    ++ ser32 n ++ ser32 nTimeTx

/-- The coin-day weight of the v1 kernel:
`arith_uint256(nValueIn) * GetCoinAgeWeight(..) / COIN / (24 * 60 * 60)`. -/
def coinDayWeight (nValueIn nTimeWeight : Int) : Nat :=
  (toU64 nValueIn * toU32 nTimeWeight) % 2 ^ 256 / COIN / (24 * 60 * 60)

def CheckStakeKernelHashV1 (env : Env) (nBits : Nat) (blockFrom : CBlockIndex)
    (nTxPrevOffset : Nat) (txPrev : CTransaction) (prevout : COutPoint) (nTimeTx : Nat)
    (fPrintProofOfStake : Bool) : Option Bool :=
  let nTimeBlockFrom := blockFrom.nTime % 2 ^ 32
  let nTimeTxPrev := if txPrev.nTime = 0 then nTimeBlockFrom else txPrev.nTime
  if nTimeTx < nTimeTxPrev then some false
  else if (nTimeBlockFrom : Int) + env.params.nStakeMinAge > nTimeTx then some false
  else
    let bnTargetPerCoinDay := SetCompact nBits
    match txPrev.vout[prevout.n]? with
    | none => none
    | some txout =>
      let bnCoinDayWeight :=
        coinDayWeight txout.nValue (GetCoinAgeWeight env (nTimeTxPrev : Int) (nTimeTx : Int))
      match GetKernelStakeModifier env blockFrom.phashBlock fPrintProofOfStake with
      | .found nStakeModifier _ _ =>
        let hashProofOfStake := env.Hash
          (kernelStreamV1 nStakeModifier nTimeBlockFrom nTxPrevOffset nTimeTxPrev prevout.n nTimeTx)
        if hashProofOfStake > (bnCoinDayWeight * bnTargetPerCoinDay) % 2 ^ 256 then some false
        else some true
      | _ => some false

/-- The byte stream hashed by the v2 kernel. -/
def kernelStreamV2 (nStakeModifierV2 nTimeTxPrev hashPrevout n nTimeTx : Nat) : List Nat :=
  ser256 nStakeModifierV2 ++ ser32 nTimeTxPrev ++ ser256 hashPrevout ++ ser32 n ++ ser32 nTimeTx

/-- The argument `fPrintProofOfStake` of the source only selects log output and
is left out. -/
def CheckStakeKernelHashV2 (env : Env) (pindexPrev : CBlockIndex) (nBits : Nat)
    (txPrev : CTransaction) (prevout : COutPoint) (nTimeTx : Nat) : Option Bool :=
  if nTimeTx < txPrev.nTime then some false
  else
    let bnTarget := SetCompact nBits
    match txPrev.vout[prevout.n]? with
    | none => none
    | some txout =>
      if txout.nValue = 0 then some false
      else
        let bnWeight := toU64 txout.nValue
        let bnTarget := (bnTarget * bnWeight) % 2 ^ 256
        let hashProofOfStake := env.Hash
          (kernelStreamV2 pindexPrev.nStakeModifierV2 txPrev.nTime prevout.hash prevout.n nTimeTx)
        if hashProofOfStake > bnTarget then some false else some true

def CheckStakeKernelHash (env : Env) (pindexPrev : CBlockIndex) (nBits : Nat)
    (blockFrom : CBlockIndex) (nTxPrevOffset : Nat) (txPrev : CTransaction) (prevout : COutPoint)
    (nTimeTx : Nat) (fPrintProofOfStake : Bool) : Option Bool :=
  if env.params.IsProtocolV3 (pindexPrev.nHeight + 1) then
    CheckStakeKernelHashV2 env pindexPrev nBits txPrev prevout nTimeTx
  else
    CheckStakeKernelHashV1 env nBits blockFrom nTxPrevOffset txPrev prevout nTimeTx
      fPrintProofOfStake

/-! ## Stake validator (`pos.cpp` 519-569) -/

/-- The argument `nHashType` of the source is unused and left out. -/
def VerifySignature (env : Env) (txFrom txTo : CTransaction) (nIn flags : Nat) : Option Bool :=
  match txTo.vin[nIn]? with
  | none => none
  | some txin =>
    match txFrom.vout[txin.prevout.n]? with
    | none => some false
    | some txout =>
      if txin.prevout.hash ≠ txFrom.hash then some false
      else some (env.VerifyScript txin.scriptSig txout.scriptPubKey flags txTo nIn)

def CheckProofOfStake (env : Env) (pindexPrev : CBlockIndex) (tx : CTransaction) (nBits : Nat)
    (state : CValidationState) : Option (Bool × CValidationState) :=
  if !tx.fCoinStake then some (false, state)
  else
    match tx.vin[0]? with
    | none => none
    | some txin =>
      match env.GetTransaction txin.prevout.hash with
      | none => some (state.DoS 100)
      | some (txPrev, hashBlock) =>
        match env.mapBlockIndex hashBlock with
        | none => if env.fDebug then some (state.DoS 100) else some (false, state)
        | some (pblockindex, _) =>
          if txin.prevout.hash ≠ txPrev.hash then some (state.DoS 100)
          else
            match VerifySignature env txPrev tx 0 SCRIPT_VERIFY_NONE with
            | none => none
            | some false => some (state.DoS 100)
            | some true =>
              if pindexPrev.nHeight + 1 - pblockindex.nHeight < env.params.nCoinbaseMaturity then
                some (state.DoS 100)
              else
                match CheckStakeKernelHash env pindexPrev nBits pblockindex txin.prevout.n txPrev
                    txin.prevout tx.nTime env.fDebug with
                | none => none
                | some false => some (state.DoS 1)
                | some true => some (true, state)

/-- The staking-side kernel check `CheckKernel` (`pos.cpp` 571-595). The
source passes `txin.prevout.n` to `CheckStakeKernelHash` with no `txin` in
scope and leaves out the last argument of the callee: here the output index is
read from the parameter `prevout`, and the print flag handed to the callee is a
parameter. -/
def CheckKernel (env : Env) (pindexPrev : CBlockIndex) (nBits nTime : Nat) (prevout : COutPoint)
    (fPrintProofOfStake : Bool) : Option Bool :=
  match env.GetTransaction prevout.hash with
  | none => some false
  | some (txPrev, hashBlock) =>
    match env.mapBlockIndex hashBlock with
    | none => some false
    | some (pblockindex, _) =>
      if pindexPrev.nHeight + 1 - pblockindex.nHeight < env.params.nCoinbaseMaturity then
        some false
      else
        CheckStakeKernelHash env pindexPrev nBits pblockindex prevout.n txPrev prevout nTime
          fPrintProofOfStake

/-! ## Coin age of a transaction (`pos.cpp` 85-125) -/

/-- The loop of `TransactionGetCoinAge` over the inputs, with the accumulator
`bnCentSecond`. The result `some none` is a return of false and
`some (some bnCentSecond)` the end of the loop. -/
def coinAgeLoop (env : Env) (transaction : CTransaction) : List CTxIn → Nat → Option (Option Nat)
  | [], bnCentSecond => some (some bnCentSecond)
  | txin :: rest, bnCentSecond =>
    match env.GetTransaction txin.prevout.hash with
    | none => coinAgeLoop env transaction rest bnCentSecond
    | some (txPrev, hashBlock) =>
      if transaction.nTime < txPrev.nTime then some none
      else
        match env.mapBlockIndex hashBlock with
        | none => some none
        | some (pblockindex, _) =>
          if (pblockindex.nTime : Int) + env.params.nStakeMinAge > transaction.nTime then
            coinAgeLoop env transaction rest bnCentSecond
          else
            match txPrev.vout[txin.prevout.n]? with
            | none => none
            | some txout =>
              let nTimeWeight := GetCoinAgeWeight env (txPrev.nTime : Int) (transaction.nTime : Int)
              coinAgeLoop env transaction rest
                ((bnCentSecond + (toU64 txout.nValue * toU32 nTimeWeight) % 2 ^ 256 / CENT)
                  % 2 ^ 256)

/-- The result is the returned boolean and the output parameter `nCoinAge`. -/
def TransactionGetCoinAge (env : Env) (transaction : CTransaction) : Option (Bool × Nat) :=
  if transaction.fCoinBase then some (true, 0)
  else
    match coinAgeLoop env transaction transaction.vin 0 with
    | none => none
    | some none => some (false, 0)
    | some (some bnCentSecond) =>
      let bnCoinDay := (bnCentSecond * CENT) % 2 ^ 256 / COIN / (24 * 60 * 60)
      some (true, bnCoinDay % 2 ^ 64)

/-- One iteration of the loop of `TransactionGetCoinAge`: `some (some bn)` when
the loop goes on with the accumulator `bn`, `some none` on a return of false. -/
def coinAgeStep (env : Env) (transaction : CTransaction) (txin : CTxIn) (bnCentSecond : Nat) :
    Option (Option Nat) :=
  match env.GetTransaction txin.prevout.hash with
  | none => some (some bnCentSecond)
  | some (txPrev, hashBlock) =>
    if transaction.nTime < txPrev.nTime then some none
    else
      match env.mapBlockIndex hashBlock with
      | none => some none
      | some (pblockindex, _) =>
        if (pblockindex.nTime : Int) + env.params.nStakeMinAge > transaction.nTime then
          some (some bnCentSecond)
        else
          match txPrev.vout[txin.prevout.n]? with
          | none => none
          | some txout =>
            let nTimeWeight := GetCoinAgeWeight env (txPrev.nTime : Int) (transaction.nTime : Int)
            some (some ((bnCentSecond + (toU64 txout.nValue * toU32 nTimeWeight) % 2 ^ 256 / CENT)
              % 2 ^ 256))

/-- The claim C19 in its own words: the cent-seconds
`value_in * coin_age_weight(tx_prev.time, tx.time) / CENT` of the inputs `vin`
whose previous transaction is found and whose containing block satisfies
`block.time + stake_min_age <= tx.time`, the value and the weight read as
unsigned 64-bit and 32-bit words. -/
def countedCentSeconds (env : Env) (transaction : CTransaction) (vin : List CTxIn) : List Nat :=
  vin.filterMap (fun txin =>
    match env.GetTransaction txin.prevout.hash with
    | none => none
    | some (txPrev, hashBlock) =>
      match env.mapBlockIndex hashBlock, txPrev.vout[txin.prevout.n]? with
      | some (pblockindex, _), some txout =>
        if (pblockindex.nTime : Int) + env.params.nStakeMinAge ≤ transaction.nTime then
          some (toU64 txout.nValue *
            toU32 (GetCoinAgeWeight env (txPrev.nTime : Int) (transaction.nTime : Int)) / CENT)
        else none
      | _, _ => none)

/-! ## The parts of a recomputation -/

/-- The value of `nSelectionIntervalStart` in `ComputeNextStakeModifier` for the
previous block `prev`. -/
def selectionIntervalStart (env : Env) (prev : CBlockIndex) : Int :=
  ((prev.nTime / env.params.nModifierInterval * env.params.nModifierInterval : Nat) : Int)
    - GetStakeModifierSelectionInterval env.params

/-- The value of `vSortedByTimestamp` in `ComputeNextStakeModifier` after the
sort. -/
def sortedCandidates (env : Env) : BlockPtr → List (Int × Nat)
  | [] => []
  | prev :: pprev =>
    List.insertionSort pairLe
      (collectCandidates (selectionIntervalStart env prev) (prev :: pprev)).reverse

/-- The value of `nSelectionIntervalStop` in round `nRound` of a recomputation:
the start plus the sections `0 .. nRound`. -/
def selectionIntervalStop (env : Env) (prev : CBlockIndex) (nRound : Nat) : Int :=
  selectionIntervalStart env prev +
    (((List.range (nRound + 1)).map (GetStakeModifierSelectionIntervalSection env.params)).sum : Nat)

/-- The blocks selected by the rounds of `selectionRounds`, in round order (the
values inserted in `mapSelectedBlocks`); `none` when a round fails. -/
def selectionTrace (env : Env) (vSortedByTimestamp : List (Int × Nat)) (nStakeModifier : Nat) :
    (nRounds : Nat) → (nRound : Nat) → (nSelectionIntervalStop : Int) →
    (mapSelectedBlocks : List Nat) → Option (List CBlockIndex)
  | 0, _, _, _ => some []
  | nRounds + 1, nRound, nSelectionIntervalStop, mapSelectedBlocks =>
    let nStop := nSelectionIntervalStop + GetStakeModifierSelectionIntervalSection env.params nRound
    match SelectBlockFromCandidates env vSortedByTimestamp mapSelectedBlocks nStop nStakeModifier with
    | none => none
    | some pindex =>
      (selectionTrace env vSortedByTimestamp nStakeModifier nRounds (nRound + 1) nStop
        (pindex.phashBlock :: mapSelectedBlocks)).map (fun rest => pindex :: rest)

/-- The modifier accumulated from `nStakeModifierNew` by writing the entropy
bits of `selected` at the positions `nRound, nRound + 1, ...`. -/
def writeEntropyBits : Nat → Nat → List CBlockIndex → Nat
  | _, nStakeModifierNew, [] => nStakeModifierNew
  | nRound, nStakeModifierNew, pindex :: rest =>
    writeEntropyBits (nRound + 1)
      (nStakeModifierNew ||| ((pindex.nStakeEntropyBit <<< nRound) % 2 ^ 64)) rest

/-! ## Chains built by the caller of `ComputeNextStakeModifier` -/

/-- Modelled from the spec: the block index stores in every block the modifier
and the generated flag that `ComputeNextStakeModifier` computes from the
previous block (the caller that stores them is outside `pos.cpp`). -/
def modifiersStored (env : Env) : BlockPtr → Prop
  | [] => True
  | pindex :: pprev =>
    ComputeNextStakeModifier env pprev =
        some (pindex.nStakeModifier, pindex.fGeneratedStakeModifier) ∧
      modifiersStored env pprev

instance modifiersStoredDecidable (env : Env) : (c : BlockPtr) → Decidable (modifiersStored env c)
  | [] => isTrue trivial
  | pindex :: pprev =>
    @instDecidableAnd _ _ (inferInstanceAs (Decidable (ComputeNextStakeModifier env pprev =
      some (pindex.nStakeModifier, pindex.fGeneratedStakeModifier))))
      (modifiersStoredDecidable env pprev)

/-- A chain in which every block is `nSpacing` seconds later than its
predecessor. -/
def evenlySpaced (nSpacing : Nat) : BlockPtr → Prop
  | [] => True
  | [_] => True
  | pindex :: pprev :: rest =>
    pindex.nTime = pprev.nTime + nSpacing ∧ evenlySpaced nSpacing (pprev :: rest)

instance evenlySpacedDecidable (nSpacing : Nat) : (c : BlockPtr) → Decidable (evenlySpaced nSpacing c)
  | [] => isTrue trivial
  | [_] => isTrue trivial
  | pindex :: pprev :: rest =>
    @instDecidableAnd _ _ (inferInstanceAs (Decidable (pindex.nTime = pprev.nTime + nSpacing)))
      (evenlySpacedDecidable nSpacing (pprev :: rest))

/-! ## Concrete data for the closed theorems -/

/-- Parameters with protocol v3 active from height (or time) 1 and a 16-second
timestamp grid. -/
def gridParams : Params :=
  { nStakeMinAge := 3600, nStakeMaxAge := 7776000, nModifierInterval := 600,
    nTargetSpacing := 64, nStakeTimestampMask := 15, nCoinbaseMaturity := 2,
    IsProtocolV3 := fun h => decide (0 < h) }

/-- Parameters of the scenario with one block every 64 seconds and a modifier
interval of 2048 seconds. -/
def spacedParams : Params :=
  { nStakeMinAge := 3600, nStakeMaxAge := 7776000, nModifierInterval := 2048,
    nTargetSpacing := 64, nStakeTimestampMask := 15, nCoinbaseMaturity := 2,
    IsProtocolV3 := fun _ => false }

/-- The largest `r` below `2 ^ 36` whose `k`-th power is at most `n`. -/
def rootFloor (k n : Nat) : Nat :=
  (List.range 36).foldl (fun r i => if (r + 2 ^ (35 - i)) ^ k ≤ n then r + 2 ^ (35 - i) else r) 0

/-- The first 64 primes. -/
def sha256Primes : List Nat :=
  [2, 3, 5, 7, 11, 13, 17, 19, 23, 29, 31, 37, 41, 43, 47, 53, 59, 61, 67, 71, 73, 79, 83, 89, 97,
    101, 103, 107, 109, 113, 127, 131, 137, 139, 149, 151, 157, 163, 167, 173, 179, 181, 191, 193,
    197, 199, 211, 223, 227, 229, 233, 239, 241, 251, 257, 263, 269, 271, 277, 281, 283, 293, 307,
    311]

/-- The round constants of SHA-256: the first 32 bits of the fractional parts
of the cube roots of the first 64 primes. -/
def sha256K : List Nat := sha256Primes.map (fun p => rootFloor 3 (p <<< 96) % 2 ^ 32)

/-- The initial hash value of SHA-256: the first 32 bits of the fractional
parts of the square roots of the first 8 primes. -/
def sha256Init : List Nat := (sha256Primes.take 8).map (fun p => rootFloor 2 (p <<< 64) % 2 ^ 32)

def rotr32 (x n : Nat) : Nat := ((x >>> n) ||| (x <<< (32 - n))) % 2 ^ 32

/-- Big-endian serialization of `v` on `k` bytes. -/
def serBE : Nat → Nat → List Nat
  | 0, _ => []
  | k + 1, v => (v / 256 ^ k) % 256 :: serBE k v

/-- The padding of SHA-256: a byte 0x80, zero bytes up to 56 modulo 64, and the
bit length on 8 bytes. -/
def sha256Pad (msg : List Nat) : List Nat :=
  msg ++ [0x80] ++ List.replicate ((119 - msg.length % 64) % 64) 0 ++ serBE 8 (8 * msg.length)

/-- The big-endian 32-bit words of a byte string. -/
def wordsBE : List Nat → List Nat
  | b0 :: b1 :: b2 :: b3 :: rest => (((b0 * 256 + b1) * 256 + b2) * 256 + b3) :: wordsBE rest
  | _ => []

/-- The message schedule, newest word first, extended by `n` words. -/
def sha256Extend : Nat → List Nat → List Nat
  | 0, w => w
  | n + 1, w =>
    match w with
    | _ :: w2 :: _ :: _ :: _ :: _ :: w7 :: _ :: _ :: _ :: _ :: _ :: _ :: _ :: w15 :: w16 :: _ =>
      let s0 := rotr32 w15 7 ^^^ rotr32 w15 18 ^^^ (w15 >>> 3)
      let s1 := rotr32 w2 17 ^^^ rotr32 w2 19 ^^^ (w2 >>> 10)
      sha256Extend n ((w16 + s0 + w7 + s1) % 2 ^ 32 :: w)
    | _ => w

/-- One round of the SHA-256 compression on the working variables
`[a, b, c, d, e, f, g, h]` with the constant and schedule word `kw`. -/
def sha256Round (s : List Nat) (kw : Nat × Nat) : List Nat :=
  match s with
  | [a, b, c, d, e, f, g, h] =>
    let s1 := rotr32 e 6 ^^^ rotr32 e 11 ^^^ rotr32 e 25
    let ch := (e &&& f) ^^^ ((e ^^^ 0xffffffff) &&& g)
    let t1 := (h + s1 + ch + kw.1 + kw.2) % 2 ^ 32
    let s0 := rotr32 a 2 ^^^ rotr32 a 13 ^^^ rotr32 a 22
    let maj := (a &&& b) ^^^ (a &&& c) ^^^ (b &&& c)
    let t2 := (s0 + maj) % 2 ^ 32
    [(t1 + t2) % 2 ^ 32, a, b, c, (d + t1) % 2 ^ 32, e, f, g]
  | _ => s

def sha256Compress (h : List Nat) (block : List Nat) : List Nat :=
  let w := (sha256Extend 48 (wordsBE block).reverse).reverse
  let s := (sha256K.zip w).foldl sha256Round h
  List.zipWith (fun x y => (x + y) % 2 ^ 32) h s

def sha256Blocks : Nat → List Nat → List Nat → List Nat
  | 0, h, _ => h
  | n + 1, h, msg => sha256Blocks n (sha256Compress h (msg.take 64)) (msg.drop 64)

/-- Modelled from the spec: SHA-256 (FIPS 180-4) of a byte string, the digest as
32 bytes; the hash primitive is outside `pos.cpp`. -/
def sha256 (msg : List Nat) : List Nat :=
  let padded := sha256Pad msg
  (sha256Blocks (padded.length / 64) sha256Init padded).flatMap (serBE 4)

/-- Little-endian value of a byte string. -/
def ofLE : List Nat → Nat
  | [] => 0
  | b :: rest => b + 256 * ofLE rest

/-- Modelled from the spec: the double-SHA-256 hash primitive, the digest read
as a 256-bit little-endian integer. -/
def sha256d (msg : List Nat) : Nat := ofLE (sha256 (sha256 msg))

/-- The block index of a chain: every block of the chain under its hash. -/
def chainIndex : BlockPtr → Nat → Option (CBlockIndex × BlockPtr)
  | [], _ => none
  | pindex :: pprev, hash =>
    if pindex.phashBlock = hash then some (pindex, pprev) else chainIndex pprev hash

/-- The claim C1 in its own words: among the blocks that follow `hashBlockFrom`
on the chain ending at `pindexTip`, oldest first, the modifier of the first one
that generated a modifier and whose time is at least the time of the block
plus the selection interval. -/
def laterGeneratorModifier (params : Params) (pindexTip : BlockPtr) (hashBlockFrom : Nat) :
    Option Nat :=
  match pindexTip.span (fun b => b.phashBlock != hashBlockFrom) with
  | (_, []) => none
  | (following, pindexFrom :: _) =>
    (following.reverse.find? (fun b => b.fGeneratedStakeModifier &&
      decide (pindexFrom.nTime + GetStakeModifierSelectionInterval params ≤ b.nTime))).map
      (fun b => b.nStakeModifier)

/-- A proof-of-work index entry with the given hash, height, time, modifier and
generated flag; its proof hash is its hash and its entropy bit the low bit of
the hash. -/
def mkIndex (hash : Nat) (nHeight : Int) (nTime nStakeModifier : Nat) (fGenerated : Bool) :
    CBlockIndex :=
  { phashBlock := hash, nHeight := nHeight, nTime := nTime, nStakeModifier := nStakeModifier,
    nStakeModifierV2 := 0, hashProof := hash, fGeneratedStakeModifier := fGenerated,
    fProofOfStake := false, nStakeEntropyBit := hash % 2 }

/-- A chain of six blocks, newest first, for a modifier interval of 600 seconds.
The block of height 2 carries a time far ahead of its neighbours, so that the
block of height 3 is earlier than its parent (every time is above the median
of the preceding times). The modifiers and generated flags are the ones that
`ComputeNextStakeModifier` computes: recomputed at heights 2 and 5. -/
def backdatedChain : BlockPtr :=
  [mkIndex 7 5 60000 0 true, mkIndex 6 4 50500 1 false, mkIndex 4 3 1610 1 false,
    mkIndex 3 2 50000 1 true, mkIndex 2 1 1600 0 false, mkIndex 1 0 1000 0 true]

/-- The first 44 terms of the series of `atanh (num / den)`, scaled by
`2 ^ 128` (for `num / den` at most `1 / 3` the remainder is below `2 ^ -128`). -/
def atanhScaled (num den : Nat) : Nat :=
  ((List.range 44).map
    (fun i => 2 ^ 128 * num ^ (2 * i + 1) / (den ^ (2 * i + 1) * (2 * i + 1)))).sum

/-- The natural logarithm of `nSeconds / 86400`, scaled by `2 ^ 128`, for
`nSeconds` of at least one day: with `nSeconds / 86400 = 2 ^ k * m` and
`1 <= m < 2` it is `k * ln 2 + ln m`, each logarithm computed as
`2 * atanh ((x - 1) / (x + 1))`. -/
def lnDaysScaled (nSeconds : Nat) : Nat :=
  let k := Nat.log2 (nSeconds / 86400)
  2 * k * atanhScaled 1 3 +
    2 * atanhScaled (nSeconds - 86400 * 2 ^ k) (nSeconds + 86400 * 2 ^ k)

/-- The double-precision part of `GetCoinAgeWeight` (`pos.cpp` 70-82), from the
seconds beyond the minimum age (never negative) to
`(int64_t)(weight * 24 * 60 * 60)`, evaluated in exact arithmetic and
truncated: with `days = nSeconds / 86400` the weight is
`-0.00408163 * days^3 + 0.05714286 * days^2 + days` up to 7 days and
`8.4 * ln days - 7.94564525` beyond. The double-precision evaluation of the
source gives the same integer unless the exact value lies within the rounding
error of an integer. -/
def weightCurve (nSeconds : Int) : Int :=
  let s := nSeconds.toNat
  if s ≤ 7 * 86400 then
    (((10 ^ 8 * 86400 ^ 2 * s + 5714286 * 86400 * s ^ 2 : Nat) : Int) - ((408163 * s ^ 3 : Nat) : Int))
      / ((10 ^ 8 * 86400 ^ 2 : Nat) : Int)
  else
    (((725760 * 10000 * lnDaysScaled s : Nat) : Int) - ((6865037496 * 2 ^ 128 : Nat) : Int))
      / ((10000 * 2 ^ 128 : Nat) : Int)

/-- An environment over `chain`: its blocks indexed, an empty transaction store,
double SHA-256 as hash primitive, a script verifier that accepts an empty
`scriptSig` against the one-byte script `OP_TRUE`, and the coin age curve of
the source. -/
def envOf (params : Params) (chain : BlockPtr) : Env :=
  { params := params, mapBlockIndex := chainIndex chain, GetTransaction := fun _ => none,
    Hash := sha256d,
    VerifyScript := fun scriptSig scriptPubKey _ _ _ =>
      decide (scriptSig = [] ∧ scriptPubKey = [0x51]),
    adjustedTime := 0, fDebug := false, coinAgeCurve := weightCurve }

/-- A chain of 35 blocks, 64 seconds apart, from a genesis block at time 1984,
newest first; the modifier is recomputed at heights 2 and 34. -/
def spacedChain : BlockPtr :=
  (List.range 35).reverse.map (fun h =>
    mkIndex (h + 1) h (1984 + 64 * h) (if h < 2 then 0 else if h < 34 then 1 else 5726623061)
      (decide (h = 0 ∨ h = 2 ∨ h = 34)))

/-- A previous transaction with hash 77 and time 1610 whose only output carries
`nValue` and the script `OP_TRUE`. -/
def stakedTx (nValue : Int) : CTransaction :=
  { hash := 77, nTime := 1610, fCoinBase := false, fCoinStake := false, vin := [],
    vout := [{ nValue := nValue, scriptPubKey := [0x51] }] }

/-- The environment over `backdatedChain` whose transaction store holds
`stakedTx nValue` in the block with hash 4 (height 3, time 1610). -/
def stakeEnv (nValue : Int) : Env :=
  { envOf gridParams backdatedChain with
    GetTransaction := fun hash => if hash = 77 then some (stakedTx nValue, 4) else none }

/-- A coinstake with time `nTime` spending output 0 of transaction 77. -/
def coinstakeTx (nTime : Nat) : CTransaction :=
  { hash := 78, nTime := nTime, fCoinBase := false, fCoinStake := true,
    vin := [{ prevout := { hash := 77, n := 0 }, scriptSig := [] }],
    vout := [{ nValue := 0, scriptPubKey := [] }, { nValue := 1, scriptPubKey := [0x51] }] }

/-- The environment of `stakeEnv 100000000` with an empty block index (the
block of transaction 77 is not indexed) and the given debug flag. -/
def orphanEnv (fDebug : Bool) : Env :=
  { stakeEnv 100000000 with mapBlockIndex := fun _ => none, fDebug := fDebug }

/-- The parameters `gridParams` with protocol v3 never active. -/
def legacyParams : Params := { gridParams with IsProtocolV3 := fun _ => false }

/-- The environment `stakeEnv nValue` under `legacyParams`. -/
def legacyEnv (nValue : Int) : Env := { stakeEnv nValue with params := legacyParams }

/-- A transaction with time `nTime` and two inputs: the first spends a
transaction that the store does not hold, the second output 0 of transaction
77. -/
def twoInputTx (nTime : Nat) : CTransaction :=
  { hash := 79, nTime := nTime, fCoinBase := false, fCoinStake := false,
    vin := [{ prevout := { hash := 99, n := 0 }, scriptSig := [] },
      { prevout := { hash := 77, n := 0 }, scriptSig := [] }],
    vout := [{ nValue := 1, scriptPubKey := [0x51] }] }

/-- A chain of three blocks, newest first, for a modifier interval of 600
seconds: the two oldest blocks lie 10 seconds apart in the epoch of the genesis
block and the newest block 35 epochs later. -/
def contestChain : BlockPtr :=
  [mkIndex 3 2 21400 0 false, mkIndex 2 1 20 0 false, mkIndex 1 0 10 0 true]

/-- A chain of 67 blocks, newest first, for a modifier interval of 600 seconds:
a genesis block at time 1000 that generated the modifier 0, followed by 66
blocks one second apart from time 30001 on, none of which generated a
modifier. -/
def crowdedChain : BlockPtr :=
  (List.range 66).reverse.map (fun i => mkIndex (i + 2) (i + 1) (30001 + i) 0 false) ++
    [mkIndex 1 0 1000 0 true]

/-- The environment over `crowdedChain` whose block index holds every block but
the newest one (hash 67). -/
def crowdedEnv : Env := envOf gridParams (crowdedChain.drop 1)

/-- A chain of four blocks, newest first, for a modifier interval of 600
seconds: a genesis block at time 5 that generated the modifier 0, a
proof-of-stake block with proof hash 5 at time 10, a proof-of-work block with
proof hash 10 at time 20, and the newest block at time 21400. -/
def mixedChain : BlockPtr :=
  [mkIndex 3 3 21400 0 false, mkIndex 10 2 20 0 false,
    { mkIndex 5 1 10 0 false with fProofOfStake := true }, mkIndex 1 0 5 0 true]

/-- A chain of four blocks, newest first, for a modifier interval of 600
seconds: a genesis block at time 29800, two blocks at times 29870 and 29880,
and the newest block at time 51500, whose selection interval starts at 29865.
The stored modifiers are the ones `ComputeNextStakeModifier` computes. -/
def windowChain : BlockPtr :=
  [mkIndex 3 3 51500 0 false, mkIndex 2 2 29880 0 false, mkIndex 1 1 29870 0 false,
    mkIndex 4 0 29800 0 true]

set_option maxRecDepth 100000 in
/-- The FIPS 180-4 test vector for the message `abc`. -/
theorem sha256_abc :
    sha256 [0x61, 0x62, 0x63] =
      [0xba, 0x78, 0x16, 0xbf, 0x8f, 0x01, 0xcf, 0xea, 0x41, 0x41, 0x40, 0xde, 0x5d, 0xae, 0x22,
        0x23, 0xb0, 0x03, 0x61, 0xa3, 0x96, 0x17, 0x7a, 0x9c, 0xb4, 0x10, 0xff, 0x61, 0xf2, 0x00,
        0x15, 0xad] := by
  decide

theorem serLE_length (k v : Nat) : (serLE k v).length = k := by
  induction k generalizing v with
  | zero => rfl
  | succ k ih => simp [serLE, ih]

/-! ## Timestamp rule -/

/-- C7: `CheckCoinStakeTimestamp(block_time, tx_time)` is true exactly when the
two times are equal and, when protocol v3 is active (the predicate evaluated at
the block time, as the source does), the transaction time has no bit of the
mask set; under v3 it holds at `(t, t)` for every `t` on the grid, and
`CheckStakeBlockTimestamp(t)` is `CheckCoinStakeTimestamp(t, t)`. -/
theorem C7_CheckCoinStakeTimestamp_iff (params : Params) (nTimeBlock nTimeTx : Int) :
    (CheckCoinStakeTimestamp params nTimeBlock nTimeTx = true ↔
      nTimeBlock = nTimeTx ∧
        (params.IsProtocolV3 nTimeBlock = true →
          Int.land nTimeTx params.nStakeTimestampMask = 0)) ∧
    (params.IsProtocolV3 nTimeTx = true → Int.land nTimeTx params.nStakeTimestampMask = 0 →
      CheckCoinStakeTimestamp params nTimeTx nTimeTx = true) ∧
    CheckStakeBlockTimestamp params nTimeBlock =
      CheckCoinStakeTimestamp params nTimeBlock nTimeBlock := by
  refine ⟨?_, ?_, rfl⟩
  · unfold CheckCoinStakeTimestamp
    by_cases hv3 : params.IsProtocolV3 nTimeBlock = true
    · simp [hv3]
    · simp [hv3]
  · intro hv3 hmask
    unfold CheckCoinStakeTimestamp
    simp [hv3, hmask]

theorem C7_CheckCoinStakeTimestamp_iff_witness :
    gridParams.IsProtocolV3 1600 = true ∧ Int.land 1600 gridParams.nStakeTimestampMask = 0 ∧
      CheckCoinStakeTimestamp gridParams 1600 1600 = true :=
  ⟨by decide, by decide,
    (C7_CheckCoinStakeTimestamp_iff gridParams 1600 1600).2.1 (by decide) (by decide)⟩

/-! ## Stake modifier v2 -/

/-- C8: `ComputeStakeModifierV2(prev, kernel)` is the zero hash without a
previous block and otherwise the hash of `kernel` followed by
`prev.stake_modifier_v2`, each serialized on 32 bytes; two previous blocks with
the same `stake_modifier_v2` give the same result whatever their other fields
and ancestors. -/
theorem C8_ComputeStakeModifierV2 (env : Env) (kernel : Nat) :
    ComputeStakeModifierV2 env [] kernel = 0 ∧
    (∀ (prev : CBlockIndex) (pprev : BlockPtr),
      ComputeStakeModifierV2 env (prev :: pprev) kernel =
        env.Hash (ser256 kernel ++ ser256 prev.nStakeModifierV2) ∧
      (ser256 kernel).length = 32 ∧ (ser256 prev.nStakeModifierV2).length = 32) ∧
    (∀ (prev other : CBlockIndex) (pprev pother : BlockPtr),
      prev.nStakeModifierV2 = other.nStakeModifierV2 →
      ComputeStakeModifierV2 env (prev :: pprev) kernel =
        ComputeStakeModifierV2 env (other :: pother) kernel) := by
  refine ⟨rfl, fun prev pprev => ⟨rfl, serLE_length _ _, serLE_length _ _⟩, ?_⟩
  intro prev other pprev pother h
  simp [ComputeStakeModifierV2, h]

theorem C8_ComputeStakeModifierV2_witness :
    ComputeStakeModifierV2 (envOf gridParams backdatedChain) backdatedChain 7 =
      ComputeStakeModifierV2 (envOf gridParams backdatedChain) [mkIndex 1 0 1000 0 true] 7 :=
  (C8_ComputeStakeModifierV2 (envOf gridParams backdatedChain) 7).2.2 (mkIndex 7 5 60000 0 true)
    (mkIndex 1 0 1000 0 true) _ [] (by decide)

/-! ## Stake modifier v1: carrying forward and recomputing -/

/-- When some block of the chain generated a modifier, `GetLastStakeModifier`
returns the modifier and time of the most recent one. -/
theorem GetLastStakeModifier_of_find (pindex : BlockPtr) (g : CBlockIndex)
    (hg : pindex.find? (fun b => b.fGeneratedStakeModifier) = some g) :
    GetLastStakeModifier pindex = some (g.nStakeModifier, g.nTime) := by
  induction pindex with
  | nil => simp at hg
  | cons b pprev ih =>
    by_cases hb : b.fGeneratedStakeModifier = true
    · have hbg : b = g := by simpa [List.find?_cons, hb] using hg
      subst hbg
      simp [GetLastStakeModifier, hb]
    · have hb' : b.fGeneratedStakeModifier = false := by simpa using hb
      have hrest : pprev.find? (fun b => b.fGeneratedStakeModifier) = some g := by
        simpa [List.find?_cons, hb'] using hg
      have hne : pprev.isEmpty = false := by
        cases pprev with
        | nil => simp at hrest
        | cons _ _ => rfl
      simp [GetLastStakeModifier, hb', hne, ih hrest]

/-- The shape of `ComputeNextStakeModifier` on a non-null previous block whose
chain holds a generator `g`: the stored modifier is carried forward when the
epoch of the previous block does not exceed the epoch of `g`. -/
theorem ComputeNextStakeModifier_carry (env : Env) (prev : CBlockIndex) (pprev : BlockPtr)
    (g : CBlockIndex)
    (hg : (prev :: pprev).find? (fun b => b.fGeneratedStakeModifier) = some g)
    (hepoch : prev.nTime / env.params.nModifierInterval ≤
      g.nTime / env.params.nModifierInterval) :
    ComputeNextStakeModifier env (prev :: pprev) = some (g.nStakeModifier, false) := by
  simp [ComputeNextStakeModifier, GetLastStakeModifier_of_find _ _ hg, hepoch]

/-- On the recomputing path `ComputeNextStakeModifier` fails or reports
`generated = true`. -/
theorem ComputeNextStakeModifier_recompute (env : Env) (prev : CBlockIndex) (pprev : BlockPtr)
    (nStakeModifier nModifierTime : Nat)
    (hlast : GetLastStakeModifier (prev :: pprev) = some (nStakeModifier, nModifierTime))
    (hepoch : nModifierTime / env.params.nModifierInterval <
      prev.nTime / env.params.nModifierInterval)
    (r : Nat × Bool) (hr : ComputeNextStakeModifier env (prev :: pprev) = some r) :
    r.2 = true := by
  have hnot : ¬ (prev.nTime / env.params.nModifierInterval ≤
      nModifierTime / env.params.nModifierInterval) := Nat.not_le.mpr hepoch
  simp only [ComputeNextStakeModifier, hlast, ge_iff_le, hnot, if_false] at hr
  split at hr
  · simp at hr
  · simp at hr
    rw [← hr]

/-- C10: with no previous block `ComputeNextStakeModifier` succeeds with
modifier 0 and `generated = true`. -/
theorem C10_ComputeNextStakeModifier_genesis (env : Env) :
    ComputeNextStakeModifier env [] = some (0, true) := rfl

/-- C2 (as stated, refuted): on a genesis-only chain whose genesis block stores
the generated modifier 0, `ComputeNextStakeModifier(genesis)` carries the
modifier forward with `generated = false`, not `(0, true)`, although the epoch
of the previous block equals the epoch of the last generator. -/
theorem C2_counterexample :
    [mkIndex 1 0 1000 0 true].find? (fun b => b.fGeneratedStakeModifier) =
        some (mkIndex 1 0 1000 0 true) ∧
      ComputeNextStakeModifier (envOf gridParams [mkIndex 1 0 1000 0 true])
        [mkIndex 1 0 1000 0 true] = some (0, false) ∧
      ComputeNextStakeModifier (envOf gridParams [mkIndex 1 0 1000 0 true])
        [mkIndex 1 0 1000 0 true] ≠ some (0, true) := by
  decide

/-- C2 (amended): for a non-null previous block whose epoch equals the epoch of the last ancestor-or-self `g` that
generated a modifier, `ComputeNextStakeModifier` returns the modifier of `g`
with `generated = false`, for every hash primitive and block index (no
selection takes place); on a genesis-only chain, where `g` is the genesis
block, this is `(genesis.modifier, false)`. -/
theorem C2_epoch_stability (env : Env) (prev : CBlockIndex) (pprev : BlockPtr) (g : CBlockIndex)
    (hg : (prev :: pprev).find? (fun b => b.fGeneratedStakeModifier) = some g)
    (hepoch : prev.nTime / env.params.nModifierInterval =
      g.nTime / env.params.nModifierInterval) :
    ComputeNextStakeModifier env (prev :: pprev) = some (g.nStakeModifier, false) ∧
      (pprev = [] → g = prev) := by
  refine ⟨ComputeNextStakeModifier_carry env prev pprev g hg (le_of_eq hepoch), ?_⟩
  intro hnil
  subst hnil
  by_cases hb : prev.fGeneratedStakeModifier = true
  · simpa [List.find?_cons, hb] using hg.symm
  · simp [List.find?_cons, hb] at hg

theorem C2_epoch_stability_witness :
    ComputeNextStakeModifier (envOf gridParams [mkIndex 1 0 1000 0 true])
        [mkIndex 1 0 1000 0 true] = some (0, false) :=
  (C2_epoch_stability (envOf gridParams [mkIndex 1 0 1000 0 true]) (mkIndex 1 0 1000 0 true) []
    (mkIndex 1 0 1000 0 true) (by decide) (by decide)).1

/-! ## Recomputation every 32 blocks -/

theorem modifiersStored_append (env : Env) (seg rest : BlockPtr)
    (h : modifiersStored env (seg ++ rest)) : modifiersStored env rest := by
  induction seg with
  | nil => simpa using h
  | cons b seg ih => exact ih h.2

theorem evenlySpaced_tail (nSpacing : Nat) (b : CBlockIndex) (rest : BlockPtr)
    (h : evenlySpaced nSpacing (b :: rest)) : evenlySpaced nSpacing rest := by
  cases rest with
  | nil => trivial
  | cons p rest => exact h.2

theorem evenlySpaced_append (nSpacing : Nat) (seg rest : BlockPtr)
    (h : evenlySpaced nSpacing (seg ++ rest)) : evenlySpaced nSpacing rest := by
  induction seg with
  | nil => simpa using h
  | cons b seg ih => exact ih (evenlySpaced_tail nSpacing b _ h)

/-- In an evenly spaced chain the newest block of `seg ++ g :: older` is
`seg.length` spacings later than `g`. -/
theorem evenlySpaced_head_time (nSpacing : Nat) (seg : BlockPtr) (g : CBlockIndex)
    (older : BlockPtr) (h : evenlySpaced nSpacing (seg ++ g :: older))
    (prev : CBlockIndex) (pprev : BlockPtr) (hc : seg ++ g :: older = prev :: pprev) :
    prev.nTime = g.nTime + nSpacing * seg.length := by
  induction seg generalizing prev pprev with
  | nil =>
    simp at hc
    simp [← hc.1]
  | cons b seg ih =>
    simp at hc
    obtain ⟨hb, hrest⟩ := hc
    subst hb
    cases hs : seg ++ g :: older with
    | nil => simp at hs
    | cons p rest =>
      rw [List.cons_append, hs] at h
      have hp := ih (hs ▸ h.2) p rest hs
      rw [h.1, hp, List.length_cons]
      ring

/-- The most recent generator of `seg ++ g :: older` is `g` when `g` generated
a modifier and no block of `seg` did. -/
theorem find_generator_append (seg : BlockPtr) (g : CBlockIndex) (older : BlockPtr)
    (hseg : ∀ b ∈ seg, b.fGeneratedStakeModifier = false)
    (hg : g.fGeneratedStakeModifier = true) :
    (seg ++ g :: older).find? (fun b => b.fGeneratedStakeModifier) = some g := by
  induction seg with
  | nil => simp [List.find?_cons, hg]
  | cons b seg ih =>
    have hb : b.fGeneratedStakeModifier = false := hseg b (by simp)
    simp only [List.cons_append, List.find?_cons, hb]
    exact ih (fun x hx => hseg x (by simp [hx]))

/-- A block `g` after the genesis block that recomputed the modifier, in a
chain with stored modifiers, 64-second spacing and a 2048-second interval,
follows a predecessor that is the first block of its epoch. -/
theorem recomputing_block_offset (env : Env) (g p : CBlockIndex) (older : BlockPtr)
    (hI : env.params.nModifierInterval = 2048)
    (hstored : modifiersStored env (g :: p :: older))
    (hspaced : evenlySpaced 64 (g :: p :: older))
    (hg : g.fGeneratedStakeModifier = true) :
    p.nTime % 2048 < 64 := by
  have hcomp := hstored.1
  rw [hg] at hcomp
  by_cases hp : p.fGeneratedStakeModifier = true
  · have hfind : (p :: older).find? (fun b => b.fGeneratedStakeModifier) = some p := by
      simp [List.find?_cons, hp]
    rw [ComputeNextStakeModifier_carry env p older p hfind (le_refl _)] at hcomp
    simp at hcomp
  · have hp' : p.fGeneratedStakeModifier = false := by simpa using hp
    cases older with
    | nil =>
      simp [ComputeNextStakeModifier, GetLastStakeModifier, hp'] at hcomp
    | cons q older =>
      have hlast : GetLastStakeModifier (p :: q :: older) = GetLastStakeModifier (q :: older) := by
        simp [GetLastStakeModifier, hp']
      have hq := hstored.2.1
      rw [hp'] at hq
      have hpq : p.nTime = q.nTime + 64 := hspaced.2.1
      cases hl : GetLastStakeModifier (q :: older) with
      | none => simp [ComputeNextStakeModifier, hl] at hq
      | some mt =>
        obtain ⟨m, t⟩ := mt
        have h1 : q.nTime / 2048 ≤ t / 2048 := by
          by_contra hcon
          have hlt : t / env.params.nModifierInterval < q.nTime / env.params.nModifierInterval := by
            rw [hI]
            omega
          have := ComputeNextStakeModifier_recompute env q older m t hl hlt _ hq
          simp at this
        have h2 : t / 2048 < p.nTime / 2048 := by
          by_contra hcon
          have hle : p.nTime / env.params.nModifierInterval ≤ t / env.params.nModifierInterval := by
            rw [hI]
            omega
          simp [ComputeNextStakeModifier, hlast, hl, hle] at hcomp
        omega

/-- For up to 31 blocks after a recomputing block `g` the modifier is carried
forward. -/
theorem carried_after_recomputation (env : Env) (seg : BlockPtr) (g p : CBlockIndex)
    (older : BlockPtr) (hI : env.params.nModifierInterval = 2048)
    (hstored : modifiersStored env (seg ++ g :: p :: older))
    (hspaced : evenlySpaced 64 (seg ++ g :: p :: older))
    (hg : g.fGeneratedStakeModifier = true) (hlen : seg.length ≤ 31) :
    ∀ b ∈ seg, b.fGeneratedStakeModifier = false := by
  have hoff := recomputing_block_offset env g p older hI
    (modifiersStored_append env seg _ hstored) (evenlySpaced_append 64 seg _ hspaced) hg
  have hgp : g.nTime = p.nTime + 64 := (evenlySpaced_append 64 seg _ hspaced).1
  induction seg with
  | nil => simp
  | cons b seg ih =>
    have hlen' : seg.length ≤ 30 := by simpa using hlen
    have hseg := ih hstored.2 (evenlySpaced_tail 64 b _ hspaced) (by omega)
    intro x hx
    rcases List.mem_cons.mp hx with hxb | hxs
    · subst hxb
      cases hc : seg ++ g :: p :: older with
      | nil => simp at hc
      | cons prev pprev =>
        have htime := evenlySpaced_head_time 64 seg g (p :: older)
          (evenlySpaced_tail 64 x _ hspaced) prev pprev hc
        have hfind := find_generator_append seg g (p :: older) hseg hg
        rw [hc] at hfind
        have hepoch : prev.nTime / env.params.nModifierInterval ≤
            g.nTime / env.params.nModifierInterval := by
          rw [hI]
          omega
        have hcomp : ComputeNextStakeModifier env (seg ++ g :: p :: older) =
            some (x.nStakeModifier, x.fGeneratedStakeModifier) := hstored.1
        rw [hc, ComputeNextStakeModifier_carry env prev pprev g hfind hepoch] at hcomp
        simp at hcomp
        exact hcomp.2
    · exact hseg x hxs

/-- The 32nd block after a recomputing block recomputes the modifier. -/
theorem recomputed_after_32 (env : Env) (b : CBlockIndex) (seg : BlockPtr) (g p : CBlockIndex)
    (older : BlockPtr) (hI : env.params.nModifierInterval = 2048)
    (hstored : modifiersStored env (b :: seg ++ g :: p :: older))
    (hspaced : evenlySpaced 64 (b :: seg ++ g :: p :: older))
    (hg : g.fGeneratedStakeModifier = true) (hlen : seg.length = 31) :
    b.fGeneratedStakeModifier = true := by
  have hoff := recomputing_block_offset env g p older hI
    (modifiersStored_append env (b :: seg) _ hstored)
    (evenlySpaced_append 64 (b :: seg) _ hspaced) hg
  have hgp : g.nTime = p.nTime + 64 := (evenlySpaced_append 64 (b :: seg) _ hspaced).1
  have hseg := carried_after_recomputation env seg g p older hI hstored.2
    (evenlySpaced_tail 64 b _ hspaced) hg (by omega)
  cases hc : seg ++ g :: p :: older with
  | nil => simp at hc
  | cons prev pprev =>
    have htime := evenlySpaced_head_time 64 seg g (p :: older)
      (evenlySpaced_tail 64 b _ hspaced) prev pprev hc
    have hfind := find_generator_append seg g (p :: older) hseg hg
    rw [hc] at hfind
    have hlast := GetLastStakeModifier_of_find _ _ hfind
    have hepoch : g.nTime / env.params.nModifierInterval <
        prev.nTime / env.params.nModifierInterval := by
      rw [hI]
      omega
    have hcomp : ComputeNextStakeModifier env (seg ++ g :: p :: older) =
        some (b.nStakeModifier, b.fGeneratedStakeModifier) := hstored.1
    rw [hc] at hcomp
    exact ComputeNextStakeModifier_recompute env prev pprev _ _ hlast hepoch _ hcomp

/-- C9: with `g` the most recent ancestor-or-self of the previous block that
generated a modifier, `ComputeNextStakeModifier` carries the modifier of `g`
forward (successfully, `generated = false`) when the epoch of the previous
block does not exceed the epoch of `g`, and whenever it succeeds it reports
`generated = true` exactly when the epoch of the previous block is strictly
greater. Hence on a chain with stored modifiers, one block every 64 seconds and
a modifier interval of 2048 seconds, the 31 blocks after a recomputing block
`g` (itself after the genesis block) carry the modifier forward and the 32nd
recomputes it. -/
theorem C9_recomputed_iff_epoch_advanced :
    (∀ (env : Env) (prev : CBlockIndex) (pprev : BlockPtr) (g : CBlockIndex),
      (prev :: pprev).find? (fun b => b.fGeneratedStakeModifier) = some g →
      (prev.nTime / env.params.nModifierInterval ≤ g.nTime / env.params.nModifierInterval →
        ComputeNextStakeModifier env (prev :: pprev) = some (g.nStakeModifier, false)) ∧
      ∀ (nStakeModifier : Nat) (fGenerated : Bool),
        ComputeNextStakeModifier env (prev :: pprev) = some (nStakeModifier, fGenerated) →
        (fGenerated = true ↔
          g.nTime / env.params.nModifierInterval < prev.nTime / env.params.nModifierInterval) ∧
        (fGenerated = false → nStakeModifier = g.nStakeModifier)) ∧
    (∀ (env : Env) (seg : BlockPtr) (g p : CBlockIndex) (older : BlockPtr),
      env.params.nModifierInterval = 2048 →
      modifiersStored env (seg ++ g :: p :: older) →
      evenlySpaced 64 (seg ++ g :: p :: older) →
      g.fGeneratedStakeModifier = true →
      (seg.length ≤ 31 → ∀ b ∈ seg, b.fGeneratedStakeModifier = false) ∧
      (seg.length = 32 → seg.head?.map (fun b => b.fGeneratedStakeModifier) = some true)) := by
  constructor
  · intro env prev pprev g hg
    refine ⟨ComputeNextStakeModifier_carry env prev pprev g hg, ?_⟩
    intro nStakeModifier fGenerated hres
    by_cases hepoch : prev.nTime / env.params.nModifierInterval ≤
        g.nTime / env.params.nModifierInterval
    · rw [ComputeNextStakeModifier_carry env prev pprev g hg hepoch] at hres
      simp at hres
      obtain ⟨hm, hgen⟩ := hres
      subst hm hgen
      simp
      exact hepoch
    · have hlt := Nat.not_le.mp hepoch
      have hgen := ComputeNextStakeModifier_recompute env prev pprev _ _
        (GetLastStakeModifier_of_find _ _ hg) hlt _ hres
      simp at hgen
      simp [hgen, hlt]
  · intro env seg g p older hI hstored hspaced hg
    refine ⟨carried_after_recomputation env seg g p older hI hstored hspaced hg, ?_⟩
    intro hlen
    cases seg with
    | nil => simp at hlen
    | cons b seg =>
      have hlen' : seg.length = 31 := by simpa using hlen
      simpa using recomputed_after_32 env b seg g p older hI hstored hspaced hg hlen'

set_option maxRecDepth 100000 in
theorem C9_recomputed_iff_epoch_advanced_witness :
    ComputeNextStakeModifier (envOf spacedParams spacedChain) spacedChain =
        some (5726623061, false) ∧
      (spacedChain.take 32).head?.map (fun b => b.fGeneratedStakeModifier) = some true :=
  ⟨(C9_recomputed_iff_epoch_advanced.1 (envOf spacedParams spacedChain)
      (mkIndex 35 34 4160 5726623061 true) (spacedChain.drop 1)
      (mkIndex 35 34 4160 5726623061 true) (by decide)).1 (by decide),
    (C9_recomputed_iff_epoch_advanced.2 (envOf spacedParams spacedChain) (spacedChain.take 32)
      (mkIndex 3 2 2112 1 true) (mkIndex 2 1 2048 0 false) [mkIndex 1 0 1984 0 true]
      (by decide) (by decide) (by decide) (by decide)).2 (by decide)⟩

/-! ## Kernel stake modifier lookup -/

set_option maxRecDepth 100000 in
/-- C1 (the code at the failing input): in a six-block chain with stored
modifiers, `from` is the block of height 3 (time 1610), its parent of height 2
generated modifier 1 at time 50000, and the tip of height 5 generated modifier
0 at time 60000, past the selection interval of 21135 seconds.
`GetKernelStakeModifier(from)` succeeds with 1, the modifier of the ancestor
reached through `pprev`, while the first later generator past the threshold,
the tip, has modifier 0. -/
theorem C1_kernel_modifier_from_ancestor :
    modifiersStored (envOf gridParams backdatedChain) backdatedChain ∧
      GetStakeModifierSelectionInterval gridParams = 21135 ∧
      GetKernelStakeModifier (envOf gridParams backdatedChain) 4 false = .found 1 2 50000 ∧
      laterGeneratorModifier gridParams backdatedChain 4 = some 0 := by
  decide

/-! ## Stake validator -/

/-- C3: `CheckProofOfStake` returns true exactly when the transaction is a
coinstake, the previous transaction of input 0 is in the transaction store,
its block is in the block index, the prevout hash of input 0 is the hash of the
previous transaction, `VerifySignature` succeeds on input 0 with no
verification flag, the staked output is mature, and the kernel check chosen by
`IsProtocolV3(tip.height + 1)` accepts. -/
theorem C3_CheckProofOfStake_iff (env : Env) (pindexPrev : CBlockIndex) (tx : CTransaction)
    (nBits : Nat) (state : CValidationState) :
    (CheckProofOfStake env pindexPrev tx nBits state).map Prod.fst = some true ↔
      tx.fCoinStake = true ∧
      ∃ (txin : CTxIn) (txPrev : CTransaction) (hashBlock : Nat) (pblockindex : CBlockIndex)
        (pprev : BlockPtr),
        tx.vin[0]? = some txin ∧
        env.GetTransaction txin.prevout.hash = some (txPrev, hashBlock) ∧
        env.mapBlockIndex hashBlock = some (pblockindex, pprev) ∧
        txin.prevout.hash = txPrev.hash ∧
        VerifySignature env txPrev tx 0 SCRIPT_VERIFY_NONE = some true ∧
        env.params.nCoinbaseMaturity ≤ pindexPrev.nHeight + 1 - pblockindex.nHeight ∧
        (if env.params.IsProtocolV3 (pindexPrev.nHeight + 1) = true then
          CheckStakeKernelHashV2 env pindexPrev nBits txPrev txin.prevout tx.nTime
        else
          CheckStakeKernelHashV1 env nBits pblockindex txin.prevout.n txPrev txin.prevout
            tx.nTime env.fDebug) = some true := by
  constructor
  · intro h
    unfold CheckProofOfStake at h
    split at h
    · simp at h
    next hcs =>
      split at h
      · simp at h
      next txin htxin =>
        split at h
        · simp [CValidationState.DoS] at h
        next txPrev hashBlock hget =>
          split at h
          · split at h <;> simp [CValidationState.DoS] at h
          next pblockindex pprev hmap =>
            split at h
            · simp [CValidationState.DoS] at h
            next hhash =>
              split at h
              · simp at h
              · simp [CValidationState.DoS] at h
              next hsig =>
                split at h
                · simp [CValidationState.DoS] at h
                next hmat =>
                  split at h
                  · simp at h
                  · simp [CValidationState.DoS] at h
                  next hker =>
                    refine ⟨by simpa using hcs, txin, txPrev, hashBlock, pblockindex, pprev,
                      htxin, hget, hmap, by simpa using hhash, hsig, by omega, ?_⟩
                    simpa [CheckStakeKernelHash] using hker
  · rintro ⟨hcs, txin, txPrev, hashBlock, pblockindex, pprev, htxin, hget, hmap, hhash, hsig,
      hmat, hker⟩
    have hmat' : ¬ (pindexPrev.nHeight + 1 - pblockindex.nHeight < env.params.nCoinbaseMaturity) := by
      omega
    have hker' : CheckStakeKernelHash env pindexPrev nBits pblockindex txin.prevout.n txPrev
        txin.prevout tx.nTime env.fDebug = some true := by
      simpa [CheckStakeKernelHash] using hker
    unfold CheckProofOfStake
    simp only [hcs, htxin, hget, hmap]
    simp [hhash, hsig, hmat', hker']

set_option maxRecDepth 100000 in
/-- C4 (as stated, refuted): with protocol v3 active at `tip.height + 1` and a
16-second grid, `CheckProofOfStake` accepts a coinstake whose time 100108 is
off the grid: it makes no timestamp check. -/
theorem C4_counterexample :
    CheckProofOfStake (stakeEnv 100000000) (mkIndex 7 5 60000 0 true) (coinstakeTx 100108)
        0x1d00ffff { nDoS := 0, fInvalid := false } =
        some (true, { nDoS := 0, fInvalid := false }) ∧
      (stakeEnv 100000000).params.IsProtocolV3 ((mkIndex 7 5 60000 0 true).nHeight + 1) = true ∧
      Int.land ((coinstakeTx 100108).nTime : Int) (stakeEnv 100000000).params.nStakeTimestampMask
        ≠ 0 := by
  decide

/-- C4 (amended): the v3 grid is enforced by the timestamp check: every pair
`(block_time, tx_time)` that `CheckCoinStakeTimestamp` accepts while protocol
v3 is active at the tested block time has `tx_time & stake_timestamp_mask = 0`
(and `tx_time = block_time`). -/
theorem C4_accepted_timestamp_on_grid (params : Params) (nTimeBlock nTimeTx : Int)
    (hv3 : params.IsProtocolV3 nTimeBlock = true)
    (hacc : CheckCoinStakeTimestamp params nTimeBlock nTimeTx = true) :
    Int.land nTimeTx params.nStakeTimestampMask = 0 ∧ nTimeTx = nTimeBlock := by
  unfold CheckCoinStakeTimestamp at hacc
  simp [hv3] at hacc
  exact ⟨hacc.2, hacc.1.symm⟩

theorem C4_accepted_timestamp_on_grid_witness :
    Int.land 1600 gridParams.nStakeTimestampMask = 0 ∧ (1600 : Int) = 1600 :=
  C4_accepted_timestamp_on_grid gridParams 1600 1600 (by decide) (by decide)

/-! ## Kernel checks -/

theorem toU64_lt (x : Int) : toU64 x < 2 ^ 64 := by
  unfold toU64
  have h1 : (0 : Int) ≤ x % 2 ^ 64 := Int.emod_nonneg _ (by norm_num)
  have h2 : x % 2 ^ 64 < 2 ^ 64 := Int.emod_lt_of_pos _ (by norm_num)
  have h3 : ((x % 2 ^ 64).toNat : Int) < ((2 ^ 64 : Nat) : Int) := by
    rw [Int.toNat_of_nonneg h1]
    exact_mod_cast h2
  exact_mod_cast h3

theorem toU32_lt (x : Int) : toU32 x < 2 ^ 32 := by
  unfold toU32
  have h1 : (0 : Int) ≤ x % 2 ^ 32 := Int.emod_nonneg _ (by norm_num)
  have h2 : x % 2 ^ 32 < 2 ^ 32 := Int.emod_lt_of_pos _ (by norm_num)
  have h3 : ((x % 2 ^ 32).toNat : Int) < ((2 ^ 32 : Nat) : Int) := by
    rw [Int.toNat_of_nonneg h1]
    exact_mod_cast h2
  exact_mod_cast h3

theorem coinDayWeight_eq (nValueIn nTimeWeight : Int) :
    coinDayWeight nValueIn nTimeWeight =
      toU64 nValueIn * toU32 nTimeWeight / COIN / (24 * 60 * 60) := by
  unfold coinDayWeight
  have h1 := toU64_lt nValueIn
  have h2 := toU32_lt nTimeWeight
  have h3 : toU64 nValueIn * toU32 nTimeWeight < 2 ^ 64 * 2 ^ 32 :=
    Nat.mul_lt_mul'' h1 h2
  rw [Nat.mod_eq_of_lt (lt_trans h3 (by norm_num))]

set_option maxRecDepth 100000 in
/-- C6 (as stated, refuted): a kernel with the negative value -1 is accepted
although `value_in > 0` fails, and a kernel with value 256 under the compact
target `2 ^ 248` is rejected although its hash is below the product
`2 ^ 248 * 256`, which wraps to 0 in 256 bits. -/
theorem C6_counterexample :
    (CheckStakeKernelHashV2 (stakeEnv (-1)) (mkIndex 7 5 60000 0 true) 0x1900ffff (stakedTx (-1))
        { hash := 77, n := 0 } 100000 = some true ∧
      (stakedTx (-1)).vout[0]? = some { nValue := -1, scriptPubKey := [0x51] }) ∧
    (CheckStakeKernelHashV2 (stakeEnv 256) (mkIndex 7 5 60000 0 true) 0x20010000 (stakedTx 256)
        { hash := 77, n := 0 } 100000 = some false ∧
      (stakedTx 256).nTime ≤ 100000 ∧
      (stakeEnv 256).Hash (ser256 (mkIndex 7 5 60000 0 true).nStakeModifierV2 ++
          ser32 (stakedTx 256).nTime ++ ser256 77 ++ ser32 0 ++ ser32 100000) ≤
        SetCompact 0x20010000 * 256) := by
  decide

/-- C6 (amended): for a previous transaction that has the output `prevout.n`,
`CheckStakeKernelHashV2` accepts exactly when `tx_time >= tx_prev.time`,
`value_in` is not 0, and the hash of
`stake_modifier_v2 || tx_prev.time || prevout.hash || prevout.n || tx_time`
is at most `uncompress_bits(n_bits) * value_in` reduced modulo `2 ^ 256`, with
`value_in` read as an unsigned 64-bit word; a kernel whose `value_in` is 0 is
rejected whatever its hash. -/
theorem C6_CheckStakeKernelHashV2_iff (env : Env) (pindexPrev : CBlockIndex) (nBits : Nat)
    (txPrev : CTransaction) (prevout : COutPoint) (nTimeTx : Nat) (txout : CTxOut)
    (hout : txPrev.vout[prevout.n]? = some txout) :
    (CheckStakeKernelHashV2 env pindexPrev nBits txPrev prevout nTimeTx = some true ↔
      txPrev.nTime ≤ nTimeTx ∧ txout.nValue ≠ 0 ∧
        env.Hash (ser256 pindexPrev.nStakeModifierV2 ++ ser32 txPrev.nTime ++ ser256 prevout.hash
            ++ ser32 prevout.n ++ ser32 nTimeTx) ≤
          (SetCompact nBits * toU64 txout.nValue) % 2 ^ 256) ∧
    (txout.nValue = 0 →
      CheckStakeKernelHashV2 env pindexPrev nBits txPrev prevout nTimeTx = some false) := by
  unfold CheckStakeKernelHashV2 kernelStreamV2
  simp only [hout]
  by_cases ht : nTimeTx < txPrev.nTime
  · simp [ht]
  · by_cases hv : txout.nValue = 0
    · simp [ht, hv]
    · simp [ht, hv]
      omega

theorem C6_CheckStakeKernelHashV2_iff_witness :
    CheckStakeKernelHashV2 (stakeEnv 0) (mkIndex 7 5 60000 0 true) 0x1d00ffff (stakedTx 0)
      { hash := 77, n := 0 } 100000 = some false :=
  (C6_CheckStakeKernelHashV2_iff (stakeEnv 0) (mkIndex 7 5 60000 0 true) 0x1d00ffff (stakedTx 0)
    { hash := 77, n := 0 } 100000 { nValue := 0, scriptPubKey := [0x51] } (by decide)).2
    (by decide)

theorem ite_gt_eq_decide_le (a b : Nat) :
    (if a > b then some false else some true) = some (decide (a ≤ b)) := by
  by_cases h : a ≤ b
  · simp [h, Nat.not_lt.mpr h]
  · simp [h, Nat.not_le.mp h]

set_option maxRecDepth 100000 in
/-- C5 (as stated, refuted): with preconditions met and the modifier lookup
succeeding, a kernel of value 85000000 and weight 100270 is rejected although
its hash is below `uncompress_bits(n_bits) * value_in * w / COIN / 86400` (the
coin-day weight, divided first, is 0); and a kernel of value 22100000000 and
weight 100266, whose coin-day weight is 256, is rejected under the compact
target `2 ^ 248` although its hash is below the full product divided (the
256-bit product wraps to 0). -/
theorem C5_counterexample :
    (GetKernelStakeModifier (stakeEnv 85000000) 4 false = .found 1 2 50000 ∧
      GetCoinAgeWeight (stakeEnv 85000000) 1610 100003 = 100270 ∧
      coinDayWeight 85000000 100270 = 0 ∧
      CheckStakeKernelHashV1 (stakeEnv 85000000) 0x207fffff (mkIndex 4 3 1610 1 false) 0
        (stakedTx 85000000) { hash := 77, n := 0 } 100003 false = some false ∧
      (stakeEnv 85000000).Hash (ser64 1 ++ ser32 1610 ++ ser32 0 ++ ser32 1610 ++ ser32 0 ++
          ser32 100003) ≤ SetCompact 0x207fffff * 85000000 * 100270 / COIN / 86400) ∧
    (GetCoinAgeWeight (stakeEnv 22100000000) 1610 100000 = 100266 ∧
      coinDayWeight 22100000000 100266 = 256 ∧
      SetCompact 0x20010000 = 2 ^ 248 ∧
      CheckStakeKernelHashV1 (stakeEnv 22100000000) 0x20010000 (mkIndex 4 3 1610 1 false) 0
        (stakedTx 22100000000) { hash := 77, n := 0 } 100000 false = some false ∧
      (stakeEnv 22100000000).Hash (ser64 1 ++ ser32 1610 ++ ser32 0 ++ ser32 1610 ++ ser32 0 ++
          ser32 100000) ≤ SetCompact 0x20010000 * 22100000000 * 100266 / COIN / 86400) := by
  decide

/-- C5 (amended): for a pre-v3 kernel whose preconditions hold, whose previous
transaction has the output `prevout.n` and whose kernel-modifier lookup
succeeds, `CheckStakeKernelHashV1` returns, and accepts exactly when the kernel
hash is at most `(value_in * w / COIN / 86400) * uncompress_bits(n_bits)`
reduced modulo `2 ^ 256`, with `w = GetCoinAgeWeight(tx_prev.time, tx_time)`
read as an unsigned 32-bit word and `value_in` as an unsigned 64-bit word: the
coin-day weight is divided first and then multiplied by the compact target in
256-bit arithmetic. -/
theorem C5_CheckStakeKernelHashV1_target (env : Env) (nBits : Nat) (blockFrom : CBlockIndex)
    (nTxPrevOffset : Nat) (txPrev : CTransaction) (prevout : COutPoint) (nTimeTx : Nat)
    (fPrintProofOfStake : Bool) (txout : CTxOut)
    (nStakeModifier : Nat) (nStakeModifierHeight : Int) (nStakeModifierTime nTimeTxPrev : Nat)
    (hprev : nTimeTxPrev = if txPrev.nTime = 0 then blockFrom.nTime % 2 ^ 32 else txPrev.nTime)
    (htime : nTimeTxPrev ≤ nTimeTx)
    (hage : ((blockFrom.nTime % 2 ^ 32 : Nat) : Int) + env.params.nStakeMinAge ≤ nTimeTx)
    (hout : txPrev.vout[prevout.n]? = some txout)
    (hmod : GetKernelStakeModifier env blockFrom.phashBlock fPrintProofOfStake =
      .found nStakeModifier nStakeModifierHeight nStakeModifierTime) :
    CheckStakeKernelHashV1 env nBits blockFrom nTxPrevOffset txPrev prevout nTimeTx
        fPrintProofOfStake =
      some (decide (env.Hash (ser64 nStakeModifier ++ ser32 (blockFrom.nTime % 2 ^ 32) ++
          ser32 nTxPrevOffset ++ ser32 nTimeTxPrev ++ ser32 prevout.n ++ ser32 nTimeTx) ≤
        (toU64 txout.nValue * toU32 (GetCoinAgeWeight env nTimeTxPrev nTimeTx) / COIN / 86400
          * SetCompact nBits) % 2 ^ 256)) := by
  subst hprev
  have htime' : ¬ (nTimeTx < if txPrev.nTime = 0 then blockFrom.nTime % 2 ^ 32 else txPrev.nTime) :=
    Nat.not_lt.mpr htime
  have hage' : ¬ (((blockFrom.nTime % 2 ^ 32 : Nat) : Int) + env.params.nStakeMinAge > nTimeTx) := by
    omega
  unfold CheckStakeKernelHashV1 kernelStreamV1
  simp only [htime', hage', if_false, hout, hmod, coinDayWeight_eq]
  exact ite_gt_eq_decide_le _ _

set_option maxRecDepth 100000 in
theorem C5_CheckStakeKernelHashV1_target_witness :
    CheckStakeKernelHashV1 (stakeEnv 100000000000) 0x20001000 (mkIndex 4 3 1610 1 false) 0
      (stakedTx 100000000000) { hash := 77, n := 0 } 100003 false = some true :=
  C5_CheckStakeKernelHashV1_target (stakeEnv 100000000000) 0x20001000 (mkIndex 4 3 1610 1 false) 0
    (stakedTx 100000000000) { hash := 77, n := 0 } 100003 false
    { nValue := 100000000000, scriptPubKey := [0x51] } 1 2 50000 1610 (by decide) (by decide)
    (by decide) (by decide) (by decide)

/-! ## Rejections of the stake validator -/

/-- With input 0 present, `VerifySignature` on input 0 returns a result. -/
theorem VerifySignature_input0_defined (env : Env) (txFrom txTo : CTransaction) (txin : CTxIn)
    (flags : Nat) (hin : txTo.vin[0]? = some txin) :
    VerifySignature env txFrom txTo 0 flags = some true ∨
      VerifySignature env txFrom txTo 0 flags = some false := by
  unfold VerifySignature
  simp only [hin]
  split
  · exact Or.inr rfl
  · split
    · exact Or.inr rfl
    · cases env.VerifyScript _ _ _ _ _
      · exact Or.inr rfl
      · exact Or.inl rfl

/-- C13: for a coinstake with an input 0, `CheckProofOfStake` returns false and
adds 100 to the DoS score when the previous transaction is missing, and, once
the transaction is found in an indexed block, when the prevout hash of input 0
differs from the hash of the previous transaction, when `VerifySignature`
fails, and when the staked output is immature; it adds 1 when those checks
pass and the kernel check fails. In particular an immature output in an indexed
block is always rejected with score 100. -/
theorem C13_rejection_severity (env : Env) (pindexPrev : CBlockIndex) (tx : CTransaction)
    (nBits : Nat) (state : CValidationState) (txin : CTxIn)
    (hcs : tx.fCoinStake = true) (hin : tx.vin[0]? = some txin) :
    (env.GetTransaction txin.prevout.hash = none →
      CheckProofOfStake env pindexPrev tx nBits state =
        some (false, { nDoS := state.nDoS + 100, fInvalid := true })) ∧
    (∀ (txPrev : CTransaction) (hashBlock : Nat) (pblockindex : CBlockIndex) (pprev : BlockPtr),
      env.GetTransaction txin.prevout.hash = some (txPrev, hashBlock) →
      env.mapBlockIndex hashBlock = some (pblockindex, pprev) →
      (txin.prevout.hash ≠ txPrev.hash →
        CheckProofOfStake env pindexPrev tx nBits state =
          some (false, { nDoS := state.nDoS + 100, fInvalid := true })) ∧
      (txin.prevout.hash = txPrev.hash →
        VerifySignature env txPrev tx 0 SCRIPT_VERIFY_NONE = some false →
        CheckProofOfStake env pindexPrev tx nBits state =
          some (false, { nDoS := state.nDoS + 100, fInvalid := true })) ∧
      (txin.prevout.hash = txPrev.hash →
        VerifySignature env txPrev tx 0 SCRIPT_VERIFY_NONE = some true →
        pindexPrev.nHeight + 1 - pblockindex.nHeight < env.params.nCoinbaseMaturity →
        CheckProofOfStake env pindexPrev tx nBits state =
          some (false, { nDoS := state.nDoS + 100, fInvalid := true })) ∧
      (txin.prevout.hash = txPrev.hash →
        VerifySignature env txPrev tx 0 SCRIPT_VERIFY_NONE = some true →
        env.params.nCoinbaseMaturity ≤ pindexPrev.nHeight + 1 - pblockindex.nHeight →
        CheckStakeKernelHash env pindexPrev nBits pblockindex txin.prevout.n txPrev txin.prevout
          tx.nTime env.fDebug = some false →
        CheckProofOfStake env pindexPrev tx nBits state =
          some (false, { nDoS := state.nDoS + 1, fInvalid := true })) ∧
      (pindexPrev.nHeight + 1 - pblockindex.nHeight < env.params.nCoinbaseMaturity →
        CheckProofOfStake env pindexPrev tx nBits state =
          some (false, { nDoS := state.nDoS + 100, fInvalid := true }))) := by
  constructor
  · intro hget
    unfold CheckProofOfStake
    simp only [hcs, hin, hget]
    rfl
  · intro txPrev hashBlock pblockindex pprev hget hmap
    have hmismatch : txin.prevout.hash ≠ txPrev.hash →
        CheckProofOfStake env pindexPrev tx nBits state =
          some (false, { nDoS := state.nDoS + 100, fInvalid := true }) := by
      intro hne
      unfold CheckProofOfStake
      simp only [hcs, hin, hget, hmap]
      simp [hne, CValidationState.DoS]
    have hsigfail : txin.prevout.hash = txPrev.hash →
        VerifySignature env txPrev tx 0 SCRIPT_VERIFY_NONE = some false →
        CheckProofOfStake env pindexPrev tx nBits state =
          some (false, { nDoS := state.nDoS + 100, fInvalid := true }) := by
      intro heq hsig
      unfold CheckProofOfStake
      simp only [hcs, hin, hget, hmap]
      simp [heq, hsig, CValidationState.DoS]
    have himmature : txin.prevout.hash = txPrev.hash →
        VerifySignature env txPrev tx 0 SCRIPT_VERIFY_NONE = some true →
        pindexPrev.nHeight + 1 - pblockindex.nHeight < env.params.nCoinbaseMaturity →
        CheckProofOfStake env pindexPrev tx nBits state =
          some (false, { nDoS := state.nDoS + 100, fInvalid := true }) := by
      intro heq hsig himm
      unfold CheckProofOfStake
      simp only [hcs, hin, hget, hmap]
      simp [heq, hsig, himm, CValidationState.DoS]
    refine ⟨hmismatch, hsigfail, himmature, ?_, ?_⟩
    · intro heq hsig hmat hker
      have hmat' : ¬ (pindexPrev.nHeight + 1 - pblockindex.nHeight <
          env.params.nCoinbaseMaturity) := by omega
      unfold CheckProofOfStake
      simp only [hcs, hin, hget, hmap]
      simp [heq, hsig, hmat', hker, CValidationState.DoS]
    · intro himm
      by_cases heq : txin.prevout.hash = txPrev.hash
      · rcases VerifySignature_input0_defined env txPrev tx txin SCRIPT_VERIFY_NONE hin with
          hsig | hsig
        · exact himmature heq hsig himm
        · exact hsigfail heq hsig
      · exact hmismatch heq

theorem C13_rejection_severity_witness :
    CheckProofOfStake (stakeEnv 100000000) (mkIndex 4 3 1610 1 false) (coinstakeTx 100108)
      0x1d00ffff { nDoS := 0, fInvalid := false } =
      some (false, { nDoS := 0 + 100, fInvalid := true }) :=
  ((C13_rejection_severity (stakeEnv 100000000) (mkIndex 4 3 1610 1 false) (coinstakeTx 100108)
    0x1d00ffff { nDoS := 0, fInvalid := false } { prevout := { hash := 77, n := 0 }, scriptSig := [] }
    (by decide) (by decide)).2 (stakedTx 100000000) 4 (mkIndex 4 3 1610 1 false)
    [mkIndex 3 2 50000 1 true, mkIndex 2 1 1600 0 false, mkIndex 1 0 1000 0 true]
    (by decide) (by decide)).2.2.2.2 (by decide)

/-- C14 (as stated, refuted): with the previous transaction missing from the
store `CheckProofOfStake` returns false and records the DoS score 100; with the
transaction found but its block not indexed it records 100 as well when
`fDebug` is set. -/
theorem C14_counterexample :
    (envOf gridParams backdatedChain).GetTransaction 77 = none ∧
      CheckProofOfStake (envOf gridParams backdatedChain) (mkIndex 7 5 60000 0 true)
        (coinstakeTx 100108) 0x1d00ffff { nDoS := 0, fInvalid := false } =
        some (false, { nDoS := 100, fInvalid := true }) ∧
      (orphanEnv true).mapBlockIndex 4 = none ∧
      CheckProofOfStake (orphanEnv true) (mkIndex 7 5 60000 0 true) (coinstakeTx 100108)
        0x1d00ffff { nDoS := 0, fInvalid := false } =
        some (false, { nDoS := 100, fInvalid := true }) := by
  decide

/-- C14 (amended): for a coinstake with an input 0 whose previous transaction is
found while the block containing it is not in the block index,
`CheckProofOfStake` returns false and leaves the validation state unchanged
when `fDebug` is off; it adds 100 to the DoS score when `fDebug` is set, and
also when the previous transaction itself is missing. -/
theorem C14_lookup_failures (env : Env) (pindexPrev : CBlockIndex) (tx : CTransaction)
    (nBits : Nat) (state : CValidationState) (txin : CTxIn)
    (hcs : tx.fCoinStake = true) (hin : tx.vin[0]? = some txin) :
    (∀ (txPrev : CTransaction) (hashBlock : Nat),
      env.GetTransaction txin.prevout.hash = some (txPrev, hashBlock) →
      env.mapBlockIndex hashBlock = none →
      (env.fDebug = false → CheckProofOfStake env pindexPrev tx nBits state = some (false, state)) ∧
      (env.fDebug = true → CheckProofOfStake env pindexPrev tx nBits state =
        some (false, { nDoS := state.nDoS + 100, fInvalid := true }))) ∧
    (env.GetTransaction txin.prevout.hash = none →
      CheckProofOfStake env pindexPrev tx nBits state =
        some (false, { nDoS := state.nDoS + 100, fInvalid := true })) := by
  constructor
  · intro txPrev hashBlock hget hmap
    constructor
    · intro hdebug
      unfold CheckProofOfStake
      simp only [hcs, hin, hget, hmap]
      simp [hdebug]
    · intro hdebug
      unfold CheckProofOfStake
      simp only [hcs, hin, hget, hmap]
      simp [hdebug, CValidationState.DoS]
  · intro hget
    unfold CheckProofOfStake
    simp only [hcs, hin, hget]
    rfl

theorem C14_lookup_failures_witness :
    CheckProofOfStake (orphanEnv false) (mkIndex 7 5 60000 0 true) (coinstakeTx 100108)
      0x1d00ffff { nDoS := 0, fInvalid := false } = some (false, { nDoS := 0, fInvalid := false }) :=
  ((C14_lookup_failures (orphanEnv false) (mkIndex 7 5 60000 0 true) (coinstakeTx 100108)
    0x1d00ffff { nDoS := 0, fInvalid := false } { prevout := { hash := 77, n := 0 }, scriptSig := [] }
    (by decide) (by decide)).1 (stakedTx 100000000) 4 (by decide) (by decide)).1 (by decide)

/-- C15: a coinstake time earlier than the time of the previous transaction is
rejected by `CheckStakeKernelHashV1` and by `CheckStakeKernelHashV2` for every
target, modifier and hash primitive, and `CheckProofOfStake` returns false for
every coinstake with an input 0 whose previous transaction is found with a
later time. -/
theorem C15_time_violation_rejected (env : Env) (txPrev : CTransaction) (nTimeTx : Nat)
    (htime : nTimeTx < txPrev.nTime) :
    (∀ (nBits : Nat) (blockFrom : CBlockIndex) (nTxPrevOffset : Nat) (prevout : COutPoint)
        (fPrintProofOfStake : Bool),
      CheckStakeKernelHashV1 env nBits blockFrom nTxPrevOffset txPrev prevout nTimeTx
        fPrintProofOfStake = some false) ∧
    (∀ (pindexPrev : CBlockIndex) (nBits : Nat) (prevout : COutPoint),
      CheckStakeKernelHashV2 env pindexPrev nBits txPrev prevout nTimeTx = some false) ∧
    (∀ (pindexPrev : CBlockIndex) (tx : CTransaction) (nBits : Nat) (state : CValidationState)
        (txin : CTxIn) (hashBlock : Nat),
      tx.nTime = nTimeTx → tx.vin[0]? = some txin →
      env.GetTransaction txin.prevout.hash = some (txPrev, hashBlock) →
      (CheckProofOfStake env pindexPrev tx nBits state).map Prod.fst = some false) := by
  have hne : txPrev.nTime ≠ 0 := by omega
  have hv1 : ∀ (nBits : Nat) (blockFrom : CBlockIndex) (nTxPrevOffset : Nat) (prevout : COutPoint)
      (fPrintProofOfStake : Bool),
      CheckStakeKernelHashV1 env nBits blockFrom nTxPrevOffset txPrev prevout nTimeTx
        fPrintProofOfStake = some false := by
    intro nBits blockFrom nTxPrevOffset prevout fPrintProofOfStake
    unfold CheckStakeKernelHashV1
    simp [hne, htime]
  have hv2 : ∀ (pindexPrev : CBlockIndex) (nBits : Nat) (prevout : COutPoint),
      CheckStakeKernelHashV2 env pindexPrev nBits txPrev prevout nTimeTx = some false := by
    intro pindexPrev nBits prevout
    unfold CheckStakeKernelHashV2
    simp [htime]
  refine ⟨hv1, hv2, ?_⟩
  intro pindexPrev tx nBits state txin hashBlock htx hin hget
  have hker : ∀ (blockFrom : CBlockIndex),
      CheckStakeKernelHash env pindexPrev nBits blockFrom txin.prevout.n txPrev txin.prevout
        tx.nTime env.fDebug = some false := by
    intro blockFrom
    unfold CheckStakeKernelHash
    rw [htx]
    split
    · exact hv2 _ _ _
    · exact hv1 _ _ _ _ _
  unfold CheckProofOfStake
  by_cases hcs : tx.fCoinStake = true
  · simp only [hcs, hin, hget]
    cases hmap : env.mapBlockIndex hashBlock with
    | none =>
      by_cases hdebug : env.fDebug = true
      · simp [hdebug, CValidationState.DoS]
      · simp [hdebug]
    | some found =>
      obtain ⟨pblockindex, pprev⟩ := found
      by_cases heq : txin.prevout.hash = txPrev.hash
      · rcases VerifySignature_input0_defined env txPrev tx txin SCRIPT_VERIFY_NONE hin with
          hsig | hsig
        · by_cases hmat : pindexPrev.nHeight + 1 - pblockindex.nHeight <
              env.params.nCoinbaseMaturity
          · simp [heq, hsig, hmat, CValidationState.DoS]
          · simp [heq, hsig, hmat, hker, CValidationState.DoS]
        · simp [heq, hsig, CValidationState.DoS]
      · simp [heq, CValidationState.DoS]
  · simp [hcs]

theorem C15_time_violation_rejected_witness :
    (CheckProofOfStake (stakeEnv 100000000) (mkIndex 7 5 60000 0 true) (coinstakeTx 1600)
      0x1d00ffff { nDoS := 0, fInvalid := false }).map Prod.fst = some false :=
  (C15_time_violation_rejected (stakeEnv 100000000) (stakedTx 100000000) 1600 (by decide)).2.2
    (mkIndex 7 5 60000 0 true) (coinstakeTx 1600) 0x1d00ffff { nDoS := 0, fInvalid := false }
    { prevout := { hash := 77, n := 0 }, scriptSig := [] } 4 (by decide) (by decide) (by decide)

/-! ## Coin age weight -/

/-- C17: when `end - begin` is below `stake_min_age` and `stake_max_age` is not
negative, `GetCoinAgeWeight(begin, end)` is 0, given that the double-precision
curve yields 0 at 0 seconds (0 days give the weight 0, cast to 0). -/
theorem C17_weight_zero_below_min_age (env : Env) (nIntervalBeginning nIntervalEnd : Int)
    (hyoung : nIntervalEnd - nIntervalBeginning < env.params.nStakeMinAge)
    (hcap : 0 ≤ env.params.nStakeMaxAge)
    (hcurve : env.coinAgeCurve 0 = 0) :
    GetCoinAgeWeight env nIntervalBeginning nIntervalEnd = 0 := by
  unfold GetCoinAgeWeight
  split
  · rfl
  · have hsec : max 0 (nIntervalEnd - nIntervalBeginning - env.params.nStakeMinAge) = 0 := by
      apply max_eq_left
      omega
    simp only [hsec, hcurve]
    exact min_eq_left hcap

theorem C17_weight_zero_below_min_age_witness :
    GetCoinAgeWeight (stakeEnv 100000000) 1610 5000 = 0 :=
  C17_weight_zero_below_min_age (stakeEnv 100000000) 1610 5000 (by decide) (by decide)
    (by decide)

/-- C18: with a `stake_max_age` that is not negative, `GetCoinAgeWeight(0, t)`
is non-decreasing in `t` and capped at `stake_max_age`: for all `t1` and `t2`,
in particular for `t1 <= t2`, the weight at `t1` is at most the weight at `t2`,
which is at most `stake_max_age`. The weight is in fact 0 for every `t`: a
beginning that is not positive returns 0 before the curve and the cap are
applied. -/
theorem C18_weight_from_zero (env : Env) (t1 t2 : Int)
    (hcap : 0 ≤ env.params.nStakeMaxAge) :
    GetCoinAgeWeight env 0 t1 ≤ GetCoinAgeWeight env 0 t2 ∧
      GetCoinAgeWeight env 0 t2 ≤ env.params.nStakeMaxAge ∧
      GetCoinAgeWeight env 0 t1 = 0 := by
  have h0 : ∀ t : Int, GetCoinAgeWeight env 0 t = 0 := by
    intro t
    simp [GetCoinAgeWeight]
  rw [h0 t1, h0 t2]
  exact ⟨le_refl 0, hcap, rfl⟩

theorem C18_weight_from_zero_witness :
    GetCoinAgeWeight (stakeEnv 100000000) 0 5000 ≤ GetCoinAgeWeight (stakeEnv 100000000) 0 6000 ∧
      GetCoinAgeWeight (stakeEnv 100000000) 0 6000 ≤ (stakeEnv 100000000).params.nStakeMaxAge ∧
      GetCoinAgeWeight (stakeEnv 100000000) 0 5000 = 0 :=
  C18_weight_from_zero (stakeEnv 100000000) 5000 6000 (by decide)

/-! ## The offset field of the v1 kernel -/

set_option maxRecDepth 100000 in
/-- C16 (the code at the failing input): before protocol v3, for a coinstake
spending output 0 of a previous transaction that is the first transaction of
its block (byte offset 81), `CheckProofOfStake` rejects with DoS score 1: it
passes `prevout.n = 0` to the kernel check in the place of the offset, and the
v1 kernel with 0 in the offset field rejects, while the v1 kernel with the byte
offset 81 in the stream accepts. -/
theorem C16_offset_field_is_prevout_n :
    CheckProofOfStake (legacyEnv 100000000000) (mkIndex 7 5 60000 0 true) (coinstakeTx 100001)
        0x20001000 { nDoS := 0, fInvalid := false } =
        some (false, { nDoS := 1, fInvalid := true }) ∧
      CheckStakeKernelHashV1 (legacyEnv 100000000000) 0x20001000 (mkIndex 4 3 1610 1 false) 0
        (stakedTx 100000000000) { hash := 77, n := 0 } 100001 false = some false ∧
      CheckStakeKernelHashV1 (legacyEnv 100000000000) 0x20001000 (mkIndex 4 3 1610 1 false) 81
        (stakedTx 100000000000) { hash := 77, n := 0 } 100001 false = some true := by
  decide

/-! ## Coin age of a transaction -/

/-- The loop applies `coinAgeStep` to the first input and goes on with the
rest. -/
theorem coinAgeLoop_step (env : Env) (tx : CTransaction) (txin : CTxIn) (rest : List CTxIn)
    (bn : Nat) :
    coinAgeLoop env tx (txin :: rest) bn =
      match coinAgeStep env tx txin bn with
      | some (some bnNext) => coinAgeLoop env tx rest bnNext
      | some none => some none
      | none => none := by
  unfold coinAgeStep
  rw [coinAgeLoop]
  split
  · rfl
  · split
    · rfl
    · split
      · rfl
      · split
        · rfl
        · split
          · rfl
          · rfl

/-- The loop reads only the time of the transaction. -/
theorem coinAgeLoop_congr (env : Env) (tx other : CTransaction) (h : other.nTime = tx.nTime)
    (vin : List CTxIn) (bn : Nat) :
    coinAgeLoop env other vin bn = coinAgeLoop env tx vin bn := by
  induction vin generalizing bn with
  | nil => rfl
  | cons txin rest ih => simp only [coinAgeLoop, h, ih]

/-- The loop over `pre ++ post` runs over `pre` and, when that neither fails
nor is undefined, continues over `post`. -/
theorem coinAgeLoop_append (env : Env) (tx : CTransaction) (pre post : List CTxIn) (bn : Nat) :
    coinAgeLoop env tx (pre ++ post) bn =
      match coinAgeLoop env tx pre bn with
      | some (some bnNext) => coinAgeLoop env tx post bnNext
      | r => r := by
  induction pre generalizing bn with
  | nil => rfl
  | cons txin rest ih =>
    rw [List.cons_append, coinAgeLoop_step, coinAgeLoop_step env tx txin rest]
    cases coinAgeStep env tx txin bn with
    | none => rfl
    | some r =>
      cases r with
      | none => rfl
      | some bnNext => exact ih bnNext

/-- An input on which the loop goes on with an unchanged accumulator can be
removed from the inputs. -/
theorem coinAgeLoop_remove (env : Env) (tx : CTransaction) (pre post : List CTxIn) (txin : CTxIn)
    (hskip : ∀ bn, coinAgeStep env tx txin bn = some (some bn)) (bn : Nat) :
    coinAgeLoop env tx (pre ++ txin :: post) bn = coinAgeLoop env tx (pre ++ post) bn := by
  rw [coinAgeLoop_append, coinAgeLoop_append env tx pre post]
  cases coinAgeLoop env tx pre bn with
  | none => rfl
  | some r =>
    cases r with
    | none => rfl
    | some bnNext =>
      dsimp only
      rw [coinAgeLoop_step, hskip bnNext]

/-- An iteration returns false exactly on an input whose previous transaction
is found and has a later time than the transaction or a block that is not
indexed. -/
theorem coinAgeStep_fails_iff (env : Env) (tx : CTransaction) (txin : CTxIn) (bn : Nat) :
    coinAgeStep env tx txin bn = some none ↔
      ∃ txPrev hashBlock, env.GetTransaction txin.prevout.hash = some (txPrev, hashBlock) ∧
        (tx.nTime < txPrev.nTime ∨ env.mapBlockIndex hashBlock = none) := by
  cases hget : env.GetTransaction txin.prevout.hash with
  | none => simp [coinAgeStep, hget]
  | some found =>
    obtain ⟨txPrev, hashBlock⟩ := found
    have hR : (∃ a b, some (txPrev, hashBlock) = some (a, b) ∧
        (tx.nTime < a.nTime ∨ env.mapBlockIndex b = none)) ↔
        (tx.nTime < txPrev.nTime ∨ env.mapBlockIndex hashBlock = none) := by
      constructor
      · rintro ⟨a, b, hab, h⟩
        cases hab
        exact h
      · intro h
        exact ⟨_, _, rfl, h⟩
    rw [hR]
    unfold coinAgeStep
    simp only [hget]
    by_cases htime : tx.nTime < txPrev.nTime
    · simp [htime]
    · cases hmap : env.mapBlockIndex hashBlock with
      | none => simp [htime]
      | some blk =>
        obtain ⟨pblockindex, pprev⟩ := blk
        simp only [htime, if_false, false_or]
        by_cases hyoung : (pblockindex.nTime : Int) + env.params.nStakeMinAge > tx.nTime
        · simp [hyoung]
        · cases hout : txPrev.vout[txin.prevout.n]? with
          | none => simp [hyoung]
          | some txout => simp [hyoung]

/-- An iteration is defined when the output spent by the input exists. -/
theorem coinAgeStep_defined (env : Env) (tx : CTransaction) (txin : CTxIn) (bn : Nat)
    (hrange : ∀ txPrev hashBlock,
      env.GetTransaction txin.prevout.hash = some (txPrev, hashBlock) →
      txin.prevout.n < txPrev.vout.length) :
    coinAgeStep env tx txin bn ≠ none := by
  unfold coinAgeStep
  cases hget : env.GetTransaction txin.prevout.hash with
  | none => simp
  | some found =>
    obtain ⟨txPrev, hashBlock⟩ := found
    have hlt := hrange txPrev hashBlock hget
    have hout : txPrev.vout[txin.prevout.n]? = some (txPrev.vout[txin.prevout.n]) :=
      List.getElem?_eq_getElem hlt
    dsimp only
    split
    · simp
    · split
      · simp
      · split
        · simp
        · simp [hout]

/-- An iteration that goes on adds the counted cent-seconds of its input, in
256-bit arithmetic. -/
theorem coinAgeStep_sum (env : Env) (tx : CTransaction) (txin : CTxIn) (bn bnNext : Nat)
    (h : coinAgeStep env tx txin bn = some (some bnNext)) :
    bnNext % 2 ^ 256 = (bn + (countedCentSeconds env tx [txin]).sum) % 2 ^ 256 ∧
      (bn < 2 ^ 256 → bnNext < 2 ^ 256) := by
  unfold coinAgeStep at h
  unfold countedCentSeconds
  cases hget : env.GetTransaction txin.prevout.hash with
  | none =>
    simp only [hget, Option.some.injEq] at h
    subst h
    simp [hget]
  | some found =>
    obtain ⟨txPrev, hashBlock⟩ := found
    simp only [hget] at h
    by_cases htime : tx.nTime < txPrev.nTime
    · simp [htime] at h
    · simp only [htime, if_false] at h
      cases hmap : env.mapBlockIndex hashBlock with
      | none => simp [hmap] at h
      | some blk =>
        obtain ⟨pblockindex, pprev⟩ := blk
        simp only [hmap] at h
        by_cases hyoung : (pblockindex.nTime : Int) + env.params.nStakeMinAge > tx.nTime
        · simp only [hyoung, if_true, Option.some.injEq] at h
          subst h
          have hnot : ¬ ((pblockindex.nTime : Int) + env.params.nStakeMinAge ≤ tx.nTime) := by
            omega
          cases hout : txPrev.vout[txin.prevout.n]? with
          | none => simp [hget, hmap, hout]
          | some txout => simp [hget, hmap, hout, hnot]
        · simp only [hyoung, if_false] at h
          have hold : (pblockindex.nTime : Int) + env.params.nStakeMinAge ≤ tx.nTime := by omega
          cases hout : txPrev.vout[txin.prevout.n]? with
          | none => simp [hout] at h
          | some txout =>
            have hlt : toU64 txout.nValue *
                toU32 (GetCoinAgeWeight env (txPrev.nTime : Int) (tx.nTime : Int)) < 2 ^ 256 :=
              lt_trans (Nat.mul_lt_mul'' (toU64_lt _) (toU32_lt _)) (by norm_num)
            simp only [hout, Option.some.injEq, Nat.mod_eq_of_lt hlt] at h
            subst h
            constructor
            · simp [hget, hmap, hout, hold]
            · intro _
              exact Nat.mod_lt _ (by norm_num)

/-- When the loop ends, the accumulator has grown by the counted cent-seconds
of the inputs, in 256-bit arithmetic. -/
theorem coinAgeLoop_sum (env : Env) (tx : CTransaction) (vin : List CTxIn) (bn r : Nat)
    (h : coinAgeLoop env tx vin bn = some (some r)) :
    r % 2 ^ 256 = (bn + (countedCentSeconds env tx vin).sum) % 2 ^ 256 ∧
      (bn < 2 ^ 256 → r < 2 ^ 256) := by
  induction vin generalizing bn with
  | nil =>
    simp only [coinAgeLoop, Option.some.injEq] at h
    subst h
    simp [countedCentSeconds]
  | cons txin rest ih =>
    rw [coinAgeLoop_step] at h
    cases hstep : coinAgeStep env tx txin bn with
    | none => simp [hstep] at h
    | some s =>
      cases s with
      | none => simp [hstep] at h
      | some bnNext =>
        simp only [hstep] at h
        obtain ⟨hsum1, hlt1⟩ := coinAgeStep_sum env tx txin bn bnNext hstep
        obtain ⟨hsum2, hlt2⟩ := ih bnNext h
        have hsplit : countedCentSeconds env tx (txin :: rest) =
            countedCentSeconds env tx [txin] ++ countedCentSeconds env tx rest := by
          unfold countedCentSeconds
          rw [← List.filterMap_append]
          rfl
        constructor
        · rw [hsum2, hsplit, List.sum_append, ← Nat.add_assoc, Nat.add_mod, hsum1,
            ← Nat.add_mod]
        · intro hbn
          exact hlt2 (hlt1 hbn)

/-- With every spent output present, the loop returns, and it returns false
exactly when an input has a previous transaction that is found with a later
time than the transaction or in a block that is not indexed. -/
theorem coinAgeLoop_fails_iff (env : Env) (tx : CTransaction) (vin : List CTxIn) (bn : Nat)
    (hrange : ∀ txin ∈ vin, ∀ txPrev hashBlock,
      env.GetTransaction txin.prevout.hash = some (txPrev, hashBlock) →
      txin.prevout.n < txPrev.vout.length) :
    ∃ r, coinAgeLoop env tx vin bn = some r ∧
      (r = none ↔ ∃ txin ∈ vin, ∃ txPrev hashBlock,
        env.GetTransaction txin.prevout.hash = some (txPrev, hashBlock) ∧
        (tx.nTime < txPrev.nTime ∨ env.mapBlockIndex hashBlock = none)) := by
  induction vin generalizing bn with
  | nil => exact ⟨some bn, rfl, by simp⟩
  | cons txin rest ih =>
    rw [coinAgeLoop_step]
    have hdef := coinAgeStep_defined env tx txin bn (hrange txin (by simp))
    have hfail := coinAgeStep_fails_iff env tx txin bn
    cases hstep : coinAgeStep env tx txin bn with
    | none => exact absurd hstep hdef
    | some s =>
      cases s with
      | none =>
        refine ⟨none, rfl, ?_⟩
        simp only [true_iff]
        obtain ⟨txPrev, hashBlock, hget, hviol⟩ := hfail.mp hstep
        exact ⟨txin, by simp, txPrev, hashBlock, hget, hviol⟩
      | some bnNext =>
        obtain ⟨r, hr, hiff⟩ := ih bnNext (fun x hx => hrange x (by simp [hx]))
        refine ⟨r, hr, ?_⟩
        rw [hiff]
        constructor
        · rintro ⟨x, hx, hrest⟩
          exact ⟨x, by simp [hx], hrest⟩
        · rintro ⟨x, hx, txPrev, hashBlock, hget, hviol⟩
          rcases List.mem_cons.mp hx with hxe | hxr
          · subst hxe
            have := hfail.mpr ⟨txPrev, hashBlock, hget, hviol⟩
            rw [hstep] at this
            simp at this
          · exact ⟨x, hxr, txPrev, hashBlock, hget, hviol⟩

/-- C19: for a coinbase transaction `TransactionGetCoinAge` succeeds with coin
age 0; for any other transaction on which it succeeds the coin age is the low
64 bits of `((sum of value_in * weight / CENT) * CENT / COIN) / 86400` in
256-bit arithmetic, the sum ranging over the inputs whose previous transaction
is found and whose containing block satisfies
`block.time + stake_min_age <= tx.time` (`countedCentSeconds`). -/
theorem C19_TransactionGetCoinAge_value (env : Env) (tx : CTransaction) :
    (tx.fCoinBase = true → TransactionGetCoinAge env tx = some (true, 0)) ∧
    (tx.fCoinBase = false → ∀ nCoinAge : Nat,
      TransactionGetCoinAge env tx = some (true, nCoinAge) →
      nCoinAge = ((countedCentSeconds env tx tx.vin).sum % 2 ^ 256 * CENT % 2 ^ 256
        / COIN / 86400) % 2 ^ 64) := by
  constructor
  · intro hcb
    simp [TransactionGetCoinAge, hcb]
  · intro hcb nCoinAge hres
    unfold TransactionGetCoinAge at hres
    simp only [hcb, Bool.false_eq_true, if_false] at hres
    cases hloop : coinAgeLoop env tx tx.vin 0 with
    | none => simp [hloop] at hres
    | some r =>
      cases r with
      | none => simp [hloop] at hres
      | some bn =>
        simp only [hloop, Option.some.injEq, Prod.mk.injEq, true_and] at hres
        obtain ⟨hsum, hlt⟩ := coinAgeLoop_sum env tx tx.vin 0 bn hloop
        have hbn : bn = (countedCentSeconds env tx tx.vin).sum % 2 ^ 256 := by
          rw [← Nat.mod_eq_of_lt (hlt (by norm_num)), hsum, Nat.zero_add]
        rw [← hres, hbn]

theorem C19_TransactionGetCoinAge_value_witness :
    (1160 : Nat) = ((countedCentSeconds (stakeEnv 100000000000) (twoInputTx 100000)
      (twoInputTx 100000).vin).sum % 2 ^ 256 * CENT % 2 ^ 256 / COIN / 86400) % 2 ^ 64 :=
  (C19_TransactionGetCoinAge_value (stakeEnv 100000000000) (twoInputTx 100000)).2 (by decide) 1160
    (by decide)

/-- C20: on a transaction that is not a coinbase and whose inputs spend outputs
that exist, `TransactionGetCoinAge` returns, and it returns false exactly when
some input whose previous transaction is found has `tx.time < tx_prev.time` or
a containing block that is not in the block index (whatever the age of the
input). An input whose previous transaction is not found, and an input that
passes both checks and is younger than `stake_min_age`, can be removed without
changing the result. -/
theorem C20_TransactionGetCoinAge_fails_iff (env : Env) (tx : CTransaction)
    (hcb : tx.fCoinBase = false)
    (hrange : ∀ txin ∈ tx.vin, ∀ p ∈ env.GetTransaction txin.prevout.hash,
      txin.prevout.n < p.1.vout.length) :
    (∃ (fOk : Bool) (nCoinAge : Nat), TransactionGetCoinAge env tx = some (fOk, nCoinAge) ∧
      (fOk = false ↔ ∃ txin ∈ tx.vin, ∃ txPrev hashBlock,
        env.GetTransaction txin.prevout.hash = some (txPrev, hashBlock) ∧
        (tx.nTime < txPrev.nTime ∨ env.mapBlockIndex hashBlock = none))) ∧
    (∀ (pre post : List CTxIn) (txin : CTxIn), tx.vin = pre ++ txin :: post →
      env.GetTransaction txin.prevout.hash = none →
      TransactionGetCoinAge env tx = TransactionGetCoinAge env { tx with vin := pre ++ post }) ∧
    (∀ (pre post : List CTxIn) (txin : CTxIn) (txPrev : CTransaction) (hashBlock : Nat)
        (pblockindex : CBlockIndex) (pprev : BlockPtr),
      tx.vin = pre ++ txin :: post →
      env.GetTransaction txin.prevout.hash = some (txPrev, hashBlock) →
      txPrev.nTime ≤ tx.nTime →
      env.mapBlockIndex hashBlock = some (pblockindex, pprev) →
      (tx.nTime : Int) < (pblockindex.nTime : Int) + env.params.nStakeMinAge →
      TransactionGetCoinAge env tx = TransactionGetCoinAge env { tx with vin := pre ++ post }) := by
  have hremove : ∀ (pre post : List CTxIn) (txin : CTxIn), tx.vin = pre ++ txin :: post →
      (∀ bn, coinAgeStep env tx txin bn = some (some bn)) →
      TransactionGetCoinAge env tx =
        TransactionGetCoinAge env { tx with vin := pre ++ post } := by
    intro pre post txin hvin hskip
    unfold TransactionGetCoinAge
    rw [coinAgeLoop_congr env tx { tx with vin := pre ++ post } rfl, hvin,
      coinAgeLoop_remove env tx pre post txin hskip 0]
  refine ⟨?_, ?_, ?_⟩
  · have hrange2 : ∀ txin ∈ tx.vin, ∀ txPrev hashBlock,
        env.GetTransaction txin.prevout.hash = some (txPrev, hashBlock) →
        txin.prevout.n < txPrev.vout.length := by
      intro txin hmem txPrev hashBlock hget
      exact hrange txin hmem (txPrev, hashBlock) hget
    obtain ⟨r, hr, hiff⟩ := coinAgeLoop_fails_iff env tx tx.vin 0 hrange2
    unfold TransactionGetCoinAge
    simp only [hcb, Bool.false_eq_true, if_false, hr]
    cases r with
    | none =>
      refine ⟨false, 0, rfl, ?_⟩
      simp only [true_iff]
      exact hiff.mp rfl
    | some bn =>
      refine ⟨true, _, rfl, ?_⟩
      constructor
      · intro h
        simp at h
      · intro h
        have := hiff.mpr h
        simp at this
  · intro pre post txin hvin hget
    apply hremove pre post txin hvin
    intro bn
    simp [coinAgeStep, hget]
  · intro pre post txin txPrev hashBlock pblockindex pprev hvin hget htime hmap hyoung
    apply hremove pre post txin hvin
    intro bn
    have htime' : ¬ tx.nTime < txPrev.nTime := Nat.not_lt.mpr htime
    simp [coinAgeStep, hget, htime', hmap, hyoung]

theorem C20_TransactionGetCoinAge_fails_iff_witness :
    TransactionGetCoinAge (stakeEnv 100000000000) (twoInputTx 1600) =
      TransactionGetCoinAge (stakeEnv 100000000000)
        { twoInputTx 1600 with vin := [] ++ [{ prevout := { hash := 77, n := 0 }, scriptSig := [] }] } :=
  (C20_TransactionGetCoinAge_fails_iff (stakeEnv 100000000000) (twoInputTx 1600) (by decide)
    (by decide)).2.1 [] [{ prevout := { hash := 77, n := 0 }, scriptSig := [] }]
    { prevout := { hash := 99, n := 0 }, scriptSig := [] } (by decide) (by decide)

/-! ## The rounds of a recomputation -/

/-- The modifier computed by the rounds is the accumulation of the entropy bits
of the selected blocks. -/
theorem selectionRounds_eq_trace (env : Env) (vs : List (Int × Nat)) (nStakeModifier : Nat)
    (nRounds nRound : Nat) (nStop : Int) (selected : List Nat) (nNew : Nat) :
    selectionRounds env vs nStakeModifier nRounds nRound nStop selected nNew =
      (selectionTrace env vs nStakeModifier nRounds nRound nStop selected).map
        (writeEntropyBits nRound nNew) := by
  induction nRounds generalizing nRound nStop selected nNew with
  | zero => rfl
  | succ n ih =>
    simp only [selectionRounds, selectionTrace]
    cases SelectBlockFromCandidates env vs selected
        (nStop + GetStakeModifierSelectionIntervalSection env.params nRound) nStakeModifier with
    | none => rfl
    | some pindex =>
      simp only [ih, Option.map_map]
      rfl

/-- The sum of the sections `nRound .. nRound + k`. -/
theorem sections_sum_succ (params : Params) (nRound k : Nat) :
    ((List.range (k + 1 + 1)).map
        (fun j => GetStakeModifierSelectionIntervalSection params (nRound + j))).sum =
      GetStakeModifierSelectionIntervalSection params nRound +
        ((List.range (k + 1)).map
          (fun j => GetStakeModifierSelectionIntervalSection params (nRound + 1 + j))).sum := by
  rw [List.range_succ_eq_map (k + 1), List.map_cons, List.sum_cons, List.map_map]
  congr 2
  apply List.map_congr_left
  intro j _
  simp only [Function.comp, Nat.add_zero]
  congr 1
  omega

/-- The rounds run to the end select one block each: block `i` is the result of
`SelectBlockFromCandidates` on the same candidates and modifier, with the
blocks selected before it excluded and the stop time advanced by the sections
of the rounds so far. -/
theorem selectionTrace_spec (env : Env) (vs : List (Int × Nat)) (nStakeModifier : Nat)
    (nRounds nRound : Nat) (nStop : Int) (selected : List Nat) (tr : List CBlockIndex)
    (h : selectionTrace env vs nStakeModifier nRounds nRound nStop selected = some tr) :
    tr.length = nRounds ∧
      ∀ (i : Nat) (hi : i < tr.length),
        SelectBlockFromCandidates env vs
          (((tr.take i).map (fun b => b.phashBlock)).reverse ++ selected)
          (nStop + (((List.range (i + 1)).map
            (fun j => GetStakeModifierSelectionIntervalSection env.params (nRound + j))).sum : Nat))
          nStakeModifier = some tr[i] := by
  induction nRounds generalizing nRound nStop selected tr with
  | zero =>
    simp only [selectionTrace, Option.some.injEq] at h
    subst h
    exact ⟨rfl, fun i hi => absurd hi (by simp)⟩
  | succ n ih =>
    simp only [selectionTrace] at h
    cases hsel : SelectBlockFromCandidates env vs selected
        (nStop + GetStakeModifierSelectionIntervalSection env.params nRound) nStakeModifier with
    | none => simp [hsel] at h
    | some pindex =>
      simp only [hsel] at h
      cases hrest : selectionTrace env vs nStakeModifier n (nRound + 1)
          (nStop + GetStakeModifierSelectionIntervalSection env.params nRound)
          (pindex.phashBlock :: selected) with
      | none => simp [hrest] at h
      | some rest =>
        simp only [hrest, Option.map_some', Option.some.injEq] at h
        subst h
        obtain ⟨hlen, hall⟩ := ih (nRound + 1) _ _ rest hrest
        refine ⟨by simp [hlen], ?_⟩
        intro i hi
        cases i with
        | zero =>
          simpa using hsel
        | succ i =>
          have hi' : i < rest.length := by simpa using hi
          have := hall i hi'
          simp only [List.take_succ_cons, List.map_cons, List.reverse_cons, List.append_assoc,
            List.singleton_append, List.getElem_cons_succ]
          rw [sections_sum_succ, ← this]
          congr 1
          push_cast
          ring

/-- A value below `2 ^ n` has no bit at or above position `n`. -/
theorem testBit_false_of_lt_of_le (x n k : Nat) (hx : x < 2 ^ n) (hk : n ≤ k) :
    x.testBit k = false :=
  Nat.testBit_lt_two_pow (lt_of_lt_of_le hx (Nat.pow_le_pow_right (by norm_num) hk))

/-- Writing the entropy bits (each 0 or 1) of `tr` at the positions
`nRound, nRound + 1, ...` below 64 keeps the lower bits, sets bit `nRound + i`
to the entropy bit of block `i`, and stays below `2 ^ (nRound + tr.length)`. -/
theorem writeEntropyBits_bits (tr : List CBlockIndex) (nRound nNew : Nat)
    (hbits : ∀ b ∈ tr, b.nStakeEntropyBit ≤ 1) (hnew : nNew < 2 ^ nRound)
    (hlen : nRound + tr.length ≤ 64) :
    writeEntropyBits nRound nNew tr < 2 ^ (nRound + tr.length) ∧
      (∀ k, k < nRound → (writeEntropyBits nRound nNew tr).testBit k = nNew.testBit k) ∧
      (∀ (i : Nat) (hi : i < tr.length),
        (writeEntropyBits nRound nNew tr).testBit (nRound + i) =
          decide (tr[i].nStakeEntropyBit = 1)) := by
  induction tr generalizing nRound nNew with
  | nil =>
    refine ⟨by simpa [writeEntropyBits] using hnew, fun k _ => rfl, fun i hi => absurd hi (by simp)⟩
  | cons b rest ih =>
    have hb : b.nStakeEntropyBit ≤ 1 := hbits b (by simp)
    have hround : nRound < 64 := by
      simp only [List.length_cons] at hlen
      omega
    have hshift : b.nStakeEntropyBit <<< nRound < 2 ^ (nRound + 1) := by
      rw [Nat.shiftLeft_eq, pow_succ]
      have hpos : 0 < 2 ^ nRound := Nat.two_pow_pos nRound
      nlinarith
    have hmod : (b.nStakeEntropyBit <<< nRound) % 2 ^ 64 = b.nStakeEntropyBit <<< nRound :=
      Nat.mod_eq_of_lt (lt_of_lt_of_le hshift (Nat.pow_le_pow_right (by norm_num) (by omega)))
    have hnew' : nNew ||| (b.nStakeEntropyBit <<< nRound) % 2 ^ 64 < 2 ^ (nRound + 1) := by
      rw [hmod]
      exact Nat.or_lt_two_pow (lt_of_lt_of_le hnew (Nat.pow_le_pow_right (by norm_num) (by omega)))
        hshift
    obtain ⟨hlt, hlow, hhigh⟩ := ih (nRound + 1) _ (fun x hx => hbits x (by simp [hx])) hnew'
      (by simp only [List.length_cons] at hlen; omega)
    simp only [writeEntropyBits]
    refine ⟨?_, ?_, ?_⟩
    · have : nRound + (b :: rest).length = nRound + 1 + rest.length := by
        simp only [List.length_cons]
        omega
      rw [this]
      exact hlt
    · intro k hk
      rw [hlow k (by omega), hmod, Nat.testBit_or, Nat.testBit_shiftLeft]
      have : ¬ (k ≥ nRound) := by omega
      simp [this]
    · intro i hi
      cases i with
      | zero =>
        show (writeEntropyBits (nRound + 1) (nNew ||| b.nStakeEntropyBit <<< nRound % 2 ^ 64)
          rest).testBit nRound = decide ((b :: rest)[0].nStakeEntropyBit = 1)
        rw [hlow nRound (by omega), hmod, Nat.testBit_or, Nat.testBit_shiftLeft,
          Nat.testBit_lt_two_pow hnew]
        simp only [ge_iff_le, le_refl, decide_True, Nat.sub_self, Bool.true_and, Bool.false_or,
          List.getElem_cons_zero]
        rcases Nat.le_one_iff_eq_zero_or_eq_one.mp hb with h0 | h1
        · simp [h0]
        · simp [h1]
      | succ i =>
        have hi' : i < rest.length := by simpa using hi
        have := hhigh i hi'
        simp only [List.getElem_cons_succ]
        rw [← this]
        congr 1
        omega

/-- On the recomputing path `ComputeNextStakeModifier` is the result of the
selection rounds over the sorted candidates, reported as generated. -/
theorem ComputeNextStakeModifier_unfold (env : Env) (prev : CBlockIndex) (pprev : BlockPtr)
    (nStakeModifier nModifierTime : Nat)
    (hlast : GetLastStakeModifier (prev :: pprev) = some (nStakeModifier, nModifierTime))
    (hepoch : nModifierTime / env.params.nModifierInterval <
      prev.nTime / env.params.nModifierInterval) :
    ComputeNextStakeModifier env (prev :: pprev) =
      (selectionRounds env (sortedCandidates env (prev :: pprev)) nStakeModifier
        (min 64 (sortedCandidates env (prev :: pprev)).length) 0
        (selectionIntervalStart env prev) [] 0).map (fun n => (n, true)) := by
  have hnot : ¬ (prev.nTime / env.params.nModifierInterval ≤
      nModifierTime / env.params.nModifierInterval) := Nat.not_le.mpr hepoch
  simp only [ComputeNextStakeModifier, hlast, ge_iff_le, hnot, if_false]
  show (match selectionRounds env (sortedCandidates env (prev :: pprev)) nStakeModifier
        (min 64 (sortedCandidates env (prev :: pprev)).length) 0
        (selectionIntervalStart env prev) [] 0 with
      | none => none
      | some nStakeModifierNew => some (nStakeModifierNew, true)) = _
  cases selectionRounds env (sortedCandidates env (prev :: pprev)) nStakeModifier
        (min 64 (sortedCandidates env (prev :: pprev)).length) 0
        (selectionIntervalStart env prev) [] 0 <;> rfl

/-- A result with `generated = true` for a non-null previous block comes from
the rounds of a recomputation: the block selected in round `r` is the result of
`SelectBlockFromCandidates` on the sorted candidates with the previous modifier,
the blocks of the earlier rounds excluded and the stop time of round `r`, and
the modifier is written from the entropy bits of the selected blocks. -/
theorem recomputation_rounds (env : Env) (prev : CBlockIndex) (pprev : BlockPtr) (m : Nat)
    (hres : ComputeNextStakeModifier env (prev :: pprev) = some (m, true)) :
    ∃ (sel : List CBlockIndex) (nStakeModifier nModifierTime : Nat),
      GetLastStakeModifier (prev :: pprev) = some (nStakeModifier, nModifierTime) ∧
      sel.length = min 64 (sortedCandidates env (prev :: pprev)).length ∧
      (∀ (r : Nat) (hr : r < sel.length),
        SelectBlockFromCandidates env (sortedCandidates env (prev :: pprev))
          ((sel.take r).map (fun b => b.phashBlock)).reverse
          (selectionIntervalStop env prev r) nStakeModifier = some sel[r]) ∧
      m = writeEntropyBits 0 0 sel := by
  cases hlast : GetLastStakeModifier (prev :: pprev) with
  | none => simp [ComputeNextStakeModifier, hlast] at hres
  | some last =>
    obtain ⟨nStakeModifier, nModifierTime⟩ := last
    by_cases hepoch : nModifierTime / env.params.nModifierInterval <
        prev.nTime / env.params.nModifierInterval
    · rw [ComputeNextStakeModifier_unfold env prev pprev nStakeModifier nModifierTime hlast hepoch,
        selectionRounds_eq_trace] at hres
      cases htr : selectionTrace env (sortedCandidates env (prev :: pprev)) nStakeModifier
          (min 64 (sortedCandidates env (prev :: pprev)).length) 0
          (selectionIntervalStart env prev) [] with
      | none => simp [htr] at hres
      | some sel =>
        simp only [htr, Option.map_some', Option.some.injEq, Prod.mk.injEq, and_true] at hres
        obtain ⟨hlen, hall⟩ := selectionTrace_spec env _ _ _ _ _ _ sel htr
        refine ⟨sel, nStakeModifier, nModifierTime, rfl, hlen, ?_, hres.symm⟩
        intro r hr
        have := hall r hr
        simp only [List.append_nil, Nat.zero_add] at this
        exact this
    · have hge : nModifierTime / env.params.nModifierInterval ≥
          prev.nTime / env.params.nModifierInterval := Nat.le_of_not_lt hepoch
      simp [ComputeNextStakeModifier, hlast, hge] at hres

/-! ## The order of `uint256` -/

theorem serLE_lt (k v : Nat) : ∀ x ∈ serLE k v, x < 256 := by
  induction k generalizing v with
  | zero => intro x hx; simp [serLE] at hx
  | succ k ih =>
    intro x hx
    simp only [serLE, List.mem_cons] at hx
    rcases hx with rfl | hx
    · exact Nat.mod_lt _ (by norm_num)
    · exact ih _ x hx

/-- Reading byte strings of equal length as base-256 numbers, most significant
byte first, from a smaller start gives a smaller number. -/
theorem foldl_key_lt (l1 : List Nat) :
    ∀ (l2 : List Nat) (acc1 acc2 : Nat), l1.length = l2.length → (∀ x ∈ l1, x < 256) →
      acc1 < acc2 →
      l1.foldl (fun acc byte => acc * 256 + byte) acc1 <
        l2.foldl (fun acc byte => acc * 256 + byte) acc2 := by
  induction l1 with
  | nil =>
    intro l2 acc1 acc2 hlen _ hacc
    cases l2 with
    | nil => exact hacc
    | cons _ _ => simp at hlen
  | cons a as ih =>
    intro l2 acc1 acc2 hlen hb hacc
    cases l2 with
    | nil => simp at hlen
    | cons b bs =>
      have ha := hb a (List.mem_cons_self _ _)
      simp only [List.foldl_cons]
      apply ih bs _ _ (by simpa using hlen) (fun x hx => hb x (List.mem_cons_of_mem _ hx))
      omega

/-- The comparison `memcmp` of byte strings of equal length is the order of the
numbers they spell, most significant byte first. -/
theorem memcmpLt_iff (l1 : List Nat) :
    ∀ (l2 : List Nat) (acc : Nat), l1.length = l2.length → (∀ x ∈ l1, x < 256) →
      (∀ x ∈ l2, x < 256) →
      (memcmpLt l1 l2 = true ↔
        l1.foldl (fun acc byte => acc * 256 + byte) acc <
          l2.foldl (fun acc byte => acc * 256 + byte) acc) := by
  induction l1 with
  | nil =>
    intro l2 acc hlen _ _
    cases l2 with
    | nil => simp [memcmpLt]
    | cons _ _ => simp at hlen
  | cons a as ih =>
    intro l2 acc hlen h1 h2
    cases l2 with
    | nil => simp at hlen
    | cons b bs =>
      have hlen' : as.length = bs.length := by simpa using hlen
      have h1' : ∀ x ∈ as, x < 256 := fun x hx => h1 x (List.mem_cons_of_mem _ hx)
      have h2' : ∀ x ∈ bs, x < 256 := fun x hx => h2 x (List.mem_cons_of_mem _ hx)
      have ha := h1 a (List.mem_cons_self _ _)
      have hb := h2 b (List.mem_cons_self _ _)
      simp only [memcmpLt, List.foldl_cons]
      by_cases hab : a < b
      · simp only [hab, if_true, true_iff]
        exact foldl_key_lt as bs _ _ hlen' h1' (by omega)
      · by_cases hba : b < a
        · simp only [hab, hba, if_true, if_false, Bool.false_eq_true, false_iff, not_lt]
          exact le_of_lt (foldl_key_lt bs as _ _ hlen'.symm h2' (by omega))
        · have heq : a = b := by omega
          subst heq
          simp only [hab, if_false]
          exact ih bs _ hlen' h1' h2'

/-- The order `uint256Lt` is the order of the keys `blobKey`. -/
theorem uint256Lt_iff (a b : Nat) : uint256Lt a b = true ↔ blobKey a < blobKey b :=
  memcmpLt_iff (ser256 a) (ser256 b) 0 (by simp [ser256, serLE_length])
    (serLE_lt 32 a) (serLE_lt 32 b)

/-- The index entry of a candidate is unique. -/
theorem indexed_unique (env : Env) (h : Nat) (b b0 : CBlockIndex) (p p0 : BlockPtr)
    (h1 : env.mapBlockIndex h = some (b, p)) (h0 : env.mapBlockIndex h = some (b0, p0)) :
    b = b0 := by
  rw [h1] at h0
  simp only [Option.some.injEq, Prod.mk.injEq] at h0
  exact h0.1

/-- The candidate list of a recomputation is sorted by `std::sort`: no element
is less than an earlier one in the order of the pairs. -/
theorem sortedCandidates_sorted (env : Env) (pindexPrev : BlockPtr) :
    (sortedCandidates env pindexPrev).Sorted pairLe := by
  have htotal : IsTotal (Int × Nat) pairLe := ⟨fun a b => by
    unfold pairLe pairLt
    rw [uint256Lt_iff, uint256Lt_iff]
    omega⟩
  have htrans : IsTrans (Int × Nat) pairLe := ⟨fun a b c hab hbc => by
    unfold pairLe pairLt at *
    rw [uint256Lt_iff] at *
    omega⟩
  cases pindexPrev with
  | nil => exact List.sorted_nil
  | cons prev pprev => exact List.sorted_insertionSort pairLe _

/-- A list sorted in the order of the pairs is in ascending time. -/
theorem sorted_times (vs : List (Int × Nat)) (h : vs.Sorted pairLe) :
    vs.Pairwise (fun a b => a.1 ≤ b.1) :=
  List.Pairwise.imp (fun {a b} hab => by
    unfold pairLe pairLt at hab
    omega) h

/-- The block returned by the loop of `SelectBlockFromCandidates` is the one
held on entry or the index entry of a candidate. -/
theorem selectLoop_indexed (env : Env) (selected : List Nat) (stop : Int) (md : Nat) :
    ∀ (vs : List (Int × Nat)) (best : Option (Nat × CBlockIndex)) (s : CBlockIndex),
      selectLoop env selected stop md vs best = some s →
        (∃ h, best = some (h, s)) ∨ (∃ item ∈ vs, ∃ p, env.mapBlockIndex item.2 = some (s, p)) := by
  intro vs
  induction vs with
  | nil =>
    intro best s hs
    cases best with
    | none => simp [selectLoop] at hs
    | some hb =>
      simp only [selectLoop, Option.map_some', Option.some.injEq] at hs
      exact Or.inl ⟨hb.1, by rw [← hs]⟩
  | cons item rest ih =>
    intro best s hs
    rw [selectLoop] at hs
    cases hmap : env.mapBlockIndex item.2 with
    | none => simp [hmap] at hs
    | some bp =>
      obtain ⟨b0, p0⟩ := bp
      simp only [hmap] at hs
      have hrest : ∀ best', selectLoop env selected stop md rest best' = some s →
          best' = best ∨ (∃ h, best' = some (h, b0)) →
          (∃ h, best = some (h, s)) ∨
            (∃ it ∈ item :: rest, ∃ p, env.mapBlockIndex it.2 = some (s, p)) := by
        intro best' hs' hb'
        rcases ih best' s hs' with ⟨h, hh⟩ | ⟨it, hit, p, hp⟩
        · rcases hb' with heq | ⟨h', hh'⟩
          · exact Or.inl ⟨h, by rw [← heq, hh]⟩
          · rw [hh] at hh'
            simp only [Option.some.injEq, Prod.mk.injEq] at hh'
            exact Or.inr ⟨item, List.mem_cons_self _ _, p0, by rw [hmap, hh'.2]⟩
        · exact Or.inr ⟨it, List.mem_cons_of_mem _ hit, p, hp⟩
      split at hs
      · cases best with
        | none => simp at hs
        | some hb =>
          simp only [Option.map_some', Option.some.injEq] at hs
          exact Or.inl ⟨hb.1, by rw [← hs]⟩
      · split at hs
        · exact hrest best hs (Or.inl rfl)
        · split at hs
          · split at hs
            · exact hrest _ hs (Or.inr ⟨_, rfl⟩)
            · exact hrest _ hs (Or.inl rfl)
          · exact hrest _ hs (Or.inr ⟨_, rfl⟩)

/-- C11: when `ComputeNextStakeModifier` recomputes (result `generated = true`
for a non-null previous block) over `n` candidates whose entropy bits are 0 or
1, there are `min(64, n)` rounds, round `r` selecting the block
`SelectBlockFromCandidates` returns with the blocks of the earlier rounds
excluded; bit `r` of the new modifier is the entropy bit of the block selected
in round `r`, every bit from `min(64, n)` on is 0, the modifier is below
`2 ^ 64`, and with fewer than 64 candidates it is below `2 ^ n`. -/
theorem C11_modifier_bits (env : Env) (prev : CBlockIndex) (pprev : BlockPtr) (m : Nat)
    (hres : ComputeNextStakeModifier env (prev :: pprev) = some (m, true))
    (hbits : ∀ (h : Nat) (b : CBlockIndex) (p : BlockPtr),
      env.mapBlockIndex h = some (b, p) → b.nStakeEntropyBit = 0 ∨ b.nStakeEntropyBit = 1) :
    ∃ (sel : List CBlockIndex) (nStakeModifier nModifierTime : Nat),
      GetLastStakeModifier (prev :: pprev) = some (nStakeModifier, nModifierTime) ∧
      sel.length = min 64 (sortedCandidates env (prev :: pprev)).length ∧
      (∀ (r : Nat) (hr : r < sel.length),
        SelectBlockFromCandidates env (sortedCandidates env (prev :: pprev))
          ((sel.take r).map (fun b => b.phashBlock)).reverse
          (selectionIntervalStop env prev r) nStakeModifier = some sel[r]) ∧
      (∀ (r : Nat) (hr : r < sel.length), m.testBit r = decide (sel[r].nStakeEntropyBit = 1)) ∧
      (∀ r, sel.length ≤ r → m.testBit r = false) ∧
      m < 2 ^ 64 ∧
      ((sortedCandidates env (prev :: pprev)).length < 64 →
        m < 2 ^ (sortedCandidates env (prev :: pprev)).length) := by
  obtain ⟨sel, nStakeModifier, nModifierTime, hlast, hlen, hround, hm⟩ :=
    recomputation_rounds env prev pprev m hres
  have hsel : ∀ b ∈ sel, b.nStakeEntropyBit ≤ 1 := by
    intro b hb
    obtain ⟨r, hr, hget⟩ := List.getElem_of_mem hb
    have hs := hround r hr
    rw [hget] at hs
    unfold SelectBlockFromCandidates at hs
    rcases selectLoop_indexed env _ _ _ _ _ _ hs with ⟨h, hh⟩ | ⟨it, _, p, hp⟩
    · simp at hh
    · rcases hbits it.2 b p hp with h0 | h1
      · omega
      · omega
  have hlen64 : 0 + sel.length ≤ 64 := by
    rw [hlen]
    simp
  obtain ⟨hlt, _, hbit⟩ := writeEntropyBits_bits sel 0 0 hsel (by norm_num) hlen64
  rw [← hm] at hlt hbit
  rw [Nat.zero_add] at hlt
  refine ⟨sel, nStakeModifier, nModifierTime, hlast, hlen, hround, ?_, ?_, ?_, ?_⟩
  · intro r hr
    have := hbit r hr
    rw [Nat.zero_add] at this
    exact this
  · intro r hr
    exact testBit_false_of_lt_of_le m sel.length r hlt hr
  · exact lt_of_lt_of_le hlt (Nat.pow_le_pow_right (by norm_num) (by rw [hlen]; simp))
  · intro hn
    have : sel.length = (sortedCandidates env (prev :: pprev)).length := by
      rw [hlen]
      exact min_eq_right (le_of_lt hn)
    rw [← this]
    exact hlt

/-- Every block found in the index of a chain is a block of the chain. -/
theorem chainIndex_mem (chain : BlockPtr) (h : Nat) (b : CBlockIndex) (p : BlockPtr)
    (hp : chainIndex chain h = some (b, p)) : b ∈ chain := by
  induction chain with
  | nil => simp [chainIndex] at hp
  | cons c rest ih =>
    rw [chainIndex] at hp
    split at hp
    · simp only [Option.some.injEq, Prod.mk.injEq] at hp
      rw [← hp.1]
      exact List.mem_cons_self _ _
    · exact List.mem_cons_of_mem _ (ih hp)

set_option maxRecDepth 100000 in
theorem C11_modifier_bits_witness :
    ComputeNextStakeModifier (envOf gridParams backdatedChain)
        [mkIndex 2 1 1600 0 false, mkIndex 1 0 1000 0 true] = some (1, true) ∧
      ∃ (sel : List CBlockIndex) (nStakeModifier nModifierTime : Nat),
        GetLastStakeModifier [mkIndex 2 1 1600 0 false, mkIndex 1 0 1000 0 true] =
          some (nStakeModifier, nModifierTime) ∧
        sel.length = min 64 (sortedCandidates (envOf gridParams backdatedChain)
          [mkIndex 2 1 1600 0 false, mkIndex 1 0 1000 0 true]).length ∧
        (∀ (r : Nat) (hr : r < sel.length),
          SelectBlockFromCandidates (envOf gridParams backdatedChain)
            (sortedCandidates (envOf gridParams backdatedChain)
              [mkIndex 2 1 1600 0 false, mkIndex 1 0 1000 0 true])
            ((sel.take r).map (fun b => b.phashBlock)).reverse
            (selectionIntervalStop (envOf gridParams backdatedChain) (mkIndex 2 1 1600 0 false) r)
            nStakeModifier = some sel[r]) ∧
        (∀ (r : Nat) (hr : r < sel.length),
          (1 : Nat).testBit r = decide (sel[r].nStakeEntropyBit = 1)) ∧
        (∀ r, sel.length ≤ r → (1 : Nat).testBit r = false) ∧
        1 < 2 ^ 64 ∧
        ((sortedCandidates (envOf gridParams backdatedChain)
            [mkIndex 2 1 1600 0 false, mkIndex 1 0 1000 0 true]).length < 64 →
          1 < 2 ^ (sortedCandidates (envOf gridParams backdatedChain)
            [mkIndex 2 1 1600 0 false, mkIndex 1 0 1000 0 true]).length) :=
  ⟨by decide,
    C11_modifier_bits (envOf gridParams backdatedChain) (mkIndex 2 1 1600 0 false)
      [mkIndex 1 0 1000 0 true] 1 (by decide)
      (fun h b p hp =>
        (by decide : ∀ b ∈ backdatedChain, b.nStakeEntropyBit = 0 ∨ b.nStakeEntropyBit = 1) b
          (chainIndex_mem backdatedChain h b p hp))⟩

/-- The loop of `SelectBlockFromCandidates` returns a block whenever every
candidate is indexed and a block is held on entry or some candidate is not yet
selected. -/
theorem selectLoop_isSome (env : Env) (selected : List Nat) (stop : Int) (md : Nat) :
    ∀ (vs : List (Int × Nat)) (best : Option (Nat × CBlockIndex)),
      (∀ item ∈ vs, (env.mapBlockIndex item.2).isSome = true) →
      (best.isSome = true ∨ ∃ item ∈ vs, ∃ b p, env.mapBlockIndex item.2 = some (b, p) ∧
        b.phashBlock ∉ selected) →
      (selectLoop env selected stop md vs best).isSome = true := by
  intro vs
  induction vs with
  | nil =>
    intro best _ h
    rcases h with h | ⟨item, hitem, _⟩
    · cases best with
      | none => simp at h
      | some hb => simp [selectLoop]
    · simp at hitem
  | cons item rest ih =>
    intro best hidx h
    have hidx' : ∀ item' ∈ rest, (env.mapBlockIndex item'.2).isSome = true :=
      fun item' hm => hidx item' (List.mem_cons_of_mem _ hm)
    have h0 := hidx item (List.mem_cons_self _ _)
    cases hmap : env.mapBlockIndex item.2 with
    | none => simp [hmap] at h0
    | some bp =>
      obtain ⟨b0, p0⟩ := bp
      rw [selectLoop]
      simp only [hmap]
      split
      · rename_i hbrk
        cases best with
        | none => simp at hbrk
        | some hb => simp
      · split
        · rename_i hsel
          apply ih best hidx'
          rcases h with h | ⟨it, hit, b, p, hb, hnb⟩
          · exact Or.inl h
          · rcases List.mem_cons.mp hit with heq | hin
            · subst heq
              have := indexed_unique env _ b b0 p p0 hb hmap
              subst this
              exact absurd (by simpa using hsel) hnb
            · exact Or.inr ⟨it, hin, b, p, hb, hnb⟩
        · split
          · split
            · exact ih _ hidx' (Or.inl rfl)
            · exact ih _ hidx' (Or.inl rfl)
          · exact ih _ hidx' (Or.inl rfl)

/-- The block returned by the loop of `SelectBlockFromCandidates` is the one
held on entry or a block whose hash is not in `mapSelectedBlocks`. -/
theorem selectLoop_unselected (env : Env) (selected : List Nat) (stop : Int) (md : Nat) :
    ∀ (vs : List (Int × Nat)) (best : Option (Nat × CBlockIndex)) (s : CBlockIndex),
      selectLoop env selected stop md vs best = some s →
        (∃ h, best = some (h, s)) ∨ s.phashBlock ∉ selected := by
  intro vs
  induction vs with
  | nil =>
    intro best s hs
    cases best with
    | none => simp [selectLoop] at hs
    | some hb =>
      simp only [selectLoop, Option.map_some', Option.some.injEq] at hs
      exact Or.inl ⟨hb.1, by rw [← hs]⟩
  | cons item rest ih =>
    intro best s hs
    rw [selectLoop] at hs
    cases hmap : env.mapBlockIndex item.2 with
    | none => simp [hmap] at hs
    | some bp =>
      obtain ⟨b0, p0⟩ := bp
      simp only [hmap] at hs
      split at hs
      · cases best with
        | none => simp at hs
        | some hb =>
          simp only [Option.map_some', Option.some.injEq] at hs
          exact Or.inl ⟨hb.1, by rw [← hs]⟩
      · split at hs
        · exact ih best s hs
        · rename_i hsel
          have hnin0 : b0.phashBlock ∉ selected := by simpa using hsel
          have hnew : ∀ h, selectLoop env selected stop md rest (some (h, b0)) = some s →
              (∃ h, best = some (h, s)) ∨ s.phashBlock ∉ selected := by
            intro h hs'
            rcases ih _ s hs' with ⟨h', hh'⟩ | hn
            · simp only [Option.some.injEq, Prod.mk.injEq] at hh'
              rw [← hh'.2]
              exact Or.inr hnin0
            · exact Or.inr hn
          split at hs
          · split at hs
            · exact hnew _ hs
            · exact ih _ s hs
          · exact hnew _ hs

/-- A list of blocks in which every block has a hash different from the hashes
of the blocks before it has pairwise distinct hashes. -/
theorem nodup_of_fresh (sel : List CBlockIndex)
    (h : ∀ (r : Nat) (hr : r < sel.length),
      sel[r].phashBlock ∉ ((sel.take r).map (fun b => b.phashBlock)).reverse) :
    (sel.map (fun b => b.phashBlock)).Nodup := by
  induction sel using List.reverseRecOn with
  | nil => exact List.nodup_nil
  | append_singleton l a ih =>
    have hl : (l.map (fun b => b.phashBlock)).Nodup := by
      apply ih
      intro r hr
      have hr' : r < (l ++ [a]).length := by simp; omega
      have := h r hr'
      rw [List.getElem_append_left hr] at this
      rw [List.take_append_of_le_length (le_of_lt hr)] at this
      exact this
    have ha := h l.length (by simp)
    simp only [List.getElem_concat_length, List.take_left', List.mem_reverse] at ha
    rw [List.map_append, List.nodup_append]
    refine ⟨hl, List.nodup_singleton _, ?_⟩
    intro x hx hx'
    simp only [List.map_cons, List.map_nil, List.mem_singleton] at hx'
    rw [hx'] at hx
    exact ha hx

/-- C29: in a recomputation (result `generated = true` for a non-null previous
block) the blocks selected in the `min(64, n)` rounds have pairwise distinct
hashes, whatever the candidates are: round `r` returns a block whose hash is not
among the hashes selected in the rounds before it. The selected blocks are
therefore pairwise distinct, `min(64, n)` in number, and each one supplies the
bit of exactly one round. -/
theorem C29_selected_blocks_distinct (env : Env) (prev : CBlockIndex) (pprev : BlockPtr) (m : Nat)
    (hres : ComputeNextStakeModifier env (prev :: pprev) = some (m, true)) :
    ∃ (sel : List CBlockIndex) (nStakeModifier nModifierTime : Nat),
      GetLastStakeModifier (prev :: pprev) = some (nStakeModifier, nModifierTime) ∧
      (∀ (r : Nat) (hr : r < sel.length),
        SelectBlockFromCandidates env (sortedCandidates env (prev :: pprev))
          ((sel.take r).map (fun b => b.phashBlock)).reverse
          (selectionIntervalStop env prev r) nStakeModifier = some sel[r]) ∧
      m = writeEntropyBits 0 0 sel ∧
      (sel.map (fun b => b.phashBlock)).Nodup ∧
      sel.Nodup ∧
      (sel.map (fun b => b.phashBlock)).toFinset.card =
        min 64 (sortedCandidates env (prev :: pprev)).length ∧
      sel.length = min 64 (sortedCandidates env (prev :: pprev)).length := by
  obtain ⟨sel, nStakeModifier, nModifierTime, hlast, hlen, hround, hm⟩ :=
    recomputation_rounds env prev pprev m hres
  have hnodup : (sel.map (fun b => b.phashBlock)).Nodup := by
    apply nodup_of_fresh
    intro r hr
    have hs := hround r hr
    unfold SelectBlockFromCandidates at hs
    rcases selectLoop_unselected env _ _ _ _ _ _ hs with ⟨h, hh⟩ | hn
    · simp at hh
    · exact hn
  refine ⟨sel, nStakeModifier, nModifierTime, hlast, hround, hm, hnodup,
    List.Nodup.of_map _ hnodup, ?_, hlen⟩
  rw [List.toFinset_card_of_nodup hnodup, List.length_map, hlen]

set_option maxRecDepth 100000 in
theorem C29_selected_blocks_distinct_witness :
    ∃ (sel : List CBlockIndex) (nStakeModifier nModifierTime : Nat),
      GetLastStakeModifier contestChain = some (nStakeModifier, nModifierTime) ∧
      (∀ (r : Nat) (hr : r < sel.length),
        SelectBlockFromCandidates (envOf gridParams contestChain)
          (sortedCandidates (envOf gridParams contestChain) contestChain)
          ((sel.take r).map (fun b => b.phashBlock)).reverse
          (selectionIntervalStop (envOf gridParams contestChain) (mkIndex 3 2 21400 0 false) r)
          nStakeModifier = some sel[r]) ∧
      5 = writeEntropyBits 0 0 sel ∧
      (sel.map (fun b => b.phashBlock)).Nodup ∧
      sel.Nodup ∧
      (sel.map (fun b => b.phashBlock)).toFinset.card =
        min 64 (sortedCandidates (envOf gridParams contestChain) contestChain).length ∧
      sel.length = min 64 (sortedCandidates (envOf gridParams contestChain) contestChain).length :=
  C29_selected_blocks_distinct (envOf gridParams contestChain) (mkIndex 3 2 21400 0 false)
    [mkIndex 2 1 20 0 false, mkIndex 1 0 10 0 true] 5 (by decide)

/-- With pairwise distinct candidate hashes and fewer selected hashes than
candidates, some candidate is not yet selected. -/
theorem exists_unselected (vs : List (Int × Nat)) (selected : List Nat)
    (hnodup : (vs.map Prod.snd).Nodup) (hlen : selected.length < vs.length) :
    ∃ item ∈ vs, item.2 ∉ selected := by
  by_contra hall
  push_neg at hall
  have hsub : vs.map Prod.snd ⊆ selected := by
    intro h hh
    obtain ⟨item, hitem, rfl⟩ := List.mem_map.mp hh
    exact hall item hitem
  have := (List.subperm_of_subset hnodup hsub).length_le
  rw [List.length_map] at this
  omega

/-- A round of selection succeeds when every candidate is indexed under its own
hash and some candidate is not yet selected, whatever the stop time and the
previous modifier. -/
theorem SelectBlockFromCandidates_succeeds (env : Env) (vs : List (Int × Nat))
    (selected : List Nat) (stop : Int) (md : Nat)
    (hidx : ∀ item ∈ vs, (env.mapBlockIndex item.2).map (fun e => e.1.phashBlock) = some item.2)
    (hfree : ∃ item ∈ vs, item.2 ∉ selected) :
    ∃ s, SelectBlockFromCandidates env vs selected stop md = some s := by
  have hsome : (SelectBlockFromCandidates env vs selected stop md).isSome = true := by
    unfold SelectBlockFromCandidates
    apply selectLoop_isSome
    · intro item hitem
      have := hidx item hitem
      cases hmap : env.mapBlockIndex item.2 with
      | none => simp [hmap] at this
      | some e => rfl
    · obtain ⟨item, hitem, hnot⟩ := hfree
      have := hidx item hitem
      cases hmap : env.mapBlockIndex item.2 with
      | none => simp [hmap] at this
      | some e =>
        rw [hmap] at this
        simp only [Option.map_some', Option.some.injEq] at this
        exact Or.inr ⟨item, hitem, e.1, e.2, hmap, by rw [this]; exact hnot⟩
  exact Option.isSome_iff_exists.mp hsome

/-- The rounds of a recomputation all succeed when every candidate is indexed
under its own hash, the candidate hashes are pairwise distinct, and the rounds
still to run do not outnumber the candidates not yet selected. -/
theorem selectionTrace_succeeds (env : Env) (vs : List (Int × Nat)) (md : Nat)
    (hidx : ∀ item ∈ vs, (env.mapBlockIndex item.2).map (fun e => e.1.phashBlock) = some item.2)
    (hnodup : (vs.map Prod.snd).Nodup) :
    ∀ (nRounds nRound : Nat) (stop : Int) (selected : List Nat),
      selected.length + nRounds ≤ vs.length →
      ∃ tr, selectionTrace env vs md nRounds nRound stop selected = some tr := by
  intro nRounds
  induction nRounds with
  | zero =>
    intro nRound stop selected _
    exact ⟨[], rfl⟩
  | succ n ih =>
    intro nRound stop selected hlen
    obtain ⟨s, hs⟩ := SelectBlockFromCandidates_succeeds env vs selected
      (stop + GetStakeModifierSelectionIntervalSection env.params nRound) md hidx
      (exists_unselected vs selected hnodup (by omega))
    obtain ⟨tr, htr⟩ := ih (nRound + 1)
      (stop + GetStakeModifierSelectionIntervalSection env.params nRound)
      (s.phashBlock :: selected) (by simp only [List.length_cons]; omega)
    refine ⟨s :: tr, ?_⟩
    simp only [selectionTrace, hs, htr, Option.map_some']

/-- For a non-null block `GetLastStakeModifier` returns a result. -/
theorem GetLastStakeModifier_defined (prev : CBlockIndex) (pprev : BlockPtr) :
    ∃ r, GetLastStakeModifier (prev :: pprev) = some r := by
  induction pprev generalizing prev with
  | nil =>
    unfold GetLastStakeModifier
    simp only [List.isEmpty_nil, Bool.not_true, Bool.false_and, Bool.false_eq_true, if_false]
    split
    · exact ⟨_, rfl⟩
    · exact ⟨_, rfl⟩
  | cons p rest ih =>
    rw [GetLastStakeModifier]
    split
    · exact ih p
    · split
      · exact ⟨_, rfl⟩
      · exact ⟨_, rfl⟩

/-- C26: when every candidate of `ComputeNextStakeModifier` for a non-null
previous block is indexed under its own hash and the candidate hashes are
pairwise distinct, a round of `SelectBlockFromCandidates` succeeds whenever a
candidate is not yet selected, whatever the stop time and the previous
modifier; `ComputeNextStakeModifier` returns success; and when it recomputes
(the epoch of the previous block is past the epoch of the last modifier) the
rounds select `min(64, n)` blocks, 64 when there are at least 64 candidates,
and the result is the modifier written from them with `generated = true`. -/
theorem C26_rounds_succeed (env : Env) (prev : CBlockIndex) (pprev : BlockPtr)
    (hidx : ∀ item ∈ sortedCandidates env (prev :: pprev),
      (env.mapBlockIndex item.2).map (fun e => e.1.phashBlock) = some item.2)
    (hnodup : ((sortedCandidates env (prev :: pprev)).map Prod.snd).Nodup) :
    (∀ (selected : List Nat) (stop : Int) (md : Nat),
      (∃ item ∈ sortedCandidates env (prev :: pprev), item.2 ∉ selected) →
      ∃ s, SelectBlockFromCandidates env (sortedCandidates env (prev :: pprev)) selected stop md =
        some s) ∧
    (∃ r, ComputeNextStakeModifier env (prev :: pprev) = some r) ∧
    (∀ nStakeModifier nModifierTime,
      GetLastStakeModifier (prev :: pprev) = some (nStakeModifier, nModifierTime) →
      nModifierTime / env.params.nModifierInterval < prev.nTime / env.params.nModifierInterval →
      ∃ sel : List CBlockIndex,
        selectionTrace env (sortedCandidates env (prev :: pprev)) nStakeModifier
          (min 64 (sortedCandidates env (prev :: pprev)).length) 0
          (selectionIntervalStart env prev) [] = some sel ∧
        sel.length = min 64 (sortedCandidates env (prev :: pprev)).length ∧
        (64 ≤ (sortedCandidates env (prev :: pprev)).length → sel.length = 64) ∧
        ComputeNextStakeModifier env (prev :: pprev) = some (writeEntropyBits 0 0 sel, true)) := by
  have hrec : ∀ nStakeModifier nModifierTime,
      GetLastStakeModifier (prev :: pprev) = some (nStakeModifier, nModifierTime) →
      nModifierTime / env.params.nModifierInterval < prev.nTime / env.params.nModifierInterval →
      ∃ sel : List CBlockIndex,
        selectionTrace env (sortedCandidates env (prev :: pprev)) nStakeModifier
          (min 64 (sortedCandidates env (prev :: pprev)).length) 0
          (selectionIntervalStart env prev) [] = some sel ∧
        sel.length = min 64 (sortedCandidates env (prev :: pprev)).length ∧
        (64 ≤ (sortedCandidates env (prev :: pprev)).length → sel.length = 64) ∧
        ComputeNextStakeModifier env (prev :: pprev) = some (writeEntropyBits 0 0 sel, true) := by
    intro nStakeModifier nModifierTime hlast hepoch
    obtain ⟨sel, hsel⟩ := selectionTrace_succeeds env _ nStakeModifier hidx hnodup
      (min 64 (sortedCandidates env (prev :: pprev)).length) 0 (selectionIntervalStart env prev) []
      (by simp)
    have hlen := (selectionTrace_spec env _ _ _ _ _ _ sel hsel).1
    refine ⟨sel, hsel, hlen, ?_, ?_⟩
    · intro h64
      rw [hlen]
      exact min_eq_left h64
    · rw [ComputeNextStakeModifier_unfold env prev pprev nStakeModifier nModifierTime hlast hepoch,
        selectionRounds_eq_trace, hsel]
      rfl
  refine ⟨?_, ?_, hrec⟩
  · intro selected stop md hfree
    exact SelectBlockFromCandidates_succeeds env _ selected stop md hidx hfree
  · obtain ⟨⟨nStakeModifier, nModifierTime⟩, hlast⟩ := GetLastStakeModifier_defined prev pprev
    by_cases hepoch : nModifierTime / env.params.nModifierInterval <
        prev.nTime / env.params.nModifierInterval
    · obtain ⟨sel, _, _, _, hres⟩ := hrec nStakeModifier nModifierTime hlast hepoch
      exact ⟨_, hres⟩
    · have hge : nModifierTime / env.params.nModifierInterval ≥
          prev.nTime / env.params.nModifierInterval := Nat.le_of_not_lt hepoch
      exact ⟨(nStakeModifier, false), by simp [ComputeNextStakeModifier, hlast, hge]⟩

set_option maxRecDepth 100000 in
theorem C26_rounds_succeed_witness :
    ∃ sel : List CBlockIndex,
      selectionTrace (envOf gridParams contestChain)
        (sortedCandidates (envOf gridParams contestChain) contestChain) 0
        (min 64 (sortedCandidates (envOf gridParams contestChain) contestChain).length) 0
        (selectionIntervalStart (envOf gridParams contestChain) (mkIndex 3 2 21400 0 false)) [] =
        some sel ∧
      sel.length = min 64 (sortedCandidates (envOf gridParams contestChain) contestChain).length ∧
      (64 ≤ (sortedCandidates (envOf gridParams contestChain) contestChain).length →
        sel.length = 64) ∧
      ComputeNextStakeModifier (envOf gridParams contestChain) contestChain =
        some (writeEntropyBits 0 0 sel, true) :=
  (C26_rounds_succeed (envOf gridParams contestChain) (mkIndex 3 2 21400 0 false)
    [mkIndex 2 1 20 0 false, mkIndex 1 0 10 0 true] (by decide) (by decide)).2.2 0 10
    (by decide) (by decide)

/-- The loop of `SelectBlockFromCandidates` fails when a candidate with time at
most the stop is missing from the index, the candidates being in ascending time
and the indexed ones carrying the candidate times. -/
theorem selectLoop_missing (env : Env) (selected : List Nat) (stop : Int) (md : Nat)
    (missing : Int × Nat) (hnone : env.mapBlockIndex missing.2 = none) (hstop : missing.1 ≤ stop) :
    ∀ (vs : List (Int × Nat)) (best : Option (Nat × CBlockIndex)),
      missing ∈ vs →
      (∀ item ∈ vs, ∀ e ∈ env.mapBlockIndex item.2, (e.1.nTime : Int) = item.1) →
      vs.Pairwise (fun a b => a.1 ≤ b.1) →
      selectLoop env selected stop md vs best = none := by
  intro vs
  induction vs with
  | nil =>
    intro best hmem
    simp at hmem
  | cons item rest ih =>
    intro best hmem htime hsorted
    rw [selectLoop]
    cases hmap : env.mapBlockIndex item.2 with
    | none => rfl
    | some bp =>
      obtain ⟨b0, p0⟩ := bp
      have hin : missing ∈ rest := by
        rcases List.mem_cons.mp hmem with heq | hin
        · rw [heq, hmap] at hnone
          simp at hnone
        · exact hin
      have ht0 : (b0.nTime : Int) = item.1 :=
        htime item (List.mem_cons_self _ _) (b0, p0) (by simp [hmap])
      have hle : item.1 ≤ missing.1 := (List.pairwise_cons.mp hsorted).1 missing hin
      have hnolate : ¬ (b0.nTime : Int) > stop := by omega
      have hrest : ∀ best', selectLoop env selected stop md rest best' = none := fun best' =>
        ih best' hin (fun it hit => htime it (List.mem_cons_of_mem _ hit))
          (List.pairwise_cons.mp hsorted).2
      simp only [hnolate, decide_False, Bool.and_false, Bool.false_eq_true, if_false]
      split
      · exact hrest _
      · split
        · split
          · exact hrest _
          · exact hrest _
        · exact hrest _

/-! ## Candidates missing from the index -/

set_option maxRecDepth 1000000 in
/-- C21 (as stated, refuted): over 66 candidates one second apart, all later than
the stop time of every round, with the latest candidate (hash 67) missing from
the block index, `ComputeNextStakeModifier` recomputes and succeeds: each of the
64 rounds takes the first candidate not yet selected and stops at the next one,
so the missing entry is never looked up. -/
theorem C21_counterexample :
    (67 ∈ (sortedCandidates crowdedEnv crowdedChain).map Prod.snd ∧
      crowdedEnv.mapBlockIndex 67 = none) ∧
      GetLastStakeModifier crowdedChain = some (0, 1000) ∧
      ComputeNextStakeModifier crowdedEnv crowdedChain = some (12297829382473034410, true) := by
  decide

/-- C21 (amended): in a recomputation (the epoch of the previous block is past
the epoch of the last modifier) whose indexed candidates are indexed under
their own hash with their own time, a candidate missing from the block index
makes `ComputeNextStakeModifier` fail when there are at most 64 candidates, and
also when the time of the missing candidate is at most the stop time of one of
the `min(64, n)` rounds. -/
theorem C21_missing_candidate_fails (env : Env) (prev : CBlockIndex) (pprev : BlockPtr)
    (nStakeModifier nModifierTime : Nat) (missing : Int × Nat)
    (hlast : GetLastStakeModifier (prev :: pprev) = some (nStakeModifier, nModifierTime))
    (hepoch : nModifierTime / env.params.nModifierInterval <
      prev.nTime / env.params.nModifierInterval)
    (hmem : missing ∈ sortedCandidates env (prev :: pprev))
    (hnone : env.mapBlockIndex missing.2 = none)
    (hidx : ∀ item ∈ sortedCandidates env (prev :: pprev), ∀ e ∈ env.mapBlockIndex item.2,
      e.1.phashBlock = item.2 ∧ (e.1.nTime : Int) = item.1) :
    ((sortedCandidates env (prev :: pprev)).length ≤ 64 →
      ComputeNextStakeModifier env (prev :: pprev) = none) ∧
    (∀ r, r < min 64 (sortedCandidates env (prev :: pprev)).length →
      missing.1 ≤ selectionIntervalStop env prev r →
      ComputeNextStakeModifier env (prev :: pprev) = none) := by
  have hcases : ∀ res, ComputeNextStakeModifier env (prev :: pprev) = some res →
      ∃ m, ComputeNextStakeModifier env (prev :: pprev) = some (m, true) := by
    intro res hres
    have := ComputeNextStakeModifier_recompute env prev pprev nStakeModifier nModifierTime hlast
      hepoch res hres
    exact ⟨res.1, by rw [hres, ← this]⟩
  constructor
  · intro hfew
    by_contra hne
    obtain ⟨res, hres⟩ := Option.ne_none_iff_exists'.mp hne
    obtain ⟨m, hm⟩ := hcases res hres
    obtain ⟨sel, md, t, _, hlen, hround, _⟩ := recomputation_rounds env prev pprev m hm
    have hnodup : (sel.map (fun b => b.phashBlock)).Nodup := by
      apply nodup_of_fresh
      intro r hr
      have hs := hround r hr
      unfold SelectBlockFromCandidates at hs
      rcases selectLoop_unselected env _ _ _ _ _ _ hs with ⟨h, hh⟩ | hn
      · simp at hh
      · exact hn
    have hsub : sel.map (fun b => b.phashBlock) ⊆
        ((sortedCandidates env (prev :: pprev)).map Prod.snd).erase missing.2 := by
      intro h hh
      obtain ⟨b, hb, rfl⟩ := List.mem_map.mp hh
      obtain ⟨r, hr, hget⟩ := List.getElem_of_mem hb
      have hs := hround r hr
      rw [hget] at hs
      unfold SelectBlockFromCandidates at hs
      rcases selectLoop_indexed env _ _ _ _ _ _ hs with ⟨h, hh⟩ | ⟨it, hit, p, hp⟩
      · simp at hh
      · have hown := (hidx it hit (b, p) (by simp [hp])).1
        have hne2 : it.2 ≠ missing.2 := by
          intro heq
          rw [heq, hnone] at hp
          simp at hp
        simp only at hown
        rw [hown]
        exact (List.mem_erase_of_ne hne2).mpr (List.mem_map.mpr ⟨it, hit, rfl⟩)
    have hle := (List.subperm_of_subset hnodup hsub).length_le
    have hmem2 : missing.2 ∈ (sortedCandidates env (prev :: pprev)).map Prod.snd :=
      List.mem_map.mpr ⟨missing, hmem, rfl⟩
    rw [List.length_erase_of_mem hmem2, List.length_map, List.length_map, hlen,
      min_eq_right hfew] at hle
    have hpos : 0 < (sortedCandidates env (prev :: pprev)).length := List.length_pos_of_mem hmem
    omega
  · intro r hr hstop
    by_contra hne
    obtain ⟨res, hres⟩ := Option.ne_none_iff_exists'.mp hne
    obtain ⟨m, hm⟩ := hcases res hres
    obtain ⟨sel, md, t, _, hlen, hround, _⟩ := recomputation_rounds env prev pprev m hm
    have hs := hround r (by rw [hlen]; exact hr)
    unfold SelectBlockFromCandidates at hs
    rw [selectLoop_missing env _ _ md missing hnone hstop _ none hmem
      (fun it hit e he => (hidx it hit e he).2)
      (sorted_times _ (sortedCandidates_sorted env (prev :: pprev)))] at hs
    simp at hs

theorem C21_missing_candidate_fails_witness :
    ComputeNextStakeModifier
      (envOf gridParams [mkIndex 3 2 21400 0 false, mkIndex 1 0 10 0 true]) contestChain = none :=
  (C21_missing_candidate_fails
    (envOf gridParams [mkIndex 3 2 21400 0 false, mkIndex 1 0 10 0 true])
    (mkIndex 3 2 21400 0 false) [mkIndex 2 1 20 0 false, mkIndex 1 0 10 0 true] 0 10 (20, 2)
    (by decide) (by decide) (by decide) (by decide) (by decide)).1 (by decide)

/-! ## The candidate list -/

/-- The loop of `GetKernelStakeModifier` under two environments and under two
print flags: the results are equal, or both are one of
the two failure reports at the end of the chain. -/
theorem kernelModifierWalk_indep (env env' : Env) (f f' : Bool) (nLimit : Int) :
    ∀ (rest : BlockPtr) (pindex : CBlockIndex) (h : Int) (t : Nat),
      kernelModifierWalk env' f' nLimit pindex rest h t =
          kernelModifierWalk env f nLimit pindex rest h t ∨
        ((kernelModifierWalk env' f' nLimit pindex rest h t = .reachedBest ∨
            kernelModifierWalk env' f' nLimit pindex rest h t = .behind) ∧
          (kernelModifierWalk env f nLimit pindex rest h t = .reachedBest ∨
            kernelModifierWalk env f nLimit pindex rest h t = .behind)) := by
  intro rest
  induction rest with
  | nil =>
    intro pindex h t
    by_cases hlt : (t : Int) < nLimit
    · refine Or.inr ⟨?_, ?_⟩
      · rw [kernelModifierWalk, if_pos hlt]
        split
        · exact Or.inl rfl
        · exact Or.inr rfl
      · rw [kernelModifierWalk, if_pos hlt]
        split
        · exact Or.inl rfl
        · exact Or.inr rfl
    · refine Or.inl ?_
      rw [kernelModifierWalk, kernelModifierWalk, if_neg hlt, if_neg hlt]
  | cons p rest ih =>
    intro pindex h t
    by_cases hlt : (t : Int) < nLimit
    · rw [kernelModifierWalk, kernelModifierWalk, if_pos hlt, if_pos hlt]
      by_cases hg : p.fGeneratedStakeModifier = true
      · rw [if_pos hg, if_pos hg]
        exact ih p p.nHeight p.nTime
      · rw [if_neg hg, if_neg hg]
        exact ih p h t
    · refine Or.inl ?_
      rw [kernelModifierWalk, kernelModifierWalk, if_neg hlt, if_neg hlt]

/-- The lookup `GetKernelStakeModifier` under two environments with the same
parameters and block index and under two print flags: the results are equal, or
both are failures. -/
theorem GetKernelStakeModifier_indep (env env' : Env) (hp : env'.params = env.params)
    (hm : env'.mapBlockIndex = env.mapBlockIndex) (f f' : Bool) (hashBlockFrom : Nat) :
    GetKernelStakeModifier env' hashBlockFrom f' = GetKernelStakeModifier env hashBlockFrom f ∨
      ((GetKernelStakeModifier env' hashBlockFrom f' = .reachedBest ∨
          GetKernelStakeModifier env' hashBlockFrom f' = .behind) ∧
        (GetKernelStakeModifier env hashBlockFrom f = .reachedBest ∨
          GetKernelStakeModifier env hashBlockFrom f = .behind)) := by
  unfold GetKernelStakeModifier
  rw [hm, hp]
  cases env.mapBlockIndex hashBlockFrom with
  | none => exact Or.inl rfl
  | some e => exact kernelModifierWalk_indep env env' f f' _ e.2 e.1 _ _

/-- The v1 kernel check under two environments that differ at most in the
clock and the debug flag, and under two print flags, gives the same result. -/
theorem CheckStakeKernelHashV1_indep (env env' : Env) (hp : env'.params = env.params)
    (hm : env'.mapBlockIndex = env.mapBlockIndex) (hh : env'.Hash = env.Hash)
    (hc : env'.coinAgeCurve = env.coinAgeCurve) (f f' : Bool)
    (nBits : Nat) (blockFrom : CBlockIndex) (nTxPrevOffset : Nat) (txPrev : CTransaction)
    (prevout : COutPoint) (nTimeTx : Nat) :
    CheckStakeKernelHashV1 env' nBits blockFrom nTxPrevOffset txPrev prevout nTimeTx f' =
      CheckStakeKernelHashV1 env nBits blockFrom nTxPrevOffset txPrev prevout nTimeTx f := by
  have hw : ∀ a b, GetCoinAgeWeight env' a b = GetCoinAgeWeight env a b := by
    intro a b
    simp only [GetCoinAgeWeight, hp, hc]
  unfold CheckStakeKernelHashV1
  simp only [hp, hh, hw]
  rcases GetKernelStakeModifier_indep env env' hp hm f f' blockFrom.phashBlock with
    heq | ⟨h1 | h1, h2 | h2⟩
  · rw [heq]
  · rw [h1, h2]
  · rw [h1, h2]
  · rw [h1, h2]
  · rw [h1, h2]

/-- C23: the results of the kernel lookup, of the kernel check and of the stake
validator do not depend on the adjusted time. With the clock set to any value
`t`, `GetKernelStakeModifier` returns the same result or, in both cases, one of
its two failure reports at the end of the chain, so its boolean is the same;
`CheckStakeKernelHash` and `CheckProofOfStake` return the same result. -/
theorem C23_clock_is_advisory (env : Env) (t : Int) :
    (∀ (hashBlockFrom : Nat) (f : Bool),
      (GetKernelStakeModifier { env with adjustedTime := t } hashBlockFrom f).ok =
          (GetKernelStakeModifier env hashBlockFrom f).ok ∧
        (GetKernelStakeModifier { env with adjustedTime := t } hashBlockFrom f =
            GetKernelStakeModifier env hashBlockFrom f ∨
          ((GetKernelStakeModifier { env with adjustedTime := t } hashBlockFrom f = .reachedBest ∨
              GetKernelStakeModifier { env with adjustedTime := t } hashBlockFrom f = .behind) ∧
            (GetKernelStakeModifier env hashBlockFrom f = .reachedBest ∨
              GetKernelStakeModifier env hashBlockFrom f = .behind)))) ∧
    (∀ (pindexPrev : CBlockIndex) (nBits : Nat) (blockFrom : CBlockIndex) (nTxPrevOffset : Nat)
        (txPrev : CTransaction) (prevout : COutPoint) (nTimeTx : Nat) (f : Bool),
      CheckStakeKernelHash { env with adjustedTime := t } pindexPrev nBits blockFrom nTxPrevOffset
          txPrev prevout nTimeTx f =
        CheckStakeKernelHash env pindexPrev nBits blockFrom nTxPrevOffset txPrev prevout nTimeTx
          f) ∧
    (∀ (pindexPrev : CBlockIndex) (tx : CTransaction) (nBits : Nat) (state : CValidationState),
      CheckProofOfStake { env with adjustedTime := t } pindexPrev tx nBits state =
        CheckProofOfStake env pindexPrev tx nBits state) := by
  have hk : ∀ (pindexPrev : CBlockIndex) (nBits : Nat) (blockFrom : CBlockIndex)
      (nTxPrevOffset : Nat) (txPrev : CTransaction) (prevout : COutPoint) (nTimeTx : Nat)
      (f : Bool),
      CheckStakeKernelHash { env with adjustedTime := t } pindexPrev nBits blockFrom nTxPrevOffset
          txPrev prevout nTimeTx f =
        CheckStakeKernelHash env pindexPrev nBits blockFrom nTxPrevOffset txPrev prevout nTimeTx
          f := by
    intro pindexPrev nBits blockFrom nTxPrevOffset txPrev prevout nTimeTx f
    unfold CheckStakeKernelHash
    rw [CheckStakeKernelHashV1_indep env { env with adjustedTime := t } rfl rfl rfl rfl f f]
    rfl
  refine ⟨?_, hk, ?_⟩
  · intro hashBlockFrom f
    have h := GetKernelStakeModifier_indep env { env with adjustedTime := t } rfl rfl f f
      hashBlockFrom
    refine ⟨?_, h⟩
    rcases h with heq | ⟨h1 | h1, h2 | h2⟩
    · rw [heq]
    · simp only [h1, h2, ModifierLookup.ok]
    · simp only [h1, h2, ModifierLookup.ok]
    · simp only [h1, h2, ModifierLookup.ok]
    · simp only [h1, h2, ModifierLookup.ok]
  · intro pindexPrev tx nBits state
    unfold CheckProofOfStake
    simp only [hk]
    rfl

/-! ## The staking-side kernel check -/

/-- The print flag does not change the result of `CheckStakeKernelHash`. -/
theorem CheckStakeKernelHash_flag (env : Env) (pindexPrev : CBlockIndex) (nBits : Nat)
    (blockFrom : CBlockIndex) (nTxPrevOffset : Nat) (txPrev : CTransaction) (prevout : COutPoint)
    (nTimeTx : Nat) (f f' : Bool) :
    CheckStakeKernelHash env pindexPrev nBits blockFrom nTxPrevOffset txPrev prevout nTimeTx f' =
      CheckStakeKernelHash env pindexPrev nBits blockFrom nTxPrevOffset txPrev prevout nTimeTx f := by
  unfold CheckStakeKernelHash
  rw [CheckStakeKernelHashV1_indep env env rfl rfl rfl rfl f f']

/-- C27: when `CheckProofOfStake` accepts a coinstake, `CheckKernel` on the
same previous block, target, coinstake time and the prevout of input 0, with the
output index read from that prevout, returns true, whatever print flag it hands
to `CheckStakeKernelHash`. -/
theorem C27_CheckKernel_necessary (env : Env) (pindexPrev : CBlockIndex) (tx : CTransaction)
    (nBits : Nat) (state state' : CValidationState) (txin : CTxIn) (f : Bool)
    (hin : tx.vin[0]? = some txin)
    (hacc : CheckProofOfStake env pindexPrev tx nBits state = some (true, state')) :
    CheckKernel env pindexPrev nBits tx.nTime txin.prevout f = some true := by
  unfold CheckProofOfStake at hacc
  unfold CheckKernel
  simp only [hin] at hacc
  split at hacc
  · simp at hacc
  · cases hget : env.GetTransaction txin.prevout.hash with
    | none => simp [hget, CValidationState.DoS] at hacc
    | some e =>
      obtain ⟨txPrev, hashBlock⟩ := e
      simp only [hget] at hacc ⊢
      cases hmap : env.mapBlockIndex hashBlock with
      | none =>
        simp only [hmap] at hacc
        split at hacc <;> simp [CValidationState.DoS] at hacc
      | some e =>
        obtain ⟨pblockindex, pp⟩ := e
        simp only [hmap] at hacc ⊢
        split at hacc
        · simp [CValidationState.DoS] at hacc
        · split at hacc
          · simp at hacc
          · simp [CValidationState.DoS] at hacc
          · split at hacc
            · simp [CValidationState.DoS] at hacc
            · rename_i hmature
              rw [if_neg hmature, CheckStakeKernelHash_flag env _ _ _ _ _ _ _ env.fDebug f]
              split at hacc
              · simp at hacc
              · simp [CValidationState.DoS] at hacc
              · assumption

/-! ## Proof-of-stake and proof-of-work candidates -/

set_option maxRecDepth 1000000 in
/-- C22 (the code at the failing input): in round 0 of the recomputation over
`mixedChain`, with the previous modifier 0 and the stop time 65, the eligible
candidates are the genesis block, a proof-of-stake block (proof hash 5) and a
proof-of-work block (proof hash 10). The selection hash of the proof-of-stake
block, shifted right by 32 bits, is below `2 ^ 224` and numerically the
smallest of the three, yet `SelectBlockFromCandidates` returns the
proof-of-work block: its hash is less in the order `operator<` of `uint256`,
which compares the bytes from byte 0, where the shift has no effect. Nor
would a numeric comparison always favour the proof-of-stake block: the
selection hash of a proof-of-work block with proof hash 7361658540 is below
`2 ^ 224` and numerically smaller than the shifted hash of the proof-of-stake
block. -/
theorem C22_work_block_selected :
    GetLastStakeModifier mixedChain = some (0, 5) ∧
      sortedCandidates (envOf gridParams mixedChain) mixedChain =
        [(5, 1), (10, 5), (20, 10), (21400, 3)] ∧
      selectionIntervalStop (envOf gridParams mixedChain) (mkIndex 3 3 21400 0 false) 0 = 65 ∧
      (envOf gridParams mixedChain).mapBlockIndex 5 =
        some ({ mkIndex 5 1 10 0 false with fProofOfStake := true }, [mkIndex 1 0 5 0 true]) ∧
      SelectBlockFromCandidates (envOf gridParams mixedChain)
          [(5, 1), (10, 5), (20, 10), (21400, 3)] [] 65 0 =
        some (mkIndex 10 2 20 0 false) ∧
      (mkIndex 10 2 20 0 false).fProofOfStake = false ∧
      selectionHash (envOf gridParams mixedChain)
          { mkIndex 5 1 10 0 false with fProofOfStake := true } 0 < 2 ^ 224 ∧
      2 ^ 224 ≤ selectionHash (envOf gridParams mixedChain) (mkIndex 10 2 20 0 false) 0 ∧
      2 ^ 224 ≤ selectionHash (envOf gridParams mixedChain) (mkIndex 1 0 5 0 true) 0 ∧
      uint256Lt (selectionHash (envOf gridParams mixedChain) (mkIndex 10 2 20 0 false) 0)
        (selectionHash (envOf gridParams mixedChain)
          { mkIndex 5 1 10 0 false with fProofOfStake := true } 0) = true ∧
      selectionHash (envOf gridParams mixedChain)
          { mkIndex 6 2 20 0 false with hashProof := 7361658540 } 0 <
        selectionHash (envOf gridParams mixedChain)
          { mkIndex 5 1 10 0 false with fProofOfStake := true } 0 ∧
      ComputeNextStakeModifier (envOf gridParams mixedChain) mixedChain = some (14, true) := by
  decide

/-! ## Kernel lookups that cannot succeed -/

/-- The loop of `GetKernelStakeModifier` ends in one of its two failure reports
when the current modifier time and the time of every generating block still
ahead of the walk are below the limit. -/
theorem kernelModifierWalk_fails (env : Env) (f : Bool) (nLimit : Int) :
    ∀ (rest : BlockPtr) (pindex : CBlockIndex) (h : Int) (t : Nat),
      (t : Int) < nLimit →
      (∀ b ∈ rest, b.fGeneratedStakeModifier = true → (b.nTime : Int) < nLimit) →
      kernelModifierWalk env f nLimit pindex rest h t = .reachedBest ∨
        kernelModifierWalk env f nLimit pindex rest h t = .behind := by
  intro rest
  induction rest with
  | nil =>
    intro pindex h t hlt _
    rw [kernelModifierWalk, if_pos hlt]
    split
    · exact Or.inl rfl
    · exact Or.inr rfl
  | cons p rest ih =>
    intro pindex h t hlt hanc
    have hanc' : ∀ b ∈ rest, b.fGeneratedStakeModifier = true → (b.nTime : Int) < nLimit :=
      fun b hb => hanc b (List.mem_cons_of_mem _ hb)
    rw [kernelModifierWalk, if_pos hlt]
    by_cases hg : p.fGeneratedStakeModifier = true
    · rw [if_pos hg]
      exact ih p p.nHeight p.nTime (hanc p (List.mem_cons_self _ _) hg) hanc'
    · rw [if_neg hg]
      exact ih p h t hlt hanc'

/-- C28: when the selection interval is positive and every strict ancestor of
the indexed block `from` that generated a modifier has a time below
`from.time + selection interval` (as is the case when no ancestor is later than
`from`), `GetKernelStakeModifier(from)` fails with one of its two reports at
the end of the chain, and `CheckStakeKernelHashV1` never accepts a kernel whose
`blockFrom` has the hash of `from`: it returns false whenever the previous
transaction has the output `prevout.n`. -/
theorem C28_lookup_fails (env : Env) (hashBlockFrom : Nat) (pindexFrom : CBlockIndex)
    (pprev : BlockPtr) (f : Bool)
    (hmap : env.mapBlockIndex hashBlockFrom = some (pindexFrom, pprev))
    (hpos : 0 < GetStakeModifierSelectionInterval env.params)
    (hanc : ∀ b ∈ pprev, b.fGeneratedStakeModifier = true →
      b.nTime < pindexFrom.nTime + GetStakeModifierSelectionInterval env.params) :
    (GetKernelStakeModifier env hashBlockFrom f).ok = false ∧
    (GetKernelStakeModifier env hashBlockFrom f = .reachedBest ∨
      GetKernelStakeModifier env hashBlockFrom f = .behind) ∧
    (∀ (nBits : Nat) (blockFrom : CBlockIndex) (nTxPrevOffset : Nat) (txPrev : CTransaction)
        (prevout : COutPoint) (nTimeTx : Nat),
      blockFrom.phashBlock = hashBlockFrom →
      CheckStakeKernelHashV1 env nBits blockFrom nTxPrevOffset txPrev prevout nTimeTx f ≠
          some true ∧
        (prevout.n < txPrev.vout.length →
          CheckStakeKernelHashV1 env nBits blockFrom nTxPrevOffset txPrev prevout nTimeTx f =
            some false)) := by
  have hfail : GetKernelStakeModifier env hashBlockFrom f = .reachedBest ∨
      GetKernelStakeModifier env hashBlockFrom f = .behind := by
    unfold GetKernelStakeModifier
    simp only [hmap]
    apply kernelModifierWalk_fails
    · omega
    · intro b hb hg
      have := hanc b hb hg
      omega
  refine ⟨?_, hfail, ?_⟩
  · rcases hfail with h | h <;> rw [h] <;> rfl
  · intro nBits blockFrom nTxPrevOffset txPrev prevout nTimeTx hfrom
    have hV : ∀ o : Option CTxOut, (match o with
        | none => (none : Option Bool)
        | some txout =>
          match GetKernelStakeModifier env blockFrom.phashBlock f with
          | .found nStakeModifier _ _ =>
            if env.Hash (kernelStreamV1 nStakeModifier (blockFrom.nTime % 2 ^ 32) nTxPrevOffset
                (if txPrev.nTime = 0 then blockFrom.nTime % 2 ^ 32 else txPrev.nTime) prevout.n
                nTimeTx) >
              (coinDayWeight txout.nValue (GetCoinAgeWeight env
                ((if txPrev.nTime = 0 then blockFrom.nTime % 2 ^ 32 else txPrev.nTime : Nat) : Int)
                (nTimeTx : Int)) * SetCompact nBits) % 2 ^ 256 then some false
            else some true
          | _ => some false) = o.map (fun _ => false) := by
      intro o
      cases o with
      | none => rfl
      | some txout =>
        rw [hfrom]
        rcases hfail with h | h <;> rw [h] <;> rfl
    unfold CheckStakeKernelHashV1
    simp only [hV]
    constructor
    · cases txPrev.vout[prevout.n]? <;> split_ifs <;> simp
    · intro hrange
      rw [List.getElem?_eq_getElem hrange]
      split_ifs <;> rfl

theorem C28_lookup_fails_witness :
    (GetKernelStakeModifier (envOf gridParams contestChain) 3 false).ok = false :=
  (C28_lookup_fails (envOf gridParams contestChain) 3 (mkIndex 3 2 21400 0 false)
    [mkIndex 2 1 20 0 false, mkIndex 1 0 10 0 true] false (by decide) (by decide) (by decide)).1

/-! ## The output read by the kernel check -/

/-- With `prevout.n` within the outputs of the previous transaction, the kernel
check returns a result. -/
theorem CheckStakeKernelHash_defined (env : Env) (pindexPrev : CBlockIndex) (nBits : Nat)
    (blockFrom : CBlockIndex) (nTxPrevOffset : Nat) (txPrev : CTransaction) (prevout : COutPoint)
    (nTimeTx : Nat) (f : Bool) (hrange : prevout.n < txPrev.vout.length) :
    ∃ b, CheckStakeKernelHash env pindexPrev nBits blockFrom nTxPrevOffset txPrev prevout nTimeTx
      f = some b := by
  have hsome : (CheckStakeKernelHash env pindexPrev nBits blockFrom nTxPrevOffset txPrev prevout
      nTimeTx f).isSome = true := by
    unfold CheckStakeKernelHash
    split
    · unfold CheckStakeKernelHashV2
      rw [List.getElem?_eq_getElem hrange]
      dsimp only
      split_ifs <;> rfl
    · unfold CheckStakeKernelHashV1
      rw [List.getElem?_eq_getElem hrange]
      dsimp only
      cases GetKernelStakeModifier env blockFrom.phashBlock f <;> dsimp only <;>
        split_ifs <;> rfl
  exact Option.isSome_iff_exists.mp hsome

/-- When `VerifySignature` accepts input 0, its prevout index is within the
outputs of the previous transaction. -/
theorem VerifySignature_in_range (env : Env) (txFrom txTo : CTransaction) (txin : CTxIn)
    (flags : Nat) (hin : txTo.vin[0]? = some txin)
    (hsig : VerifySignature env txFrom txTo 0 flags = some true) :
    txin.prevout.n < txFrom.vout.length := by
  unfold VerifySignature at hsig
  simp only [hin] at hsig
  by_contra hnot
  rw [List.getElem?_eq_none (Nat.le_of_not_lt hnot)] at hsig
  simp at hsig

/-- C30: for a transaction with an input 0, `CheckProofOfStake` reaches the
kernel check only after `VerifySignature` has accepted input 0, and then
`prevout.n` is within the outputs of the previous transaction, so the kernel
check reads an existing output and returns a result. Consequently
`CheckProofOfStake` always returns a result, and whenever it accepts, the index
is in range. -/
theorem C30_kernel_output_in_range (env : Env) (pindexPrev : CBlockIndex) (tx : CTransaction)
    (nBits : Nat) (state : CValidationState) (txin : CTxIn)
    (hin : tx.vin[0]? = some txin) :
    (∀ (txPrev : CTransaction) (hashBlock : Nat),
      env.GetTransaction txin.prevout.hash = some (txPrev, hashBlock) →
      VerifySignature env txPrev tx 0 SCRIPT_VERIFY_NONE = some true →
      txin.prevout.n < txPrev.vout.length ∧
        ∀ (blockFrom : CBlockIndex) (f : Bool), ∃ b,
          CheckStakeKernelHash env pindexPrev nBits blockFrom txin.prevout.n txPrev txin.prevout
            tx.nTime f = some b) ∧
    (∀ (txPrev : CTransaction) (hashBlock : Nat) (state' : CValidationState),
      env.GetTransaction txin.prevout.hash = some (txPrev, hashBlock) →
      CheckProofOfStake env pindexPrev tx nBits state = some (true, state') →
      txin.prevout.n < txPrev.vout.length) ∧
    (∃ r, CheckProofOfStake env pindexPrev tx nBits state = some r) := by
  have hreach : ∀ (txPrev : CTransaction) (hashBlock : Nat),
      env.GetTransaction txin.prevout.hash = some (txPrev, hashBlock) →
      VerifySignature env txPrev tx 0 SCRIPT_VERIFY_NONE = some true →
      txin.prevout.n < txPrev.vout.length ∧
        ∀ (blockFrom : CBlockIndex) (f : Bool), ∃ b,
          CheckStakeKernelHash env pindexPrev nBits blockFrom txin.prevout.n txPrev txin.prevout
            tx.nTime f = some b := by
    intro txPrev hashBlock _ hsig
    have hrange := VerifySignature_in_range env txPrev tx txin SCRIPT_VERIFY_NONE hin hsig
    exact ⟨hrange, fun blockFrom f =>
      CheckStakeKernelHash_defined env pindexPrev nBits blockFrom _ txPrev _ _ f hrange⟩
  refine ⟨hreach, ?_, ?_⟩
  · intro txPrev hashBlock state' hget hacc
    rcases VerifySignature_input0_defined env txPrev tx txin SCRIPT_VERIFY_NONE hin with
      hsig | hsig
    · exact (hreach txPrev hashBlock hget hsig).1
    · exfalso
      unfold CheckProofOfStake at hacc
      simp only [hin, hget, hsig] at hacc
      split at hacc
      · simp at hacc
      · split at hacc
        · split at hacc <;> simp [CValidationState.DoS] at hacc
        · split at hacc <;> simp [CValidationState.DoS] at hacc
  · unfold CheckProofOfStake
    simp only [hin]
    split
    · exact ⟨_, rfl⟩
    · cases hget : env.GetTransaction txin.prevout.hash with
      | none => exact ⟨_, rfl⟩
      | some e =>
        obtain ⟨txPrev, hashBlock⟩ := e
        dsimp only
        cases hmap : env.mapBlockIndex hashBlock with
        | none =>
          dsimp only
          split <;> exact ⟨_, rfl⟩
        | some e =>
          obtain ⟨pblockindex, pp⟩ := e
          dsimp only
          split
          · exact ⟨_, rfl⟩
          · rcases VerifySignature_input0_defined env txPrev tx txin SCRIPT_VERIFY_NONE hin with
              hsig | hsig
            · obtain ⟨b, hb⟩ := (hreach txPrev hashBlock hget hsig).2 pblockindex env.fDebug
              rw [hsig]
              dsimp only
              split
              · exact ⟨_, rfl⟩
              · rw [hb]
                cases b <;> exact ⟨_, rfl⟩
            · rw [hsig]
              exact ⟨_, rfl⟩

set_option maxRecDepth 100000 in
theorem C30_kernel_output_in_range_witness :
    ∃ r, CheckProofOfStake (stakeEnv 100000000) (mkIndex 7 5 60000 0 true) (coinstakeTx 100108)
      0x1d00ffff { nDoS := 0, fInvalid := false } = some r :=
  (C30_kernel_output_in_range (stakeEnv 100000000) (mkIndex 7 5 60000 0 true) (coinstakeTx 100108)
    0x1d00ffff { nDoS := 0, fInvalid := false }
    { prevout := { hash := 77, n := 0 }, scriptSig := [] } (by decide)).2.2

set_option maxRecDepth 100000 in
theorem C27_CheckKernel_necessary_witness :
    CheckKernel (stakeEnv 100000000) (mkIndex 7 5 60000 0 true) 0x1d00ffff
      (coinstakeTx 100108).nTime { hash := 77, n := 0 } false = some true :=
  C27_CheckKernel_necessary (stakeEnv 100000000) (mkIndex 7 5 60000 0 true) (coinstakeTx 100108)
    0x1d00ffff { nDoS := 0, fInvalid := false } { nDoS := 0, fInvalid := false }
    { prevout := { hash := 77, n := 0 }, scriptSig := [] } false (by decide) (by decide)

/-! ## What the next modifier depends on -/

/-- The loop of `SelectBlockFromCandidates` gives the same result under two
environments with the same hash primitive whose block indexes hold the same
entries for the candidates. -/
theorem selectLoop_env_congr (env1 env2 : Env) (hhash : env2.Hash = env1.Hash)
    (selected : List Nat) (stop : Int) (md : Nat) :
    ∀ (vs : List (Int × Nat)) (best : Option (Nat × CBlockIndex)),
      (∀ item ∈ vs, (env2.mapBlockIndex item.2).map Prod.fst =
        (env1.mapBlockIndex item.2).map Prod.fst) →
      selectLoop env2 selected stop md vs best = selectLoop env1 selected stop md vs best := by
  intro vs
  induction vs with
  | nil => intro best _; rfl
  | cons item rest ih =>
    intro best hidx
    have hrest : ∀ best', selectLoop env2 selected stop md rest best' =
        selectLoop env1 selected stop md rest best' :=
      fun best' => ih best' (fun it hit => hidx it (List.mem_cons_of_mem _ hit))
    have h0 := hidx item (List.mem_cons_self _ _)
    have hsel : ∀ b, selectionHash env2 b md = selectionHash env1 b md := by
      intro b
      simp only [selectionHash, hhash]
    rw [selectLoop, selectLoop]
    cases h1 : env1.mapBlockIndex item.2 with
    | none =>
      cases h2 : env2.mapBlockIndex item.2 with
      | none => rfl
      | some e2 => simp [h1, h2] at h0
    | some e1 =>
      cases h2 : env2.mapBlockIndex item.2 with
      | none => simp [h1, h2] at h0
      | some e2 =>
        obtain ⟨b1, p1⟩ := e1
        obtain ⟨b2, p2⟩ := e2
        have hb : b2 = b1 := by simpa [h1, h2] using h0
        subst hb
        simp only [hrest, hsel]

/-- The selection rounds give the same result under two environments with the
same parameters and hash primitive whose block indexes hold the same entries
for the candidates. -/
theorem selectionRounds_env_congr (env1 env2 : Env) (hparams : env2.params = env1.params)
    (hhash : env2.Hash = env1.Hash) (vs : List (Int × Nat)) (md : Nat)
    (hidx : ∀ item ∈ vs, (env2.mapBlockIndex item.2).map Prod.fst =
      (env1.mapBlockIndex item.2).map Prod.fst) :
    ∀ (nRounds nRound : Nat) (stop : Int) (selected : List Nat) (nNew : Nat),
      selectionRounds env2 vs md nRounds nRound stop selected nNew =
        selectionRounds env1 vs md nRounds nRound stop selected nNew := by
  intro nRounds
  induction nRounds with
  | zero => intro _ _ _ _; rfl
  | succ n ih =>
    intro nRound stop selected nNew
    simp only [selectionRounds, SelectBlockFromCandidates, hparams,
      selectLoop_env_congr env1 env2 hhash _ _ _ vs none hidx, ih]

/-- The candidate walk over a chain that begins with blocks at or after the
start and goes on with a block below the start, or ends, collects the blocks
at or after the start. -/
theorem collectCandidates_window (nStart : Int) (win older : BlockPtr)
    (hwin : ∀ b ∈ win, nStart ≤ (b.nTime : Int))
    (hold : ∀ b ∈ older.head?, (b.nTime : Int) < nStart) :
    collectCandidates nStart (win ++ older) =
      win.map (fun b => ((b.nTime : Int), b.phashBlock)) := by
  induction win with
  | nil =>
    cases older with
    | nil => rfl
    | cons o rest =>
      have := hold o (by simp)
      simp only [List.nil_append, collectCandidates, List.map_nil]
      rw [if_neg (by omega)]
  | cons b win ih =>
    have hb := hwin b (List.mem_cons_self _ _)
    have ih' := ih (fun x hx => hwin x (List.mem_cons_of_mem _ hx))
    rw [List.cons_append, collectCandidates, if_pos hb, ih', List.map_cons]

/-- When a block of `win` generated a modifier, `GetLastStakeModifier` does not
read past `win`. -/
theorem GetLastStakeModifier_window (win older1 older2 : BlockPtr)
    (hgen : ∃ b ∈ win, b.fGeneratedStakeModifier = true) :
    GetLastStakeModifier (win ++ older1) = GetLastStakeModifier (win ++ older2) := by
  obtain ⟨b, hb, hg⟩ := hgen
  have hsome : (win.find? (fun b => b.fGeneratedStakeModifier)).isSome = true := by
    rw [List.find?_isSome]
    exact ⟨b, hb, hg⟩
  obtain ⟨g, hfind⟩ := Option.isSome_iff_exists.mp hsome
  rw [GetLastStakeModifier_of_find (win ++ older1) g (by rw [List.find?_append, hfind]; rfl),
    GetLastStakeModifier_of_find (win ++ older2) g (by rw [List.find?_append, hfind]; rfl)]

/-- For two snapshots (chain and block index, same parameters and hash
primitive) in which the previous block and its ancestors down to the first
block below the start of the selection interval are the same blocks with the
same index entries, `ComputeNextStakeModifier` returns the same result provided
a block of that shared window generated a modifier, or the last modifiers
returned by `GetLastStakeModifier` are equal and their epochs compare alike
with the epoch of the previous block. -/
theorem window_determinism (env1 env2 : Env) (prev : CBlockIndex) (win older1 older2 : BlockPtr)
    (hparams : env2.params = env1.params) (hhash : env2.Hash = env1.Hash)
    (hwin : ∀ b ∈ prev :: win, selectionIntervalStart env1 prev ≤ (b.nTime : Int))
    (hold1 : ∀ b ∈ older1.head?, (b.nTime : Int) < selectionIntervalStart env1 prev)
    (hold2 : ∀ b ∈ older2.head?, (b.nTime : Int) < selectionIntervalStart env1 prev)
    (hindex : ∀ b ∈ prev :: win, (env2.mapBlockIndex b.phashBlock).map Prod.fst =
      (env1.mapBlockIndex b.phashBlock).map Prod.fst)
    (hlast : (∃ b ∈ prev :: win, b.fGeneratedStakeModifier = true) ∨
      ∃ md t1 t2, GetLastStakeModifier (prev :: (win ++ older1)) = some (md, t1) ∧
        GetLastStakeModifier (prev :: (win ++ older2)) = some (md, t2) ∧
        (t1 / env1.params.nModifierInterval ≥ prev.nTime / env1.params.nModifierInterval ↔
          t2 / env1.params.nModifierInterval ≥ prev.nTime / env1.params.nModifierInterval)) :
    ComputeNextStakeModifier env2 (prev :: (win ++ older2)) =
      ComputeNextStakeModifier env1 (prev :: (win ++ older1)) := by
  have hstart : selectionIntervalStart env2 prev = selectionIntervalStart env1 prev := by
    simp only [selectionIntervalStart, hparams]
  have hcand : sortedCandidates env2 (prev :: (win ++ older2)) =
      sortedCandidates env1 (prev :: (win ++ older1)) := by
    simp only [sortedCandidates, hstart]
    rw [← List.cons_append, ← List.cons_append,
      collectCandidates_window _ (prev :: win) older1 hwin hold1,
      collectCandidates_window _ (prev :: win) older2 hwin hold2]
  have hidx : ∀ item ∈ sortedCandidates env1 (prev :: (win ++ older1)),
      (env2.mapBlockIndex item.2).map Prod.fst = (env1.mapBlockIndex item.2).map Prod.fst := by
    intro item hitem
    simp only [sortedCandidates] at hitem
    rw [← List.cons_append, collectCandidates_window _ (prev :: win) older1 hwin hold1] at hitem
    have hmem := (List.perm_insertionSort pairLe _).subset hitem
    rw [List.mem_reverse] at hmem
    obtain ⟨b, hb, rfl⟩ := List.mem_map.mp hmem
    exact hindex b hb
  have hmain : ∀ md t1 t2, GetLastStakeModifier (prev :: (win ++ older1)) = some (md, t1) →
      GetLastStakeModifier (prev :: (win ++ older2)) = some (md, t2) →
      (t1 / env1.params.nModifierInterval ≥ prev.nTime / env1.params.nModifierInterval ↔
        t2 / env1.params.nModifierInterval ≥ prev.nTime / env1.params.nModifierInterval) →
      ComputeNextStakeModifier env2 (prev :: (win ++ older2)) =
        ComputeNextStakeModifier env1 (prev :: (win ++ older1)) := by
    intro md t1 t2 h1 h2 hiff
    by_cases hge : t1 / env1.params.nModifierInterval ≥ prev.nTime / env1.params.nModifierInterval
    · have hge2 := hiff.mp hge
      simp only [ComputeNextStakeModifier, h1, h2, hparams, hge, hge2, if_true]
    · have hge2 : ¬ t2 / env1.params.nModifierInterval ≥
          prev.nTime / env1.params.nModifierInterval := fun h => hge (hiff.mpr h)
      rw [ComputeNextStakeModifier_unfold env1 prev _ md t1 h1 (Nat.lt_of_not_le hge),
        ComputeNextStakeModifier_unfold env2 prev _ md t2 h2
          (by rw [hparams]; exact Nat.lt_of_not_le hge2),
        hcand, hstart,
        selectionRounds_env_congr env1 env2 hparams hhash _ md hidx]
  rcases hlast with hgen | ⟨md, t1, t2, h1, h2, hiff⟩
  · have heq := GetLastStakeModifier_window (prev :: win) older1 older2 hgen
    simp only [List.cons_append] at heq
    obtain ⟨⟨md, t⟩, h1⟩ := GetLastStakeModifier_defined prev (win ++ older1)
    exact hmain md t t h1 (by rw [← heq, h1]) Iff.rfl
  · exact hmain md t1 t2 h1 h2 hiff

/-! ## Snapshots with stored modifiers -/

/-- The start of the selection interval is not later than the previous block. -/
theorem selectionIntervalStart_le (env : Env) (prev : CBlockIndex) :
    selectionIntervalStart env prev ≤ (prev.nTime : Int) := by
  unfold selectionIntervalStart
  have h := Nat.div_mul_le_self prev.nTime env.params.nModifierInterval
  omega

/-- A block whose epoch is not before the epoch of the previous block is not
earlier than the start of the selection interval. -/
theorem start_le_of_epoch (env : Env) (prev g : CBlockIndex)
    (h : prev.nTime / env.params.nModifierInterval ≤ g.nTime / env.params.nModifierInterval) :
    selectionIntervalStart env prev ≤ (g.nTime : Int) := by
  unfold selectionIntervalStart
  have h1 := Nat.mul_le_mul_right env.params.nModifierInterval h
  have h2 := Nat.div_mul_le_self g.nTime env.params.nModifierInterval
  omega

/-- A block of a later epoch has a later time. -/
theorem time_lt_of_epoch_lt (a b I : Nat) (h : a / I < b / I) : a < b := by
  by_contra hn
  exact absurd (Nat.div_le_div_right (Nat.le_of_not_lt hn)) (Nat.not_le.mpr h)

/-- In a chain with stored modifiers some block generated a modifier: the
oldest block stores the result for a null previous block. -/
theorem stored_has_generator (env : Env) :
    ∀ (b : CBlockIndex) (rest : BlockPtr), modifiersStored env (b :: rest) →
      ∃ g, (b :: rest).find? (fun b => b.fGeneratedStakeModifier) = some g := by
  intro b rest
  induction rest generalizing b with
  | nil =>
    intro hst
    have h := hst.1
    simp only [ComputeNextStakeModifier, Option.some.injEq, Prod.mk.injEq] at h
    exact ⟨b, by simp [List.find?_cons, ← h.2]⟩
  | cons q rest ih =>
    intro hst
    by_cases hb : b.fGeneratedStakeModifier = true
    · exact ⟨b, by simp [List.find?_cons, hb]⟩
    · obtain ⟨g, hg⟩ := ih q hst.2
      have hb' : b.fGeneratedStakeModifier = false := by simpa using hb
      exact ⟨g, by rw [List.find?_cons, hb']; exact hg⟩

/-- A chain whose most recent generator is `g` splits at `g`, and no block
before `g` generated a modifier. -/
theorem find_generator_split :
    ∀ (c : BlockPtr) (g : CBlockIndex),
      c.find? (fun b => b.fGeneratedStakeModifier) = some g →
      g.fGeneratedStakeModifier = true ∧
        ∃ s o, c = s ++ g :: o ∧ ∀ b ∈ s, b.fGeneratedStakeModifier = false := by
  intro c
  induction c with
  | nil => intro g hg; simp at hg
  | cons b rest ih =>
    intro g hg
    by_cases hb : b.fGeneratedStakeModifier = true
    · have hbg : b = g := by simpa [List.find?_cons, hb] using hg
      subst hbg
      exact ⟨hb, [], rest, rfl, fun x hx => by simp at hx⟩
    · have hb' : b.fGeneratedStakeModifier = false := by simpa using hb
      have hrest : rest.find? (fun b => b.fGeneratedStakeModifier) = some g := by
        simpa [List.find?_cons, hb'] using hg
      obtain ⟨hgg, s, o, hc, hs⟩ := ih g hrest
      refine ⟨hgg, b :: s, o, by rw [hc]; rfl, ?_⟩
      intro x hx
      rcases List.mem_cons.mp hx with rfl | hx'
      · exact hb'
      · exact hs x hx'

/-- Two chains related block by block, the first of which splits at a block,
split at the same depth. -/
theorem related_split {R : CBlockIndex → CBlockIndex → Prop} :
    ∀ (s1 : BlockPtr) (g : CBlockIndex) (o1 c2 : BlockPtr),
      List.Forall₂ R (s1 ++ g :: o1) c2 →
      ∃ s2 g2 o2, c2 = s2 ++ g2 :: o2 ∧ List.Forall₂ R s1 s2 ∧ R g g2 := by
  intro s1
  induction s1 with
  | nil =>
    intro g o1 c2 h
    cases h with
    | cons hr ht => exact ⟨[], _, _, rfl, List.Forall₂.nil, hr⟩
  | cons y s1 ih =>
    intro g o1 c2 h
    cases h with
    | cons hr ht =>
      obtain ⟨s2, g2, o2, hc, hs, hg⟩ := ih g o1 _ ht
      exact ⟨_ :: s2, g2, o2, by rw [hc]; rfl, List.Forall₂.cons hr hs, hg⟩

/-- Between a generating block `g` at or after the start of the selection
interval and the top of two chains with stored modifiers that hold the same
blocks wherever a block is at or after the start: if no block above `g`
generated a modifier in the first chain, none did in the second. -/
theorem no_generator_above (env1 env2 : Env)
    (hI : env2.params.nModifierInterval = env1.params.nModifierInterval)
    (nStart : Int) (g : CBlockIndex) (o1 o2 : BlockPtr)
    (hgen : g.fGeneratedStakeModifier = true) (hstart : nStart ≤ (g.nTime : Int)) :
    ∀ (s1 s2 : BlockPtr),
      List.Forall₂ (fun b1 b2 => (nStart ≤ (b1.nTime : Int) ∨ nStart ≤ (b2.nTime : Int)) → b1 = b2)
        s1 s2 →
      (∀ b ∈ s1, b.fGeneratedStakeModifier = false) →
      modifiersStored env1 (s1 ++ g :: o1) → modifiersStored env2 (s2 ++ g :: o2) →
      ∀ b ∈ s2, b.fGeneratedStakeModifier = false := by
  intro s1 s2 hrel
  induction hrel with
  | nil => intro _ _ _ b hb; simp at hb
  | @cons y x s1' s2' hyx htail ih =>
    intro hs1 hst1 hst2
    have hs1' : ∀ b ∈ s1', b.fGeneratedStakeModifier = false :=
      fun b hb => hs1 b (List.mem_cons_of_mem _ hb)
    have hs2' := ih hs1' hst1.2 hst2.2
    have hy : y.fGeneratedStakeModifier = false := hs1 y (List.mem_cons_self _ _)
    have hx : x.fGeneratedStakeModifier = false := by
      by_contra hxg
      have hxg' : x.fGeneratedStakeModifier = true := by simpa using hxg
      have hc2 := hst2.1
      rw [hxg'] at hc2
      have hf2 := find_generator_append s2' g o2 hs2' hgen
      have hf1 := find_generator_append s1' g o1 hs1' hgen
      cases htail with
      | nil =>
        have hcar := ComputeNextStakeModifier_carry env2 g o2 g hf2 (le_refl _)
        have hc2' : ComputeNextStakeModifier env2 (g :: o2) = some (x.nStakeModifier, true) := hc2
        rw [hcar] at hc2'
        simp at hc2'
      | @cons y' x' s1'' s2'' hyx' htail' =>
        by_cases hep : x'.nTime / env2.params.nModifierInterval ≤
            g.nTime / env2.params.nModifierInterval
        · have hcar := ComputeNextStakeModifier_carry env2 x' (s2'' ++ g :: o2) g hf2 hep
          have hc2' : ComputeNextStakeModifier env2 (x' :: (s2'' ++ g :: o2)) =
              some (x.nStakeModifier, true) := hc2
          rw [hcar] at hc2'
          simp at hc2'
        · have hlt : g.nTime / env2.params.nModifierInterval <
              x'.nTime / env2.params.nModifierInterval := Nat.lt_of_not_le hep
          have htime := time_lt_of_epoch_lt _ _ _ hlt
          have hsame : y' = x' := hyx' (Or.inr (by omega))
          subst hsame
          have hc1 : ComputeNextStakeModifier env1 (y' :: (s1'' ++ g :: o1)) =
              some (y.nStakeModifier, y.fGeneratedStakeModifier) := hst1.1
          have := ComputeNextStakeModifier_recompute env1 y' (s1'' ++ g :: o1) g.nStakeModifier
            g.nTime (GetLastStakeModifier_of_find _ g hf1) (by rw [← hI]; exact hlt) _ hc1
          simp only at this
          rw [hy] at this
          simp at this
    intro b hb
    rcases List.mem_cons.mp hb with rfl | hb'
    · exact hx
    · exact hs2' b hb'

/-- The last generator of one snapshot, when its epoch is not before the epoch
of the previous block, is the last generator of the other snapshot. -/
theorem last_generator_shared (env1 env2 : Env)
    (hI : env2.params.nModifierInterval = env1.params.nModifierInterval)
    (prev : CBlockIndex) (c1 c2 : BlockPtr) (g : CBlockIndex)
    (hrel : List.Forall₂ (fun b1 b2 =>
      (selectionIntervalStart env1 prev ≤ (b1.nTime : Int) ∨
        selectionIntervalStart env1 prev ≤ (b2.nTime : Int)) → b1 = b2) c1 c2)
    (hst1 : modifiersStored env1 c1) (hst2 : modifiersStored env2 c2)
    (hfind : c1.find? (fun b => b.fGeneratedStakeModifier) = some g)
    (hep : prev.nTime / env1.params.nModifierInterval ≤ g.nTime / env1.params.nModifierInterval) :
    c2.find? (fun b => b.fGeneratedStakeModifier) = some g := by
  obtain ⟨hgen, s1, o1, hc1, hs1⟩ := find_generator_split c1 g hfind
  subst hc1
  obtain ⟨s2, g2, o2, hc2, hrel', hg⟩ := related_split s1 g o1 c2 hrel
  have hstart := start_le_of_epoch env1 prev g hep
  have hg2 : g = g2 := hg (Or.inl hstart)
  subst hg2
  subst hc2
  exact find_generator_append s2 g o2
    (no_generator_above env1 env2 hI _ g o1 o2 hgen hstart s1 s2 hrel' hs1 hst1 hst2) hgen

/-- Two chains that hold the same blocks wherever a block is at or after the
start share the blocks down to the first block below the start. -/
theorem shared_window (nStart : Int) :
    ∀ (c1 c2 : BlockPtr),
      List.Forall₂ (fun b1 b2 => (nStart ≤ (b1.nTime : Int) ∨ nStart ≤ (b2.nTime : Int)) → b1 = b2)
        c1 c2 →
      ∃ win o1 o2, c1 = win ++ o1 ∧ c2 = win ++ o2 ∧ (∀ b ∈ win, nStart ≤ (b.nTime : Int)) ∧
        (∀ b ∈ o1.head?, (b.nTime : Int) < nStart) ∧ (∀ b ∈ o2.head?, (b.nTime : Int) < nStart) := by
  intro c1 c2 hrel
  induction hrel with
  | nil => exact ⟨[], [], [], rfl, rfl, fun b hb => by simp at hb, fun b hb => by simp at hb,
      fun b hb => by simp at hb⟩
  | @cons y x c1' c2' hyx _ ih =>
    by_cases hy : nStart ≤ (y.nTime : Int)
    · have hsame : y = x := hyx (Or.inl hy)
      subst hsame
      obtain ⟨win, o1, o2, h1, h2, hw, ho1, ho2⟩ := ih
      refine ⟨y :: win, o1, o2, by rw [h1]; rfl, by rw [h2]; rfl, ?_, ho1, ho2⟩
      intro b hb
      rcases List.mem_cons.mp hb with rfl | hb'
      · exact hy
      · exact hw b hb'
    · have hx : ¬ nStart ≤ (x.nTime : Int) := by
        intro hx
        have hsame : y = x := hyx (Or.inr hx)
        subst hsame
        exact hy hx
      refine ⟨[], y :: c1', x :: c2', rfl, rfl, fun b hb => by simp at hb, ?_, ?_⟩
      · intro b hb
        simp only [List.head?_cons, Option.mem_def, Option.some.injEq] at hb
        subst hb
        omega
      · intro b hb
        simp only [List.head?_cons, Option.mem_def, Option.some.injEq] at hb
        subst hb
        omega

/-- C24: for two chain snapshots with stored modifiers (every block stores the
modifier and flag that `ComputeNextStakeModifier` returns for its predecessor),
the same parameters and hash primitive, and the same previous block `B`, in
which the ancestors of `B` at equal depth are the same block whenever one of
them has a time at or after the start of the selection interval, and in which
the blocks at or after the start have the same index entries,
`ComputeNextStakeModifier(B)` returns the same modifier and the same generated
flag, whatever the ancestors below the start are. -/
theorem C24_snapshot_determinism (env1 env2 : Env) (prev : CBlockIndex) (r1 r2 : BlockPtr)
    (hparams : env2.params = env1.params) (hhash : env2.Hash = env1.Hash)
    (hst1 : modifiersStored env1 (prev :: r1)) (hst2 : modifiersStored env2 (prev :: r2))
    (hsame : List.Forall₂ (fun b1 b2 =>
      (selectionIntervalStart env1 prev ≤ (b1.nTime : Int) ∨
        selectionIntervalStart env1 prev ≤ (b2.nTime : Int)) → b1 = b2) r1 r2)
    (hindex : ∀ b ∈ prev :: r1, selectionIntervalStart env1 prev ≤ (b.nTime : Int) →
      (env2.mapBlockIndex b.phashBlock).map Prod.fst =
        (env1.mapBlockIndex b.phashBlock).map Prod.fst) :
    ComputeNextStakeModifier env2 (prev :: r2) = ComputeNextStakeModifier env1 (prev :: r1) := by
  have hI : env2.params.nModifierInterval = env1.params.nModifierInterval := by rw [hparams]
  obtain ⟨win, o1, o2, h1, h2, hw, ho1, ho2⟩ := shared_window _ r1 r2 hsame
  have hwin : ∀ b ∈ prev :: win, selectionIntervalStart env1 prev ≤ (b.nTime : Int) := by
    intro b hb
    rcases List.mem_cons.mp hb with rfl | hb'
    · exact selectionIntervalStart_le env1 b
    · exact hw b hb'
  have hidx : ∀ b ∈ prev :: win, (env2.mapBlockIndex b.phashBlock).map Prod.fst =
      (env1.mapBlockIndex b.phashBlock).map Prod.fst := by
    intro b hb
    apply hindex b _ (hwin b hb)
    rcases List.mem_cons.mp hb with rfl | hb'
    · exact List.mem_cons_self _ _
    · rw [h1]
      exact List.mem_cons_of_mem _ (List.mem_append_left _ hb')
  have hlast : (∃ b ∈ prev :: win, b.fGeneratedStakeModifier = true) ∨
      ∃ md t1 t2, GetLastStakeModifier (prev :: (win ++ o1)) = some (md, t1) ∧
        GetLastStakeModifier (prev :: (win ++ o2)) = some (md, t2) ∧
        (t1 / env1.params.nModifierInterval ≥ prev.nTime / env1.params.nModifierInterval ↔
          t2 / env1.params.nModifierInterval ≥ prev.nTime / env1.params.nModifierInterval) := by
    by_cases hP : prev.fGeneratedStakeModifier = true
    · exact Or.inl ⟨prev, List.mem_cons_self _ _, hP⟩
    · have hP' : prev.fGeneratedStakeModifier = false := by simpa using hP
      refine Or.inr ?_
      rw [← h1, ← h2]
      obtain ⟨g1, hg1⟩ := stored_has_generator env1 prev r1 hst1
      obtain ⟨g2, hg2⟩ := stored_has_generator env2 prev r2 hst2
      have hf1 : r1.find? (fun b => b.fGeneratedStakeModifier) = some g1 := by
        simpa [List.find?_cons, hP'] using hg1
      have hf2 : r2.find? (fun b => b.fGeneratedStakeModifier) = some g2 := by
        simpa [List.find?_cons, hP'] using hg2
      have hmod : ∀ (env : Env) (r : BlockPtr) (g : CBlockIndex),
          modifiersStored env (prev :: r) →
          r.find? (fun b => b.fGeneratedStakeModifier) = some g →
          prev.nStakeModifier = g.nStakeModifier := by
        intro env r g hst hf
        cases r with
        | nil => simp at hf
        | cons q r' =>
          have hc : ComputeNextStakeModifier env (q :: r') =
              some (prev.nStakeModifier, prev.fGeneratedStakeModifier) := hst.1
          by_cases hep : q.nTime / env.params.nModifierInterval ≤
              g.nTime / env.params.nModifierInterval
          · rw [ComputeNextStakeModifier_carry env q r' g hf hep] at hc
            simp only [Option.some.injEq, Prod.mk.injEq] at hc
            exact hc.1.symm
          · have := ComputeNextStakeModifier_recompute env q r' g.nStakeModifier g.nTime
              (GetLastStakeModifier_of_find _ g hf) (Nat.lt_of_not_le hep) _ hc
            simp only at this
            rw [hP'] at this
            simp at this
      have hm1 := hmod env1 r1 g1 hst1 hf1
      have hm2 := hmod env2 r2 g2 hst2 hf2
      have hflip : List.Forall₂ (fun b1 b2 =>
          (selectionIntervalStart env2 prev ≤ (b1.nTime : Int) ∨
            selectionIntervalStart env2 prev ≤ (b2.nTime : Int)) → b1 = b2) r2 r1 := by
        have hs : selectionIntervalStart env2 prev = selectionIntervalStart env1 prev := by
          simp only [selectionIntervalStart, hparams]
        rw [hs]
        exact List.Forall₂.imp (fun a b h hab => (h (Or.symm hab)).symm) hsame.flip
      refine ⟨g1.nStakeModifier, g1.nTime, g2.nTime, GetLastStakeModifier_of_find _ g1 hg1, ?_, ?_⟩
      · rw [GetLastStakeModifier_of_find _ g2 hg2, ← hm2, hm1]
      · constructor
        · intro hep
          have := last_generator_shared env1 env2 hI prev r1 r2 g1 hsame hst1.2 hst2.2 hf1 hep
          rw [hf2] at this
          simp only [Option.some.injEq] at this
          rw [this]
          exact hep
        · intro hep
          have := last_generator_shared env2 env1 hI.symm prev r2 r1 g2 hflip hst2.2 hst1.2 hf2
            (by rw [hI]; exact hep)
          rw [hf1] at this
          simp only [Option.some.injEq] at this
          rw [this]
          exact hep
  have := window_determinism env1 env2 prev win o1 o2 hparams hhash hwin ho1 ho2 hidx hlast
  rw [h1, h2]
  exact this

theorem C24_snapshot_determinism_witness :
    ComputeNextStakeModifier
        (envOf gridParams [mkIndex 3 3 51500 0 false, mkIndex 2 2 29880 0 false,
          mkIndex 1 1 29870 0 false, mkIndex 9 0 29500 0 true])
        [mkIndex 3 3 51500 0 false, mkIndex 2 2 29880 0 false, mkIndex 1 1 29870 0 false,
          mkIndex 9 0 29500 0 true] =
      ComputeNextStakeModifier (envOf gridParams windowChain)
        [mkIndex 3 3 51500 0 false, mkIndex 2 2 29880 0 false, mkIndex 1 1 29870 0 false,
          mkIndex 4 0 29800 0 true] :=
  C24_snapshot_determinism (envOf gridParams windowChain)
    (envOf gridParams [mkIndex 3 3 51500 0 false, mkIndex 2 2 29880 0 false,
      mkIndex 1 1 29870 0 false, mkIndex 9 0 29500 0 true])
    (mkIndex 3 3 51500 0 false)
    [mkIndex 2 2 29880 0 false, mkIndex 1 1 29870 0 false, mkIndex 4 0 29800 0 true]
    [mkIndex 2 2 29880 0 false, mkIndex 1 1 29870 0 false, mkIndex 9 0 29500 0 true]
    rfl rfl (by decide) (by decide)
    (List.Forall₂.cons (fun _ => rfl) (List.Forall₂.cons (fun _ => rfl)
      (List.Forall₂.cons (fun h => absurd h (by decide)) List.Forall₂.nil)))
    (by decide)

end Pos
